import Mathlib

/-!
# Comfig: a verified shallow embedding

This file embeds the Comfig configuration library (src/index.js): the JS value
model, the line-oriented parser (`ComfigParser`), the serializer
(`ComfigSerializer`) and the store operations of the `Comfig` class
(get/set/delete, section management, sync/upgrade, index rebuilding).

Embedding conventions:
* A JS value is `JVal`.  JS `undefined` is `JVal.undef`; the bound `$`-methods
  of the object form are `JVal.func`.  Floating point numbers are carried as
  their decimal source text (the parser only ever produces them from a
  `digits.digits` literal, and the serializer prints that text back).
* A JS object is an insertion-ordered association list `List (String × α)`
  with upsert assignment (`objSet`), deletion (`objDel`) and `Object.keys`
  (`objKeys`).  The JS quirk that integer-like keys iterate first is not
  modelled; no claim below depends on it, and all concrete inputs avoid
  integer-like keys.
* A text is handled as its list of physical lines (the JS code joins pushed
  strings, each ending in a newline, and the parser splits on the newline
  character; `splitChar`/`joinChar` implement exactly that splitting).
* The regular expressions of the parser are implemented character by
  character (`matchMulti`, `matchArray`, `matchObjLine`, `matchOption`,
  `matchObjBody`), with `\s` as the JS whitespace set and `[\w_-]` as ASCII
  word characters plus hyphen.
* Paths where the JS code would raise a `TypeError` (stale index entries,
  assigning a property of a primitive in strict mode) are modelled
  explicitly (`SetRes.thrown`) or marked unreachable under the index
  invariant.
* The serializer and the formatting helpers use the default construction
  options: assignment text `": "`, indent `"\t"`, comment marker `"■"`.
-/

/-- JS whitespace (the `\s` regex class and the trim set). -/
def jsIsWS (c : Char) : Bool :=
  [' ', '\t', '\n', '\r', '\x0b', '\x0c', '\u00A0', '\u1680', '\u2028',
   '\u2029', '\u202F', '\u205F', '\u3000', '\uFEFF'].contains c
  || (decide ('\u2000' ≤ c) && decide (c ≤ '\u200A'))

/-- The character class `[\w_-]` used by every key-matching regex. -/
def isWordChar (c : Char) : Bool := c.isAlphanum || c == '_' || c == '-'

/-- Left trim at the character-list level. -/
def trimLeftL (l : List Char) : List Char := l.dropWhile jsIsWS

/-- Both-ends trim at the character-list level. -/
def trimL (l : List Char) : List Char :=
  ((l.dropWhile jsIsWS).reverse.dropWhile jsIsWS).reverse

/-- `String.prototype.trim` with the JS whitespace set. -/
def jsTrim (s : String) : String := ⟨trimL s.data⟩

/-- Split a character list at a separator, keeping empty parts (JS
`String.prototype.split` with a single-character separator). -/
def splitCharGo (sep : Char) : List Char → List Char → List String
  | [], acc => [⟨acc.reverse⟩]
  | c :: cs, acc =>
    if c = sep then ⟨acc.reverse⟩ :: splitCharGo sep cs []
    else splitCharGo sep cs (c :: acc)

/-- JS `s.split(sep)` for a one-character separator. -/
def splitChar (sep : Char) (s : String) : List String := splitCharGo sep s.data []

/-- JS `parts.join(sep)` for a one-character separator. -/
def joinChar (sep : Char) : List String → String
  | [] => ""
  | [p] => p
  | p :: q :: ps => p ++ ⟨[sep]⟩ ++ joinChar sep (q :: ps)

/-- Does the string contain a line break (JS `includes('\n')` /
`indexOf('\n') > -1`). -/
def hasNL (s : String) : Bool := s.data.any (· == '\n')

/-- A JS runtime value, as far as Comfig can observe it. -/
inductive JVal where
  | null
  | undef
  | func
  | bool (b : Bool)
  | num (n : Int)
  | float (src : String)
  | str (s : String)
  | arr (elems : List JVal)
  | obj (entries : List (String × JVal))

/-- JS object property read: first matching key. -/
def objGet (o : List (String × α)) (k : String) : Option α :=
  (o.find? (·.1 == k)).map (·.2)

/-- Is the key present. -/
def objHas (o : List (String × α)) (k : String) : Bool := o.any (·.1 == k)

/-- JS object property write: update in place when the key exists, append
otherwise (insertion order is preserved). -/
def objSet (o : List (String × α)) (k : String) (v : α) : List (String × α) :=
  if objHas o k then o.map (fun kv => if kv.1 == k then (k, v) else kv)
  else o ++ [(k, v)]

/-- JS `delete o[k]`. -/
def objDel (o : List (String × α)) (k : String) : List (String × α) :=
  o.filter (fun kv => kv.1 != k)

/-- JS `Object.keys`. -/
def objKeys (o : List (String × α)) : List String := o.map (·.1)

/-- A section of the tree: `{comment, data}` (src/index.js parser/serializer). -/
structure Sect where
  comment : String
  data : List (String × JVal)

/-- The store state: `this.tree` and `this.index` of the `Comfig` class. -/
structure Store where
  tree : List Sect
  index : List (String × Nat)

-- ### Scalar conversion (ComfigParser.convertValue)

/-- The `^\d+$` test. -/
def isIntLit (s : String) : Bool := !s.data.isEmpty && s.data.all Char.isDigit

/-- The `^\d+\.\d+$` test. -/
def isFloatLit (s : String) : Bool :=
  let ip := s.data.takeWhile Char.isDigit
  match s.data.dropWhile Char.isDigit with
  | '.' :: fp => !ip.isEmpty && (!fp.isEmpty && fp.all Char.isDigit)
  | _ => false

/-- Digit run to number (`parseInt` on an all-digit string). -/
def digitsToNat (l : List Char) : Nat :=
  l.foldl (fun a c => a * 10 + (c.toNat - 48)) 0

/-- `ComfigParser.convertValue`: trim, then classify the scalar literal. -/
def convertValue (x : String) : JVal :=
  let v := jsTrim x
  if isIntLit v then .num (digitsToNat v.data)
  else if isFloatLit v then .float v
  else if v = "true" then .bool true
  else if v = "false" then .bool false
  else if v = "null" ∨ v = "undefined" ∨ v = "" then .null
  else .str v

-- ### The parser's regular expressions

/-- Common prelude `^([\w_-]+)\s*[:=]` of the four key-anchored regexes:
returns the captured key and the characters after the assignment mark. -/
def matchAfterAssign (l : List Char) : Option (List Char × List Char) :=
  let key := l.takeWhile isWordChar
  if key.isEmpty then none
  else
    match (l.dropWhile isWordChar).dropWhile jsIsWS with
    | c :: rest => if c = ':' ∨ c = '=' then some (key, rest) else none
    | [] => none

/-- `^([\w_-]+)\s*[:=]\s*(.*)` (the `option` and, after `^\s+`, the
`objectBody` regex): captures key and the rest after leading whitespace. -/
def matchOption (line : String) : Option (String × String) :=
  (matchAfterAssign line.data).map fun kr => (⟨kr.1⟩, ⟨kr.2.dropWhile jsIsWS⟩)

/-- The `multistring` regex: after the assignment mark, a whitespace run that
ends in a literal space, immediately followed by three double quotes. -/
def matchMulti (line : String) : Option String :=
  match matchAfterAssign line.data with
  | none => none
  | some (key, rest) =>
    let run := rest.takeWhile jsIsWS
    if run ≠ [] ∧ run.getLast? = some ' '
        ∧ (rest.dropWhile jsIsWS).take 3 = ['"', '"', '"']
    then some ⟨key⟩ else none

/-- The `array` regex: assignment mark, optional whitespace, `[`. -/
def matchArray (line : String) : Option String :=
  match matchAfterAssign line.data with
  | none => none
  | some (key, rest) =>
    if (rest.dropWhile jsIsWS).head? = some '[' then some ⟨key⟩ else none

/-- The `object` regex: assignment mark, optional whitespace, `{`. -/
def matchObjLine (line : String) : Option String :=
  match matchAfterAssign line.data with
  | none => none
  | some (key, rest) =>
    if (rest.dropWhile jsIsWS).head? = some '\x7b' then some ⟨key⟩ else none

/-- The `objectBody` regex `^\s+([\w_-]+)\s*[:=]\s*(.*)`. -/
def matchObjBody (line : String) : Option (String × String) :=
  match line.data with
  | [] => none
  | c :: _ =>
    if jsIsWS c then matchOption ⟨line.data.dropWhile jsIsWS⟩ else none

-- ### The parser state machine (ComfigParser.parse)

/-- The `last` variable of the parse loop (`undefined`/`null` are `clear`). -/
inductive PMode where
  | clear | blank | mstr | marr | mobj
  deriving DecidableEq

/-- The blank section created by `resetSection`. -/
def emptySect : Sect := ⟨"", []⟩

/-- The mutable state of the parse loop.  `sectionId` always equals
`tree.length` (blank sections are never flushed), so the index records
`tree.length` where the JS code records `this.sectionId`. -/
structure PState where
  last : PMode
  key : String
  sbuf : List String
  abuf : List JVal
  obuf : List (String × JVal)
  cur : Sect
  index : List (String × Nat)
  tree : List Sect

/-- Parser start state. -/
def pInit : PState := ⟨.clear, "", [], [], [], emptySect, [], []⟩

/-- `ComfigParser.addKey` (the unused `this.object` mirror is omitted). -/
def addKeyP (st : PState) (k : String) (v : JVal) : PState :=
  { st with cur := { st.cur with data := objSet st.cur.data k v },
            index := objSet st.index k st.tree.length }

/-- `ComfigParser.addComment`. -/
def addCommentP (st : PState) (line : String) : PState :=
  { st with cur := { st.cur with comment := st.cur.comment ++ line ++ "\n" } }

/-- `ComfigParser.flush`: commit the current section unless it is blank. -/
def pflush (st : PState) : PState :=
  if st.cur.comment = "" ∧ st.cur.data.isEmpty then st
  else { st with tree := st.tree ++ [st.cur], cur := emptySect }

/-- One iteration of the `for(const line of lines)` loop, with the exact
branch order of the JS code. -/
def pstep (st : PState) (line : String) : PState :=
  let lean := jsTrim line
  if lean = "" then
    if st.last = .mstr then { st with sbuf := st.sbuf ++ [line] }
    else if st.last = .blank then st
    else { pflush st with last := .blank }
  else
    match matchMulti line with
    | some k => { st with key := k, last := .mstr, sbuf := [] }
    | none =>
      if st.last = .mstr then
        if lean = "\"\"\"" then
          { addKeyP st st.key (.str (joinChar '\n' st.sbuf)) with last := .clear }
        else { st with sbuf := st.sbuf ++ [line] }
      else
        match matchArray line with
        | some k => { st with key := k, last := .marr, abuf := [] }
        | none =>
          if st.last = .marr then
            if lean = "]" then
              { addKeyP st st.key (.arr st.abuf) with last := .clear }
            else { st with abuf := st.abuf ++ [convertValue line] }
          else
            match matchObjLine line with
            | some k => { st with key := k, last := .mobj, obuf := [] }
            | none =>
              if st.last = .mobj then
                if lean = "\x7d" then
                  { addKeyP st st.key (.obj st.obuf) with last := .clear }
                else
                  match matchObjBody line with
                  | some kv => { st with obuf := objSet st.obuf kv.1 (convertValue kv.2) }
                  | none => st
              else
                match matchOption line with
                | some kv => { addKeyP st kv.1 (convertValue kv.2) with last := .clear }
                | none => { addCommentP st line with last := .clear }

/-- Run the parse loop over the lines, with the final flush. -/
def parseLines (ls : List String) : PState := pflush (ls.foldl pstep pInit)

/-- The tree produced by parsing a list of physical lines. -/
def parseTree (ls : List String) : List Sect := (parseLines ls).tree

/-- `text.replace('\r', '')` — JS replaces only the first occurrence. -/
def removeFirstCR : List Char → List Char
  | [] => []
  | c :: cs => if c = '\r' then cs else c :: removeFirstCR cs

/-- `new ComfigParser(text).tree`. -/
def parseStr (text : String) : List Sect :=
  parseTree (splitChar '\n' ⟨removeFirstCR text.data⟩)

-- ### The serializer (ComfigSerializer, default options)

/-- Decimal digit to its character. -/
def digitChar : Nat → Char
  | 0 => '0' | 1 => '1' | 2 => '2' | 3 => '3' | 4 => '4'
  | 5 => '5' | 6 => '6' | 7 => '7' | 8 => '8' | _ => '9'

/-- Decimal digits, with explicit fuel (structural, so terms reduce). -/
def natDigitsGo (fuel n : Nat) : List Char :=
  match fuel with
  | 0 => []
  | f + 1 => if n < 10 then [digitChar n] else natDigitsGo f (n / 10) ++ [digitChar (n % 10)]

/-- Decimal digits of a natural number (most significant first). -/
def natDigits (n : Nat) : List Char := natDigitsGo (n + 1) n

/-- JS decimal rendering of an integer-valued number. -/
def intToDec (i : Int) : String :=
  if i < 0 then "-" ++ ⟨natDigits (-i).toNat⟩ else ⟨natDigits i.toNat⟩

/-- JS template-literal string conversion for the values the serializer
interpolates.  Arrays and objects are never interpolated: the serializer
throws on them first, so those two branches are unreachable there. -/
def jsToString : JVal → String
  | .null => "null"
  | .undef => "undefined"
  | .func => "[function]"
  | .bool true => "true"
  | .bool false => "false"
  | .num n => intToDec n
  | .float src => src
  | .str s => s
  | .arr _ => "[array]"
  | .obj _ => "[object Object]"

/-- `throwOnInvalidSubkey`: a nested array, a nested object, or a string
containing a line break. -/
def badSubB : JVal → Bool
  | .obj _ => true
  | .arr _ => true
  | .str s => hasNL s
  | _ => false

/-- Sequential map with early exit on the first failure — the shape of every
serializer loop (`Except.error` models the JS `throw`). -/
def mapE (f : α → Except Unit β) : List α → Except Unit (List β)
  | [] => .ok []
  | a :: l =>
    match f a with
    | .error e => .error e
    | .ok b =>
      match mapE f l with
      | .error e => .error e
      | .ok bs => .ok (b :: bs)

/-- Render one key of a section as the lines of the string pushed for it. -/
def serEntry (k : String) (v : JVal) : Except Unit (List String) :=
  match v with
  | .arr l =>
    match mapE (fun e =>
        if badSubB e then Except.error () else Except.ok ("\t" ++ jsToString e)) l with
    | .error e => .error e
    | .ok body => .ok ([k ++ ": " ++ "["] ++ body ++ ["]"])
  | .obj m =>
    match mapE (fun kv =>
        if badSubB kv.2 then Except.error ()
        else Except.ok ("\t" ++ kv.1 ++ ": " ++ jsToString kv.2)) m with
    | .error e => .error e
    | .ok body => .ok ([k ++ ": " ++ "\x7b"] ++ body ++ ["\x7d"])
  | .str s =>
    if hasNL s then .ok ([k ++ ": " ++ "\"\"\""] ++ splitChar '\n' s ++ ["\"\"\""])
    else .ok [k ++ ": " ++ s]
  | .undef => .ok [k ++ ": " ++ "null"]
  | v => .ok [k ++ ": " ++ jsToString v]

/-- The lines of the comment push.  Stored comments end in a newline; the
final empty fragment of the split is the line separator, not a line. -/
def commentPushLines (c : String) : List String :=
  let parts := splitChar '\n' c
  if parts.getLast? = some "" then parts.dropLast else parts

/-- All strings pushed for one section (each push given as its lines),
including the final `'\n'` section separator push. -/
def serSection (sec : Sect) : Except Unit (List (List String)) :=
  match mapE (fun kv => serEntry kv.1 kv.2) sec.data with
  | .error e => .error e
  | .ok entryPushes =>
    .ok ((if sec.comment ≠ "" then [commentPushLines sec.comment] else [])
          ++ entryPushes ++ [[""]])

/-- The `while(lines[lines.length-1] == '\n') lines.pop()` loop. -/
def popSeps (pushes : List (List String)) : List (List String) :=
  (pushes.reverse.dropWhile (fun p => p == [""])).reverse

/-- `ComfigSerializer.serialize`, producing the physical lines of the output
text (every push ends in a newline, so the joined text splits into the
concatenation of the pushes' lines plus one final empty line). -/
def serializeE (t : List Sect) : Except Unit (List String) :=
  match mapE serSection t with
  | .error e => .error e
  | .ok secPushes => .ok ((popSeps secPushes.flatten).flatten ++ [""])

/-- The output text itself. -/
def serializeStr (t : List Sect) : Except Unit String :=
  (serializeE t).map (joinChar '\n')

-- ### Store operations (class Comfig)

/-- `const [key, subkey] = dotKey.split('.')` (a missing part is falsy in
every use, so it is modelled as the empty string). -/
def splitDot (s : String) : String × String :=
  let parts := splitChar '.' s
  (parts.headD "", (parts.drop 1).headD "")

/-- Index lookup `this.index[key]`. -/
def lookupIdx (index : List (String × Nat)) (k : String) : Option Nat :=
  objGet index k

/-- `getKeys()`: all top level keys, in tree order. -/
def getKeysV (s : Store) : List String :=
  s.tree.flatMap (fun sec => objKeys sec.data)

/-- Is the string a canonical array index (JS property lookup `l[sub]`). -/
def jsArrayIndex (sub : String) : Option Nat :=
  if !sub.data.isEmpty && sub.data.all Char.isDigit
      && (sub.data.head? != some '0' || sub.data == ['0'])
  then some (digitsToNat sub.data) else none

/-- Property read `v[sub]` for the value shapes `get` can meet.  A primitive
base yields `undefined` (`null`/`undefined` bases would throw in JS; `get`
only reaches them through a stale index).  String character indexing and
`length` are not modelled; no claim touches them. -/
def jsIndexVal (v : JVal) (sub : String) : Option JVal :=
  match v with
  | .obj m => objGet m sub
  | .arr l =>
    match jsArrayIndex sub with
    | some n => l.get? n
    | none => none
  | _ => none

/-- `get(dotKey, dflt)`. -/
def getV (s : Store) (dotKey : String) (dflt : JVal) : JVal :=
  let ks := splitDot dotKey
  match lookupIdx s.index ks.1 with
  | none => dflt
  | some idx =>
    match s.tree.get? idx with
    | none => dflt
    | some sec =>
      if ks.2 ≠ "" then
        match jsIndexVal ((objGet sec.data ks.1).getD .undef) ks.2 with
        | some .undef => dflt
        | some v => v
        | none => dflt
      else ((objGet sec.data ks.1).getD .undef)

/-- Truthiness of a JS value (`!!v`). -/
def jsTruthy : JVal → Bool
  | .null => false
  | .undef => false
  | .func => true
  | .bool b => b
  | .num n => n ≠ 0
  | .float src => !src.data.all (fun c => c == '0' || c == '.')
  | .str s => s ≠ ""
  | .arr _ => true
  | .obj _ => true

/-- `hasKey(dotKey)`, literally `!!this.get(dotKey)`. -/
def hasKeyV (s : Store) (dotKey : String) : Bool := jsTruthy (getV s dotKey .undef)

/-- `_validateSubkeyValue`: objects, arrays and multiline strings are not
allowed one level down. -/
def invalidSubkeyValueB : JVal → Bool
  | .obj _ => true
  | .arr _ => true
  | .str s => hasNL s
  | _ => false

/-- `_formatComment` with the default marker. -/
def formatComment (c : Option String) : String :=
  match c with
  | none => ""
  | some c =>
    if c = "" then ""
    else String.intercalate "\n" ((splitChar '\n' c).map (fun l => "■ " ++ l)) ++ "\n"

/-- Options of `set`. -/
structure SetOpts where
  create : Bool := false
  comment : Option String := none

/-- Result of `set`: section id, returned error object, or a strict-mode
`TypeError` (assigning a property of a primitive value). -/
inductive SetRes where
  | ok (id : Nat)
  | err (msg : String)
  | thrown
  deriving DecidableEq

/-- Array element assignment `l[sub] = v` (out-of-range writes extend the
array with holes, read back as `undefined`). -/
def jsArraySet (l : List JVal) (sub : String) (v : JVal) : List JVal :=
  match jsArrayIndex sub with
  | some n =>
    if n < l.length then l.set n v
    else l ++ List.replicate (n - l.length) .undef ++ [v]
  | none => l

/-- `set(dotKey, value, opts)`. -/
def setV (s : Store) (dotKey : String) (value : JVal) (opts : SetOpts) :
    SetRes × Store :=
  let ks := splitDot dotKey
  match lookupIdx s.index ks.1 with
  | none =>
    if !opts.create then (.err "config option does not exist", s)
    else if ks.2 ≠ "" then
      if invalidSubkeyValueB value then
        (.err "invalid object value, deep objects, arrays and multiline strings are not allowed", s)
      else
        (.ok s.tree.length,
         ⟨s.tree ++ [⟨formatComment opts.comment, [(ks.1, JVal.obj [(ks.2, value)])]⟩],
          objSet s.index ks.1 s.tree.length⟩)
    else
      (.ok s.tree.length,
       ⟨s.tree ++ [⟨formatComment opts.comment, [(ks.1, value)]⟩],
        objSet s.index ks.1 s.tree.length⟩)
  | some idx =>
    if ks.2 ≠ "" then
      if invalidSubkeyValueB value then
        (.err "invalid object value, deep objects, arrays and multiline strings are not allowed", s)
      else
        match s.tree.get? idx with
        | none => (.thrown, s)
        | some sec =>
          match objGet sec.data ks.1 with
          | some (.obj m) =>
            (.ok idx, ⟨s.tree.set idx
              { sec with data := objSet sec.data ks.1 (.obj (objSet m ks.2 value)) }, s.index⟩)
          | some (.arr l) =>
            (.ok idx, ⟨s.tree.set idx
              { sec with data := objSet sec.data ks.1 (.arr (jsArraySet l ks.2 value)) }, s.index⟩)
          | _ => (.thrown, s)
    else
      match s.tree.get? idx with
      | none => (.thrown, s)
      | some sec =>
        (.ok idx, ⟨s.tree.set idx { sec with data := objSet sec.data ks.1 value }, s.index⟩)

/-- `_rebuildIndex` inner loop: record every key of `data` at position `i`. -/
def insertSecKeys (acc : List (String × Nat)) (i : Nat)
    (data : List (String × JVal)) : List (String × Nat) :=
  data.foldl (fun a kv => objSet a kv.1 i) acc

/-- `_rebuildIndex` outer loop. -/
def rebuildGo (i : Nat) (t : List Sect) (acc : List (String × Nat)) :
    List (String × Nat) :=
  match t with
  | [] => acc
  | sec :: rest => rebuildGo (i + 1) rest (insertSecKeys acc i sec.data)

/-- `_rebuildIndex`. -/
def rebuildIndex (t : List Sect) : List (String × Nat) := rebuildGo 0 t []

/-- Result of `delete`: `false`, `true`, or an error object. -/
inductive DelRes where
  | notFound
  | done
  | err (msg : String)
  deriving DecidableEq

/-- `Number(sub)` as `splice` coerces it (integer strings; anything the
claims never use coerces to 0 here). -/
def spliceParseInt (s : String) : Int :=
  match s.data with
  | '-' :: ds =>
    if !ds.isEmpty && ds.all Char.isDigit then -(digitsToNat ds : Int) else 0
  | ds =>
    if !ds.isEmpty && ds.all Char.isDigit then (digitsToNat ds : Int) else 0

/-- `item.splice(sub, 1)`, with the start clamping of `Array.prototype.splice`. -/
def spliceDeleteOne (l : List JVal) (sub : String) : List JVal :=
  let i := spliceParseInt sub
  let start := if i < 0 then ((l.length : Int) + i).toNat else min i.toNat l.length
  l.take start ++ l.drop (start + 1)

/-- `delete(dotKey, removeComment)`. -/
def deleteV (s : Store) (dotKey : String) (removeComment : Bool) :
    DelRes × Store :=
  let ks := splitDot dotKey
  match lookupIdx s.index ks.1 with
  | none => (.notFound, s)
  | some idx =>
    match s.tree.get? idx with
    | none => (.notFound, s)
    | some sec =>
      if ks.2 ≠ "" then
        match objGet sec.data ks.1 with
        | some (.arr l) =>
          (.done, ⟨s.tree.set idx
            { sec with data := objSet sec.data ks.1 (.arr (spliceDeleteOne l ks.2)) }, s.index⟩)
        | some (.obj m) =>
          (.done, ⟨s.tree.set idx
            { sec with data := objSet sec.data ks.1 (.obj (objDel m ks.2)) }, s.index⟩)
        | _ => (.err "not an object/array", s)
      else
        let data' := objDel sec.data ks.1
        let index' := objDel s.index ks.1
        if !data'.isEmpty then
          (.done, ⟨s.tree.set idx { sec with data := data' }, index'⟩)
        else if sec.comment ≠ "" ∧ ¬ removeComment then
          (.done, ⟨s.tree.set idx { sec with data := data' }, index'⟩)
        else
          let tree' := s.tree.eraseIdx idx
          (.done, ⟨tree', rebuildIndex tree'⟩)

/-- Truthiness of `this.index[key]` — the check `addSectionKey` performs.
An index value of `0` is falsy: this is the slip under scrutiny below. -/
def idxTruthy : Option Nat → Bool
  | some n => n ≠ 0
  | none => false

/-- `addSectionKey(idx, key, value)`. -/
def addSectionKeyV (s : Store) (idx : Nat) (k : String) (v : JVal) :
    Option String × Store :=
  match s.tree.get? idx with
  | none => (some "invalid section id", s)
  | some sec =>
    if idxTruthy (lookupIdx s.index k) then (some "key already exist", s)
    else
      (none, ⟨s.tree.set idx { sec with data := objSet sec.data k v },
              objSet s.index k idx⟩)

/-- Options of `addSection` (`none` models an absent property). -/
structure AddSectionOpts where
  id : Option Nat := none
  key : Option String := none
  value : Option JVal := none
  comment : Option String := none

/-- Truthiness of `opts.comment`. -/
def commentTruthy : Option String → Bool
  | some c => c ≠ ""
  | none => false

/-- `addSection(opts)`. -/
def addSectionV (s : Store) (opts : AddSectionOpts) : Except String Nat × Store :=
  if opts.id = none ∧ opts.key = none ∧ opts.value.isNone ∧ opts.comment = none then
    (.error "no params supplied", s)
  else
    let keyTruthy := commentTruthy opts.key
    if (keyTruthy ∨ opts.value.isSome) ∧ (¬ keyTruthy ∨ opts.value.isNone) then
      (.error "when setting key, both key and value are required", s)
    else if keyTruthy ∧ (lookupIdx s.index (opts.key.getD "")).isSome then
      (.error "key already exist", s)
    else
      let data : List (String × JVal) :=
        if keyTruthy then [(opts.key.getD "", opts.value.getD .undef)] else []
      let sec : Sect := ⟨formatComment opts.comment, data⟩
      match opts.id with
      | some id =>
        if ¬ keyTruthy ∧ ¬ commentTruthy opts.comment then (.error "no data", s)
        else if (s.tree.get? id).isNone then (.error "invalid section id", s)
        else
          let tree' := s.tree.insertIdx id sec
          (.ok id, ⟨tree', rebuildIndex tree'⟩)
      | none =>
        let tree' := s.tree ++ [sec]
        (.ok (tree'.length - 1), ⟨tree', rebuildIndex tree'⟩)

/-- `moveSection(idxFrom, idxTo)`. -/
def moveSectionV (s : Store) (iFrom iTo : Nat) : Option String × Store :=
  match s.tree.get? iFrom, s.tree.get? iTo with
  | some sec, some _ =>
    let tree1 := s.tree.eraseIdx iFrom
    let iTo' := if iFrom < iTo then iTo - 1 else iTo
    let tree' := tree1.insertIdx iTo' sec
    (none, ⟨tree', rebuildIndex tree'⟩)
  | _, _ => (some "invalid section id", s)

/-- `_commonArrays(arr1, arr2)`. -/
def commonArrays (arr1 arr2 : List String) : Bool :=
  (arr1.filter (fun x => arr2.contains x)).length == arr2.length

/-- `reorderSection(idx, newOrder)`. -/
def reorderSectionV (s : Store) (idx : Nat) (newOrder : List String) :
    Option String × Store :=
  match s.tree.get? idx with
  | none => (some "invalid section id", s)
  | some sec =>
    if ¬ commonArrays (objKeys sec.data) newOrder then
      (some "invalid new order array", s)
    else
      let data := newOrder.foldl
        (fun acc k => objSet acc k ((objGet sec.data k).getD .undef)) []
      (none, ⟨s.tree.set idx { sec with data := data }, s.index⟩)

/-- `deleteSection(idx)`. -/
def deleteSectionV (s : Store) (idx : Nat) : Option String × Store :=
  match s.tree.get? idx with
  | none => (some "invalid section id", s)
  | some _ =>
    let tree' := s.tree.eraseIdx idx
    (none, ⟨tree', rebuildIndex tree'⟩)

/-- `key.startsWith('$')`, as a prefix test on the character lists. -/
def strStarts (s pre : String) : Bool := pre.data.isPrefixOf s.data

/-- Mode flags of `sync`. -/
structure SyncOpts where
  update : Bool := false
  merge : Bool := false
  mirror : Bool := false

/-- One iteration of the `_sync__merge` loop: overwrite in place when the
key is indexed, append a fresh commentless section otherwise. -/
def mergeStep (obj : List (String × JVal)) (st : Store) (k : String) : Store :=
  match lookupIdx st.index k with
  | some idx =>
    match st.tree.get? idx with
    | some sec =>
      let sec' := { sec with data := objSet sec.data k ((objGet obj k).getD .undef) }
      { st with tree := st.tree.set idx sec' }
    | none => st
  | none =>
    { st with tree := st.tree ++ [⟨"", [(k, (objGet obj k).getD .undef)]⟩] }

/-- `_sync__merge(mergeKeys, obj)`. -/
def syncMergeV (mergeKeys : List String) (obj : List (String × JVal))
    (s : Store) : Store :=
  mergeKeys.foldl (mergeStep obj) s

/-- One iteration of the `update`-mode loop `for(const key in obj)`:
overwrite the value in place when the key is indexed. -/
def syncUpdateStep (st : Store) (kv : String × JVal) : Store :=
  match lookupIdx st.index kv.1 with
  | some idx =>
    match st.tree.get? idx with
    | some sec =>
      let sec' := { sec with data := objSet sec.data kv.1 kv.2 }
      { st with tree := st.tree.set idx sec' }
    | none => st
  | none => st

/-- One iteration of the `mirror` removal loop: delete the local key (with
forced comment removal) when it is not among the external keys. -/
def mirrorStep (objKs : List String) (st : Store) (k : String) : Store :=
  if objKs.contains k then st else (deleteV st k true).2

/-- `sync(obj, opts)`.  The `update` branch iterates the raw object keys
(`for(const key in obj)`), not the `$`-filtered list. -/
def syncV (s : Store) (obj : List (String × JVal)) (opts : SyncOpts) :
    Option String × Store :=
  let objKs := (obj.map (·.1)).filter (fun k => !(strStarts k "$"))
  if opts.update then
    let s' := obj.foldl syncUpdateStep s
    (none, { s' with index := rebuildIndex s'.tree })
  else if opts.merge then
    let s' := syncMergeV objKs obj s
    (none, { s' with index := rebuildIndex s'.tree })
  else if opts.mirror then
    let s1 := syncMergeV objKs obj s
    let s2 := (getKeysV s1).foldl (mirrorStep objKs) s1
    (none, { s2 with index := rebuildIndex s2.tree })
  else (some "sync mode not specified", s)

/-- `object()`: the flat record with the four bound `$`-methods. -/
def objectV (s : Store) : List (String × JVal) :=
  let conf : List (String × JVal) :=
    [("$", .func), ("$save", .func), ("$saveSync", .func), ("$sync", .func)]
  s.tree.foldl (fun acc sec => sec.data.foldl (fun a kv => objSet a kv.1 kv.2) acc) conf

/-- `upgrade(param)` for a Comfig-instance argument. -/
def upgradeV (s other : Store) : Store :=
  let n := (syncV other (objectV s) { update := true }).2
  { tree := n.tree, index := rebuildIndex n.tree }

-- ### The index invariant (spec section 3, claim C1)

/-- The spec's Index invariant: every key of `Tree[i].data` is indexed at
`i`, and every Index entry points at a section that really holds its key. -/
def InvP (s : Store) : Prop :=
  (∀ pr ∈ s.tree.enum, ∀ kv ∈ pr.2.data, lookupIdx s.index kv.1 = some pr.1) ∧
  (∀ e ∈ s.index, ∃ sec ∈ s.tree, e.1 ∈ objKeys sec.data)

/-- A well-formed store: the invariant plus per-section and index key
uniqueness (what JS objects guarantee by construction). -/
def StoreWF (s : Store) : Prop :=
  InvP s ∧ (∀ sec ∈ s.tree, (objKeys sec.data).Nodup) ∧ (objKeys s.index).Nodup

instance (s : Store) : Decidable (InvP s) := by
  unfold InvP; infer_instance

instance (s : Store) : Decidable (StoreWF s) := by
  unfold StoreWF; infer_instance

-- ### Well-formedness for the serialize/parse round trip (claim C2)

/-- A key that the key-capturing regexes recognise in full. -/
def isWordKey (k : String) : Bool := !k.data.isEmpty && k.data.all isWordChar

/-- Does the scalar text begin with one of the three block-opening tokens
(in which case the serialized line would re-parse as a block opener). -/
def strBad3 (s : String) : Bool :=
  s.data.head? == some '[' || s.data.head? == some '\x7b'
    || s.data.take 3 == ['"', '"', '"']

/-- A single-line string whose serialized form converts back to itself. -/
def wfStrPrim (s : String) : Bool :=
  jsTrim s == s && !hasNL s && !isIntLit s && !isFloatLit s &&
  s != "true" && s != "false" && s != "null" && s != "undefined" && s != "" &&
  !strBad3 s && s != "]"

/-- A primitive whose serialized text re-parses to the same value.  Numbers
are bounded by `2^53` (beyond that a JS number would lose the digits). -/
def wfPrim : JVal → Bool
  | .null => true
  | .bool _ => true
  | .num n => decide (0 ≤ n) && decide (n < 2 ^ 53)
  | .float src => isFloatLit src
  | .str s => wfStrPrim s
  | _ => false

/-- A multiline string whose body lines neither close nor reopen the
triple-quote block. -/
def wfMultiStr (s : String) : Bool :=
  hasNL s && (splitChar '\n' s).all
    (fun l => jsTrim l != "\"\"\"" && (matchMulti l).isNone)

/-- A storable value that survives the round trip. -/
def wfVal : JVal → Bool
  | .str s => if hasNL s then wfMultiStr s else wfStrPrim s
  | .arr l => !l.isEmpty && l.all wfPrim
  | .obj m =>
    !m.isEmpty && decide ((objKeys m).Nodup) &&
    m.all (fun kv => isWordKey kv.1 && wfPrim kv.2)
  | v => wfPrim v

/-- A comment line that the parser classifies as a comment. -/
def commentLineOk (l : String) : Bool :=
  jsTrim l != "" && (matchMulti l).isNone && (matchArray l).isNone &&
  (matchObjLine l).isNone && (matchOption l).isNone

/-- A stored comment: empty, or newline-terminated with genuine comment
lines. -/
def wfComment (c : String) : Bool :=
  c == "" ||
  (c.data.getLast? == some '\n' && (splitChar '\n' c).dropLast.all commentLineOk)

/-- A section that survives the round trip. -/
def wfSect (sec : Sect) : Bool :=
  (sec.comment != "" || !sec.data.isEmpty) && wfComment sec.comment &&
  decide ((objKeys sec.data).Nodup) &&
  sec.data.all (fun kv => isWordKey kv.1 && wfVal kv.2)

/-- A tree that survives the round trip. -/
def wfTree (t : List Sect) : Bool := t.all wfSect

-- Proof scaffolding: the successful serializer output in closed form.

/-- The lines `serEntry` produces when it does not throw. -/
def entryLines (k : String) (v : JVal) : List String :=
  match v with
  | .arr l => [k ++ ": " ++ "["] ++ l.map (fun e => "\t" ++ jsToString e) ++ ["]"]
  | .obj m =>
    [k ++ ": " ++ "\x7b"] ++ m.map (fun kv => "\t" ++ kv.1 ++ ": " ++ jsToString kv.2)
      ++ ["\x7d"]
  | .str s =>
    if hasNL s then [k ++ ": " ++ "\"\"\""] ++ splitChar '\n' s ++ ["\"\"\""]
    else [k ++ ": " ++ s]
  | .undef => [k ++ ": " ++ "null"]
  | v => [k ++ ": " ++ jsToString v]

/-- The pushes `serSection` produces when it does not throw. -/
def secPushes (sec : Sect) : List (List String) :=
  (if sec.comment ≠ "" then [commentPushLines sec.comment] else [])
    ++ sec.data.map (fun kv => entryLines kv.1 kv.2) ++ [[""]]

/-- The lines of one serialized section, without its separator line. -/
def secLines (sec : Sect) : List String := ((secPushes sec).dropLast).flatten

/-- The serialized lines of a non-empty tree: each section's lines followed
by one blank separator line. -/
def uniformLines (t : List Sect) : List String :=
  t.flatMap (fun sec => secLines sec ++ [""])

/-- A store with one key in section 0 and one in section 1, satisfying the
index invariant. -/
def exStoreA : Store :=
  ⟨[⟨"", [("host", .str "localhost")]⟩, ⟨"", [("port", .num 8080)]⟩],
   [("host", 0), ("port", 1)]⟩

/-- A tree exercising every supported value shape: scalar strings, ints,
floats, bools, null, a flat array, a flat object and a multiline string,
with and without section comments. -/
def exTreeC : List Sect :=
  [⟨"■ server\n", [("name", .str "box"), ("port", .num 8080)]⟩,
   ⟨"", [("pi", .float "3.14"), ("flag", .bool true), ("nil", .null)]⟩,
   ⟨"■ lists\n", [("arr", .arr [.num 1, .str "two"]),
                  ("obj", .obj [("a", .num 1), ("b", .str "x")]),
                  ("multi", .str "line one\n line two")]⟩]

/-- A store with a two-key section, satisfying the index invariant. -/
def exStoreB : Store :=
  ⟨[⟨"", [("alpha", .num 1), ("beta", .num 2)]⟩], [("alpha", 0), ("beta", 0)]⟩

/-- Does a value contain a forbidden nested shape one level down (an array
element or flat-object value that is itself an array, an object, or a
string containing a line break). -/
def hasBadSub : JVal → Bool
  | .arr l => l.any badSubB
  | .obj m => m.any (fun kv => badSubB kv.2)
  | _ => false

/-- Does some value in the tree contain a forbidden nested shape. -/
def treeHasBadSub (t : List Sect) : Bool :=
  t.any (fun sec => sec.data.any (fun kv => hasBadSub kv.2))

/-- All key-value pairs of the tree, in tree-then-section order.  The first
occurrence of a key in this flattening is what `get` observes once the
index is rebuilt, and merge/delete steps act on it by plain upsert and
delete (proved below). -/
def treeData (t : List Sect) : List (String × JVal) :=
  t.flatMap (fun sec => sec.data)

/-- Invariant carried through the `_sync__merge` loop, relative to the
starting store `s`: the index is untouched, the tree is the old tree (with
unchanged per-section key lists) plus one singleton section per processed
fresh key (`ext`), flattened keys stay duplicate-free, and no empty-data
section appears that was not already in `s`. -/
def MergeInv (s st : Store) (ext : List String) : Prop :=
  st.index = s.index
  ∧ st.tree.map (fun sec => objKeys sec.data)
      = s.tree.map (fun sec => objKeys sec.data) ++ ext.map (fun k => [k])
  ∧ (objKeys (treeData st.tree)).Nodup
  ∧ (∀ sec ∈ st.tree, sec.data = [] → sec ∈ s.tree)

/-- Invariant carried through the `mirror` removal loop, relative to the
original store `s` and the external key list `K`: flattened keys stay
duplicate-free, every index hit is sound, every present key outside `K` is
correctly indexed (so its deletion will find it), and no empty-data section
appears that was not already in `s`. -/
def DelInv (s : Store) (K : List String) (st : Store) : Prop :=
  (objKeys (treeData st.tree)).Nodup
  ∧ (∀ k i, lookupIdx st.index k = some i →
      ∃ sec, st.tree.get? i = some sec ∧ k ∈ objKeys sec.data)
  ∧ (∀ k, k ∈ objKeys (treeData st.tree) → k ∉ K →
      (lookupIdx st.index k).isSome)
  ∧ (∀ sec ∈ st.tree, sec.data = [] → sec ∈ s.tree)

-- ### Theorems

/-- **C1** (code bug).  The index invariant is claimed to hold after every
public operation, but `addSectionKey` checks `if(this.index[key])`, a
truthiness test that lets any key owned by section 0 through: starting from
a well-formed store, adding the section-0 key `host` to section 1 succeeds
(no error is returned) and leaves a store in which `host` sits in
`Tree[0].data` while `Index[host] = 1` — the invariant is broken. -/
theorem c1_invariant_broken_by_addSectionKey :
    StoreWF exStoreA
    ∧ (addSectionKeyV exStoreA 1 "host" (.str "x")).1 = none
    ∧ ¬ InvP (addSectionKeyV exStoreA 1 "host" (.str "x")).2 := by
  refine ⟨?_, by decide, by decide⟩
  decide

/-- **C3** (code bug).  `reorderSection` is specified (README and the doc
comment of `_commonArrays`) to accept only an exact permutation of the
section's keys, but `_commonArrays` merely counts the existing keys that
occur in `newOrder`: the strict subset `["alpha"]` of the key set
`{alpha, beta}` is accepted — no error is returned — and the section's data
is rebuilt without `beta`, silently dropping the key (and leaving the stale
entry `Index[beta]`). -/
theorem c3_reorder_accepts_strict_subset :
    StoreWF exStoreB
    ∧ (reorderSectionV exStoreB 0 ["alpha"]).1 = none
    ∧ objKeys (((reorderSectionV exStoreB 0 ["alpha"]).2.tree.headD emptySect).data)
        = ["alpha"]
    ∧ ¬ InvP (reorderSectionV exStoreB 0 ["alpha"]).2 := by
  refine ⟨?_, by decide, by decide, by decide⟩
  decide

/-- A key with a successful object read is among the object's keys. -/
theorem objGet_mem_keys {o : List (String × α)} {k : String} {v : α}
    (h : objGet o k = some v) : k ∈ objKeys o := by
  unfold objGet at h
  cases hfind : o.find? (·.1 == k) with
  | none => rw [hfind] at h; simp at h
  | some kv =>
    have hk := List.find?_some hfind
    have hmem := List.mem_of_find?_eq_some hfind
    have hkk : kv.1 = k := by simpa using hk
    subst hkk
    exact List.mem_map_of_mem (·.1) hmem

/-- **C4** (code bug).  `addSectionKey` does error on an invalid section id,
and on a key indexed at a nonzero position — but the check
`if(this.index[key])` is a truthiness test, so a key owned by the section
at position 0 is *not* rejected: adding `user` (owned by section 0) to
section 1 returns no error and duplicates the key into section 1's data,
contradicting the claimed behaviour. -/
theorem c4_addSectionKey_truthiness_slip :
    (addSectionKeyV exStoreA 5 "fresh" (.num 1)).1 = some "invalid section id"
    ∧ (addSectionKeyV exStoreA 0 "port" (.num 1)).1 = some "key already exist"
    ∧ (addSectionKeyV exStoreA 1 "host" (.num 1)).1 = none
    ∧ objKeys (((addSectionKeyV exStoreA 1 "host" (.num 1)).2.tree.getD 1 emptySect).data)
        = ["port", "host"]
    ∧ objKeys (((addSectionKeyV exStoreA 1 "host" (.num 1)).2.tree.getD 0 emptySect).data)
        = ["host"] := by
  refine ⟨by decide, by decide, by decide, by decide, by decide⟩

/-- **C8** (confirmed).  For a dotted path, `set` with an object, an array,
or a line-break-containing string as value returns an error object — never
a thrown error, never a partial write — and leaves the store untouched, in
the update path, the create path, and the create-not-allowed path alike. -/
theorem c8_set_rejects_invalid_subkey_value (s : Store) (dotKey : String)
    (v : JVal) (opts : SetOpts)
    (hsub : (splitDot dotKey).2 ≠ "")
    (hbad : invalidSubkeyValueB v = true) :
    (∃ msg, (setV s dotKey v opts).1 = .err msg)
      ∧ (setV s dotKey v opts).2 = s := by
  unfold setV
  cases hidx : lookupIdx s.index (splitDot dotKey).1 with
  | none =>
    by_cases hc : opts.create
    · simp [hidx, hc, hsub, hbad]
    · simp [hidx, hc]
  | some idx =>
    simp [hidx, hsub, hbad]

/-- Witness for C8. -/
theorem c8_witness :
    ((splitDot "db.pass").2 ≠ "" ∧ invalidSubkeyValueB (.str "a\nb") = true)
    ∧ ((∃ msg, (setV exStoreA "db.pass" (.str "a\nb") {create := true}).1 = .err msg)
       ∧ (setV exStoreA "db.pass" (.str "a\nb") {create := true}).2 = exStoreA) :=
  ⟨⟨by decide, by decide⟩,
   c8_set_rejects_invalid_subkey_value exStoreA "db.pass" (.str "a\nb") {create := true}
     (by decide) (by decide)⟩

/-- **C10** (confirmed).  `hasKey` is literally `!!this.get(dotKey)`: it
reports the truthiness of the stored value, not the key's existence, so a
key holding `false`, `0`, `null` or the empty string is reported absent
even though it is present in the store. -/
theorem c10_hasKey_mirrors_truthiness (s : Store) (k : String) (i : Nat)
    (sec : Sect) (v : JVal)
    (hbare : splitDot k = (k, ""))
    (hidx : lookupIdx s.index k = some i)
    (hsec : s.tree.get? i = some sec)
    (hval : objGet sec.data k = some v)
    (hfalsy : v = .bool false ∨ v = .num 0 ∨ v = .null ∨ v = .str "") :
    hasKeyV s k = jsTruthy (getV s k .undef)
    ∧ hasKeyV s k = false
    ∧ k ∈ getKeysV s := by
  have hsec' : s.tree[i]? = some sec := by
    rw [← List.get?_eq_getElem?]; exact hsec
  have hget : getV s k .undef = v := by
    simp [getV, hbare, hidx, hsec', hval]
  refine ⟨rfl, ?_, ?_⟩
  · rw [hasKeyV, hget]
    rcases hfalsy with h | h | h | h <;> subst h <;> rfl
  · exact List.mem_flatMap.mpr
      ⟨sec, List.get?_mem hsec, objGet_mem_keys hval⟩

/-- Witness for C10: a store holding `enabled: false` — the key exists,
`hasKey` still answers `false`. -/
theorem c10_witness :
    (splitDot "enabled" = ("enabled", "")
     ∧ lookupIdx [("enabled", 0)] "enabled" = some 0
     ∧ ([⟨"", [("enabled", JVal.bool false)]⟩] : List Sect).get? 0
         = some ⟨"", [("enabled", JVal.bool false)]⟩
     ∧ objGet [("enabled", JVal.bool false)] "enabled" = some (JVal.bool false))
    ∧ (hasKeyV ⟨[⟨"", [("enabled", .bool false)]⟩], [("enabled", 0)]⟩ "enabled"
        = jsTruthy (getV ⟨[⟨"", [("enabled", .bool false)]⟩], [("enabled", 0)]⟩ "enabled" .undef)
       ∧ hasKeyV ⟨[⟨"", [("enabled", .bool false)]⟩], [("enabled", 0)]⟩ "enabled" = false
       ∧ "enabled" ∈ getKeysV ⟨[⟨"", [("enabled", .bool false)]⟩], [("enabled", 0)]⟩) :=
  ⟨⟨by decide, by decide, rfl, rfl⟩,
   c10_hasKey_mirrors_truthiness
     ⟨[⟨"", [("enabled", .bool false)]⟩], [("enabled", 0)]⟩ "enabled" 0
     ⟨"", [("enabled", .bool false)]⟩ (.bool false)
     (by decide) (by decide) rfl rfl (Or.inl rfl)⟩

/-- `mapE` fails exactly when one element fails. -/
theorem mapE_error_iff (f : α → Except Unit β) (l : List α) :
    (∃ e, mapE f l = .error e) ↔ ∃ a ∈ l, ∃ e, f a = .error e := by
  induction l with
  | nil => simp [mapE]
  | cons a l ih =>
    rw [mapE]
    cases hfa : f a with
    | error e => simp [hfa]
    | ok b =>
      cases hrest : mapE f l with
      | error e =>
        rw [hrest] at ih
        simp only [hfa]
        simp [← ih]
      | ok bs =>
        rw [hrest] at ih
        simp only [hfa]
        simp [← ih, hfa]

/-- `mapE` succeeds pointwise. -/
theorem mapE_ok_of_all {f : α → Except Unit β} {g : α → β}
    (l : List α) (h : ∀ a ∈ l, f a = .ok (g a)) : mapE f l = .ok (l.map g) := by
  induction l with
  | nil => simp [mapE]
  | cons a l ih =>
    rw [mapE, h a (by simp), ih (fun x hx => h x (by simp [hx]))]
    simp

/-- `serEntry` fails exactly when the value has a forbidden nested shape. -/
theorem serEntry_error_iff (k : String) (v : JVal) :
    (∃ e, serEntry k v = .error e) ↔ hasBadSub v = true := by
  cases v with
  | arr l =>
    simp only [serEntry, hasBadSub]
    have hiff := mapE_error_iff (fun e =>
      if badSubB e then Except.error () else Except.ok ("\t" ++ jsToString e)) l
    constructor
    · intro he
      cases hm : mapE (fun e =>
          if badSubB e then Except.error () else Except.ok ("\t" ++ jsToString e)) l with
      | error e =>
        obtain ⟨a, ha, e', he'⟩ := hiff.mp ⟨e, hm⟩
        by_cases hb : badSubB a
        · exact List.any_eq_true.mpr ⟨a, ha, hb⟩
        · simp [hb] at he'
      | ok body => rw [hm] at he; obtain ⟨e, he⟩ := he; cases he
    · intro hany
      obtain ⟨a, ha, hb⟩ := List.any_eq_true.mp hany
      obtain ⟨e, hm⟩ := hiff.mpr ⟨a, ha, (), by simp [hb]⟩
      exact ⟨e, by rw [hm]⟩
  | obj m =>
    simp only [serEntry, hasBadSub]
    have hiff := mapE_error_iff (fun kv =>
      if badSubB kv.2 then Except.error ()
      else Except.ok ("\t" ++ kv.1 ++ ": " ++ jsToString kv.2)) m
    constructor
    · intro he
      cases hm : mapE (fun kv =>
          if badSubB kv.2 then Except.error ()
          else Except.ok ("\t" ++ kv.1 ++ ": " ++ jsToString kv.2)) m with
      | error e =>
        obtain ⟨a, ha, e', he'⟩ := hiff.mp ⟨e, hm⟩
        by_cases hb : badSubB a.2
        · exact List.any_eq_true.mpr ⟨a, ha, hb⟩
        · simp [hb] at he'
      | ok body => rw [hm] at he; obtain ⟨e, he⟩ := he; cases he
    · intro hany
      obtain ⟨a, ha, hb⟩ := List.any_eq_true.mp hany
      obtain ⟨e, hm⟩ := hiff.mpr ⟨a, ha, (), by simp [hb]⟩
      exact ⟨e, by rw [hm]⟩
  | str s =>
    simp only [serEntry, hasBadSub]
    by_cases h : hasNL s <;> simp [h]
  | null => simp [serEntry, hasBadSub]
  | undef => simp [serEntry, hasBadSub]
  | func => simp [serEntry, hasBadSub]
  | bool b => cases b <;> simp [serEntry, hasBadSub]
  | num n => simp [serEntry, hasBadSub]
  | float src => simp [serEntry, hasBadSub]

/-- `serSection` fails exactly when one of its values has a forbidden
nested shape. -/
theorem serSection_error_iff (sec : Sect) :
    (∃ e, serSection sec = .error e) ↔ sec.data.any (fun kv => hasBadSub kv.2) = true := by
  unfold serSection
  have hiff := mapE_error_iff (fun kv => serEntry kv.1 kv.2) sec.data
  constructor
  · intro he
    cases hm : mapE (fun kv => serEntry kv.1 kv.2) sec.data with
    | error e =>
      obtain ⟨kv, hkv, e', he'⟩ := hiff.mp ⟨e, hm⟩
      exact List.any_eq_true.mpr
        ⟨kv, hkv, (serEntry_error_iff kv.1 kv.2).mp ⟨e', he'⟩⟩
    | ok body => rw [hm] at he; obtain ⟨e, he⟩ := he; cases he
  · intro hany
    obtain ⟨kv, hkv, hb⟩ := List.any_eq_true.mp hany
    obtain ⟨e', he'⟩ := (serEntry_error_iff kv.1 kv.2).mpr hb
    obtain ⟨e, hm⟩ := hiff.mpr ⟨kv, hkv, e', he'⟩
    exact ⟨e, by rw [hm]⟩

/-- **C7** (confirmed).  Serialization fails — in the model the `Except`
error that embeds the JS `throw`, the only failure channel `serialize`
has — exactly when some array element or flat-object value is itself an
array, an object, or a string containing a line break.  A multiline string
stored as a top-level value is not in that set (`hasBadSub` ignores
top-level values), so it never triggers the failure. -/
theorem c7_serialize_error_iff_nested_shape (t : List Sect) :
    (∃ e, serializeE t = .error e) ↔ treeHasBadSub t = true := by
  simp only [serializeE, treeHasBadSub]
  have hiff := mapE_error_iff serSection t
  constructor
  · intro he
    cases hm : mapE serSection t with
    | error e =>
      obtain ⟨sec, hsec, e', he'⟩ := hiff.mp ⟨e, hm⟩
      exact List.any_eq_true.mpr ⟨sec, hsec, (serSection_error_iff sec).mp ⟨e', he'⟩⟩
    | ok body => rw [hm] at he; obtain ⟨e, he⟩ := he; cases he
  · intro hany
    obtain ⟨sec, hsec, hb⟩ := List.any_eq_true.mp hany
    obtain ⟨e', he'⟩ := (serSection_error_iff sec).mpr hb
    obtain ⟨e, hm⟩ := hiff.mpr ⟨sec, hsec, e', he'⟩
    exact ⟨e, by rw [hm]⟩

/-- Key presence coincides with membership in `objKeys`. -/
theorem objHas_iff_mem {o : List (String × α)} {k : String} :
    objHas o k = true ↔ k ∈ objKeys o := by
  simp only [objHas, objKeys, List.any_eq_true, List.mem_map]
  constructor
  · rintro ⟨kv, hkv, hk⟩; exact ⟨kv, hkv, by simpa using hk⟩
  · rintro ⟨kv, hkv, hk⟩; exact ⟨kv, hkv, by simpa using hk⟩

/-- Upserting an existing key does not change the key list. -/
theorem objKeys_objSet_of_mem {o : List (String × α)} {k : String} (v : α)
    (h : k ∈ objKeys o) : objKeys (objSet o k v) = objKeys o := by
  unfold objSet
  rw [if_pos (objHas_iff_mem.mpr h)]
  unfold objKeys
  rw [List.map_map]
  apply List.map_congr_left
  intro kv _
  by_cases hk : kv.1 == k
  · simp only [Function.comp, hk, if_pos]
    exact (show kv.1 = k by simpa using hk).symm
  · simp [Function.comp, hk]

/-- Upserting a fresh key appends it. -/
theorem objSet_of_not_mem {o : List (String × α)} {k : String} (v : α)
    (h : ¬ k ∈ objKeys o) : objSet o k v = o ++ [(k, v)] := by
  unfold objSet
  rw [if_neg]
  intro hhas
  exact h (objHas_iff_mem.mp hhas)

/-- Setting a position to the value it already holds is the identity. -/
theorem set_get?_eq {l : List α} {i : Nat} {a : α}
    (h : l.get? i = some a) : l.set i a = l := by
  induction l generalizing i with
  | nil => simp at h
  | cons b l ih =>
    cases i with
    | zero =>
      have hba : b = a := by simpa using h
      subst hba; rfl
    | succ i =>
      have h' : l.get? i = some a := h
      show b :: l.set i a = b :: l
      rw [ih h']

/-- Under `StoreWF`, every index hit points at a section really holding the
key. -/
theorem wf_index_sound {s : Store} (hwf : StoreWF s) {k : String} {i : Nat}
    (hidx : lookupIdx s.index k = some i) :
    ∃ sec, s.tree.get? i = some sec ∧ k ∈ objKeys sec.data := by
  obtain ⟨⟨hfwd, hbwd⟩, _, _⟩ := hwf
  unfold lookupIdx objGet at hidx
  cases hfind : s.index.find? (·.1 == k) with
  | none => rw [hfind] at hidx; simp at hidx
  | some e =>
    rw [hfind] at hidx
    simp only [Option.map_some', Option.some_inj] at hidx
    have hek := List.find?_some hfind
    have hmem := List.mem_of_find?_eq_some hfind
    have hek' : e.1 = k := by simpa using hek
    obtain ⟨sec, hsec, hksec⟩ := hbwd e hmem
    obtain ⟨j, hj⟩ := List.get?_of_mem hsec
    have henum : (j, sec) ∈ s.tree.enum := List.mk_mem_enum_iff_getElem?.mpr
      (by rw [← List.get?_eq_getElem?]; exact hj)
    have hksec' : k ∈ objKeys sec.data := hek' ▸ hksec
    obtain ⟨kv, hkv, hkvk⟩ := List.mem_map.mp hksec'
    have hlook := hfwd (j, sec) henum kv hkv
    rw [hkvk] at hlook
    unfold lookupIdx objGet at hlook
    rw [hfind] at hlook
    simp only [Option.map_some', Option.some_inj] at hlook
    have hij : i = j := by rw [← hidx, hlook]
    subst hij
    exact ⟨sec, hj, hksec'⟩

/-- Head hit for `objGet`. -/
theorem objGet_cons_hit {kv : String × α} {o : List (String × α)} {k : String}
    (h : (kv.1 == k) = true) : objGet (kv :: o) k = some kv.2 := by
  simp [objGet, List.find?, h]

/-- Head miss for `objGet`. -/
theorem objGet_cons_miss {kv : String × α} {o : List (String × α)} {k : String}
    (h : (kv.1 == k) = false) : objGet (kv :: o) k = objGet o k := by
  simp [objGet, List.find?, h]

/-- Filtering on a key predicate the key satisfies does not change reads. -/
theorem objGet_filter_keep {o : List (String × α)} {k : String}
    {p : String → Bool} (hk : p k = true) :
    objGet (o.filter (fun kv => p kv.1)) k = objGet o k := by
  induction o with
  | nil => rfl
  | cons kv o ih =>
    by_cases hkv : (kv.1 == k) = true
    · have hkk : kv.1 = k := by simpa using hkv
      rw [List.filter_cons, hkk, hk]
      simp only [if_pos]
      rw [objGet_cons_hit hkv, objGet_cons_hit hkv]
    · have hkv' : (kv.1 == k) = false := by simpa using hkv
      rw [List.filter_cons]
      cases hq : p kv.1 with
      | false =>
        simp only [Bool.false_eq_true, if_neg, ite_false]
        rw [ih, objGet_cons_miss hkv']
      | true =>
        simp only [if_pos]
        rw [objGet_cons_miss hkv', objGet_cons_miss hkv']
        exact ih

/-- `_sync__merge` only reads the external object at the merge keys. -/
theorem syncMergeV_congr (ks : List String) {obj obj' : List (String × JVal)}
    (h : ∀ k ∈ ks, objGet obj k = objGet obj' k) :
    ∀ s : Store, syncMergeV ks obj s = syncMergeV ks obj' s := by
  induction ks with
  | nil => intro s; rfl
  | cons k ks ih =>
    intro s
    unfold syncMergeV
    simp only [List.foldl_cons]
    have hstep : mergeStep obj s k = mergeStep obj' s k := by
      unfold mergeStep
      rw [show (objGet obj k) = (objGet obj' k) from h k (by simp)]
    rw [hstep]
    exact ih (fun x hx => h x (by simp [hx])) _

/-- The `update`-mode loop never changes the index nor any section's key
list (it only overwrites values in place). -/
theorem sync_update_shape {s : Store} (hwf : StoreWF s)
    (obj : List (String × JVal)) :
    ∀ st : Store, st.index = s.index →
      st.tree.map (fun sec => objKeys sec.data)
        = s.tree.map (fun sec => objKeys sec.data) →
      (obj.foldl syncUpdateStep st).index = s.index ∧
      (obj.foldl syncUpdateStep st).tree.map (fun sec => objKeys sec.data)
        = s.tree.map (fun sec => objKeys sec.data) := by
  induction obj with
  | nil => intro st h1 h2; exact ⟨h1, h2⟩
  | cons kv obj ih =>
    intro st h1 h2
    rw [List.foldl_cons]
    cases hl : lookupIdx st.index kv.1 with
    | none =>
      have hstep : syncUpdateStep st kv = st := by
        simp only [syncUpdateStep, hl]
      rw [hstep]; exact ih st h1 h2
    | some idx =>
      cases hg : st.tree.get? idx with
      | none =>
        have hstep : syncUpdateStep st kv = st := by
          simp only [syncUpdateStep, hl, hg]
        rw [hstep]; exact ih st h1 h2
      | some sec' =>
        have hstep : syncUpdateStep st kv
            = { st with tree := st.tree.set idx ⟨sec'.comment, objSet sec'.data kv.1 kv.2⟩ } := by
          simp only [syncUpdateStep, hl, hg]
        rw [hstep]
        rw [h1] at hl
        obtain ⟨sec, hsec, hksec⟩ := wf_index_sound hwf hl
        have hmap : (st.tree.map (fun sec => objKeys sec.data)).get? idx
            = (s.tree.map (fun sec => objKeys sec.data)).get? idx := by rw [h2]
        rw [List.get?_map, List.get?_map, hg, hsec] at hmap
        simp only [Option.map_some', Option.some_inj] at hmap
        have hmem : kv.1 ∈ objKeys sec'.data := by rw [hmap]; exact hksec
        apply ih
        · exact h1
        · rw [List.map_set]
          simp only
          rw [objKeys_objSet_of_mem _ hmem]
          have hget : (st.tree.map (fun sec => objKeys sec.data)).get? idx
              = some (objKeys sec'.data) := by
            rw [List.get?_map, hg]; rfl
          rw [set_get?_eq hget]
          exact h2

/-- Equal per-element images give equal flat maps. -/
theorem flatMap_eq_of_map_eq {l1 l2 : List α} {f : α → List β}
    (h : l1.map f = l2.map f) : l1.flatMap f = l2.flatMap f := by
  induction l1 generalizing l2 with
  | nil => cases l2 with | nil => rfl | cons b m => simp at h
  | cons a l ih =>
    cases l2 with
    | nil => simp at h
    | cons b m =>
      simp only [List.map_cons, List.cons.injEq] at h
      simp only [List.flatMap_cons]
      rw [h.1, ih h.2]

/-- Stores with the same per-section key lists have the same key list. -/
theorem getKeysV_eq_of_shape {s1 s2 : Store}
    (h : s1.tree.map (fun sec => objKeys sec.data)
       = s2.tree.map (fun sec => objKeys sec.data)) :
    getKeysV s1 = getKeysV s2 :=
  flatMap_eq_of_map_eq h

/-- Unfolding `sync` in `update` mode. -/
theorem syncV_update_eq (s : Store) (obj : List (String × JVal)) :
    syncV s obj { update := true }
      = (none, { obj.foldl syncUpdateStep s with
                 index := rebuildIndex (obj.foldl syncUpdateStep s).tree }) := rfl

/-- Unfolding `sync` in `merge` mode. -/
theorem syncV_merge_eq (s : Store) (obj : List (String × JVal)) :
    syncV s obj { merge := true }
      = (none,
         { syncMergeV ((obj.map (·.1)).filter (fun k => !(strStarts k "$"))) obj s with
           index := rebuildIndex
             (syncMergeV ((obj.map (·.1)).filter (fun k => !(strStarts k "$"))) obj s).tree }) := rfl

/-- Unfolding `sync` in `mirror` mode. -/
theorem syncV_mirror_eq (s : Store) (obj : List (String × JVal)) :
    syncV s obj { mirror := true }
      = (let objKs := (obj.map (·.1)).filter (fun k => !(strStarts k "$"))
         let s1 := syncMergeV objKs obj s
         let s2 := (getKeysV s1).foldl (mirrorStep objKs) s1
         (none, { s2 with index := rebuildIndex s2.tree })) := rfl

/-- **C6** (counterexample).  In `update` mode the `$`-filter is not applied:
`sync` iterates the raw external keys, so the external key `$flag` — which
the claim says is never used to overwrite a local value in any mode — does
overwrite the local key `$flag`, changing its value from `1` to `2`. -/
theorem c6_counterexample_update_ignores_filter :
    (syncV ⟨[⟨"", [("$flag", .num 1)]⟩], [("$flag", 0)]⟩
        [("$flag", .num 2)] { update := true }).1 = none
    ∧ getV (syncV ⟨[⟨"", [("$flag", .num 1)]⟩], [("$flag", 0)]⟩
        [("$flag", .num 2)] { update := true }).2 "$flag" .undef = .num 2 := by
  exact ⟨rfl, rfl⟩

/-- **C6** (amended).  In `merge` and `mirror` modes, external keys starting
with `$` are excluded entirely: syncing behaves exactly as if those keys
were removed from the external object.  In `update` mode the exclusion is
not applied — a `$`-key already present in the local index is overwritten
(see the counterexample) — but `update` mode still never creates or removes
a key: the store's key list is unchanged. -/
theorem c6_dollar_exclusion_by_mode (s : Store) (obj : List (String × JVal)) :
    syncV s obj { merge := true }
      = syncV s (obj.filter (fun kv => !(strStarts kv.1 "$"))) { merge := true }
    ∧ syncV s obj { mirror := true }
      = syncV s (obj.filter (fun kv => !(strStarts kv.1 "$"))) { mirror := true }
    ∧ (StoreWF s → getKeysV (syncV s obj { update := true }).2 = getKeysV s) := by
  have hks : ((obj.filter (fun kv => !(strStarts kv.1 "$"))).map (·.1)).filter
        (fun k => !(strStarts k "$"))
      = (obj.map (·.1)).filter (fun k => !(strStarts k "$")) := by
    rw [List.filter_map, List.filter_map]
    congr 1
    rw [List.filter_filter]
    apply List.filter_congr
    intro kv _
    simp [Function.comp]
  have hget : ∀ k ∈ (obj.map (·.1)).filter (fun k => !(strStarts k "$")),
      objGet obj k = objGet (obj.filter (fun kv => !(strStarts kv.1 "$"))) k := by
    intro k hk
    have hp : (!(strStarts k "$")) = true := (List.mem_filter.mp hk).2
    exact (@objGet_filter_keep _ obj k (fun k => !(strStarts k "$")) hp).symm
  have hmerge : syncMergeV ((obj.map (·.1)).filter (fun k => !(strStarts k "$"))) obj s
      = syncMergeV ((obj.map (·.1)).filter (fun k => !(strStarts k "$")))
          (obj.filter (fun kv => !(strStarts kv.1 "$"))) s :=
    syncMergeV_congr _ hget s
  refine ⟨?_, ?_, ?_⟩
  · rw [syncV_merge_eq, syncV_merge_eq, hks, hmerge]
  · rw [syncV_mirror_eq, syncV_mirror_eq]
    simp only
    rw [hks, hmerge]
  · intro hwf
    rw [syncV_update_eq]
    obtain ⟨_, hshape⟩ := sync_update_shape hwf obj s rfl rfl
    exact getKeysV_eq_of_shape hshape

/-- Witness for the C6 amended theorem at a concrete store and object. -/
theorem c6_witness :
    StoreWF exStoreA
    ∧ getKeysV (syncV exStoreA [("$x", .num 9), ("host", .num 5)] { update := true }).2
        = getKeysV exStoreA := by
  constructor
  · decide
  · exact (c6_dollar_exclusion_by_mode exStoreA
      [("$x", .num 9), ("host", .num 5)]).2.2 (by decide)

/-- Reading the upserted key out of the in-place-update branch. -/
theorem objGet_map_repl_hit {o : List (String × α)} {k : String} {v : α}
    (hhas : objHas o k = true) :
    objGet (o.map (fun kv => if kv.1 == k then (k, v) else kv)) k = some v := by
  induction o with
  | nil => simp [objHas] at hhas
  | cons kv o ih =>
    rw [List.map_cons]
    by_cases hkv : (kv.1 == k) = true
    · rw [if_pos hkv]
      exact objGet_cons_hit (by simp)
    · have hkv' : (kv.1 == k) = false := by simpa using hkv
      rw [if_neg hkv]
      rw [objGet_cons_miss hkv']
      apply ih
      simpa [objHas, hkv'] using hhas

/-- Reading another key out of the in-place-update branch. -/
theorem objGet_map_repl_ne {o : List (String × α)} {k' : String} {v : α}
    {k : String} (hne : k' ≠ k) :
    objGet (o.map (fun kv => if kv.1 == k' then (k', v) else kv)) k = objGet o k := by
  induction o with
  | nil => rfl
  | cons kv o ih =>
    rw [List.map_cons]
    by_cases hkv : (kv.1 == k') = true
    · rw [if_pos hkv]
      have h1 : (k' == k) = false := by simpa using hne
      have h2 : (kv.1 == k) = false := by
        have : kv.1 = k' := by simpa using hkv
        simpa [this] using hne
      rw [objGet_cons_miss h1, objGet_cons_miss h2]
      exact ih
    · rw [if_neg hkv]
      by_cases hk : (kv.1 == k) = true
      · rw [objGet_cons_hit hk, objGet_cons_hit hk]
      · have hk' : (kv.1 == k) = false := by simpa using hk
        rw [objGet_cons_miss hk', objGet_cons_miss hk']
        exact ih

/-- Reading the appended key when it was absent. -/
theorem objGet_append_single {o : List (String × α)} {k : String} {v : α}
    (hno : objHas o k = false) : objGet (o ++ [(k, v)]) k = some v := by
  induction o with
  | nil => exact objGet_cons_hit (by simp)
  | cons kv o ih =>
    have hkv : (kv.1 == k) = false := by
      by_contra h
      simp only [Bool.not_eq_false] at h
      simp [objHas, h] at hno
    rw [List.cons_append, objGet_cons_miss hkv]
    apply ih
    simpa [objHas, hkv] using hno

/-- Upserting then reading the same key gives the new value. -/
theorem objGet_objSet_self (o : List (String × α)) (k : String) (v : α) :
    objGet (objSet o k v) k = some v := by
  unfold objSet
  cases hhas : objHas o k with
  | true => rw [if_pos rfl]; exact objGet_map_repl_hit hhas
  | false => rw [if_neg (by simp)]; exact objGet_append_single hhas

/-- Upserting one key does not affect reads of another. -/
theorem objGet_objSet_ne {o : List (String × α)} {k' : String} {v : α}
    {k : String} (hne : k' ≠ k) : objGet (objSet o k' v) k = objGet o k := by
  unfold objSet
  cases hhas : objHas o k' with
  | true => rw [if_pos rfl]; exact objGet_map_repl_ne hne
  | false =>
    rw [if_neg (by simp)]
    unfold objGet
    rw [List.find?_append]
    have hne' : (k' == k) = false := by simpa using hne
    have : List.find? (fun x => x.1 == k) [(k', v)] = none := by
      simp [List.find?, hne']
    rw [this, Option.or_none]

/-- A deleted key reads as absent. -/
theorem objGet_objDel_self (o : List (String × α)) (k : String) :
    objGet (objDel o k) k = none := by
  induction o with
  | nil => rfl
  | cons kv o ih =>
    unfold objDel at ih ⊢
    rw [List.filter_cons]
    by_cases hkv : (kv.1 == k) = true
    · have hb : (kv.1 != k) = false := by simp [bne, hkv]
      rw [hb]
      simpa using ih
    · have hkv' : (kv.1 == k) = false := by simpa using hkv
      have hb : (kv.1 != k) = true := by simp [bne, hkv']
      rw [hb]
      simp only [if_true]
      rw [objGet_cons_miss hkv']
      exact ih

/-- Deleting one key does not affect reads of another. -/
theorem objGet_objDel_ne {o : List (String × α)} {k' k : String}
    (hne : k' ≠ k) : objGet (objDel o k') k = objGet o k := by
  induction o with
  | nil => rfl
  | cons kv o ih =>
    unfold objDel at ih ⊢
    rw [List.filter_cons]
    by_cases hkv : (kv.1 == k') = true
    · have hb : (kv.1 != k') = false := by simp [bne, hkv]
      have hk : (kv.1 == k) = false := by
        have hx : kv.1 = k' := by simpa using hkv
        simpa [hx] using hne
      rw [hb]
      simp only [Bool.false_eq_true, if_false]
      rw [objGet_cons_miss hk]
      exact ih
    · have hkv' : (kv.1 == k') = false := by simpa using hkv
      have hb : (kv.1 != k') = true := by simp [bne, hkv']
      rw [hb]
      simp only [if_true]
      by_cases hk : (kv.1 == k) = true
      · rw [objGet_cons_hit hk, objGet_cons_hit hk]
      · have hk' : (kv.1 == k) = false := by simpa using hk
        rw [objGet_cons_miss hk', objGet_cons_miss hk']
        exact ih

/-- The key list after a delete. -/
theorem objKeys_objDel (o : List (String × α)) (k : String) :
    objKeys (objDel o k) = (objKeys o).filter (fun x => x != k) := by
  unfold objKeys objDel
  rw [List.filter_map]
  rfl

/-- Recording a section's keys at position `i` leaves other keys alone. -/
theorem lookupIdx_insertSecKeys_not_mem {acc : List (String × Nat)} {i : Nat}
    {data : List (String × JVal)} {k : String} (h : k ∉ objKeys data) :
    lookupIdx (insertSecKeys acc i data) k = lookupIdx acc k := by
  unfold insertSecKeys
  induction data generalizing acc with
  | nil => rfl
  | cons kv data ih =>
    rw [List.foldl_cons]
    have hne : kv.1 ≠ k := by
      intro he
      exact h (by rw [← he]; exact List.mem_map_of_mem _ (by simp))
    rw [ih (fun hm => h (by simp [objKeys] at hm ⊢; exact Or.inr hm))]
    exact objGet_objSet_ne hne

/-- Recording a section's keys at position `i` indexes each of them at `i`. -/
theorem lookupIdx_insertSecKeys_mem {acc : List (String × Nat)} {i : Nat}
    {data : List (String × JVal)} {k : String} (h : k ∈ objKeys data) :
    lookupIdx (insertSecKeys acc i data) k = some i := by
  unfold insertSecKeys
  induction data generalizing acc with
  | nil => simp [objKeys] at h
  | cons kv data ih =>
    rw [List.foldl_cons]
    by_cases hmem : k ∈ objKeys data
    · exact ih hmem
    · have hk : kv.1 = k := by
        simp only [objKeys, List.map_cons, List.mem_cons] at h
        rcases h with h | h
        · exact h.symm
        · exact absurd h hmem
      rw [show (List.foldl (fun a kv => objSet a kv.1 i) (objSet acc kv.1 i) data)
            = insertSecKeys (objSet acc kv.1 i) i data from rfl]
      rw [lookupIdx_insertSecKeys_not_mem hmem]
      rw [hk]
      exact objGet_objSet_self _ _ _

/-- The rebuild loop leaves keys of no section untouched. -/
theorem lookupIdx_rebuildGo_not_mem {t : List Sect} {k : String}
    (h : ∀ sec ∈ t, k ∉ objKeys sec.data) :
    ∀ (i : Nat) (acc : List (String × Nat)),
      lookupIdx (rebuildGo i t acc) k = lookupIdx acc k := by
  induction t with
  | nil => intro i acc; rfl
  | cons sec t ih =>
    intro i acc
    rw [rebuildGo]
    rw [ih (fun s hs => h s (by simp [hs]))]
    exact lookupIdx_insertSecKeys_not_mem (h sec (by simp))

/-- A key present in no section is absent from the rebuilt index. -/
theorem lookupIdx_rebuild_none {t : List Sect} {k : String}
    (h : ∀ sec ∈ t, k ∉ objKeys sec.data) :
    lookupIdx (rebuildIndex t) k = none := by
  unfold rebuildIndex
  rw [lookupIdx_rebuildGo_not_mem h]
  rfl

/-- A key occurring in exactly one section is indexed at that position by
the rebuild loop. -/
theorem lookupIdx_rebuildGo_unique {t : List Sect} {k : String} {j : Nat}
    {sec : Sect} (hj : t.get? j = some sec) (hk : k ∈ objKeys sec.data)
    (huniq : ∀ j' sec', t.get? j' = some sec' → k ∈ objKeys sec'.data → j' = j) :
    ∀ (i : Nat) (acc : List (String × Nat)),
      lookupIdx (rebuildGo i t acc) k = some (i + j) := by
  induction t generalizing j with
  | nil => simp at hj
  | cons sec0 t ih =>
    intro i acc
    rw [rebuildGo]
    cases j with
    | zero =>
      have hsec0 : sec0 = sec := by simpa using hj
      subst hsec0
      have hnot : ∀ s' ∈ t, k ∉ objKeys s'.data := by
        intro s' hs' hks'
        obtain ⟨n, hn⟩ := List.mem_iff_get?.mp hs'
        have : n + 1 = 0 := huniq (n + 1) s' (by simpa using hn) hks'
        omega
      rw [lookupIdx_rebuildGo_not_mem hnot]
      rw [lookupIdx_insertSecKeys_mem hk]
      simp
    | succ j' =>
      have hj' : t.get? j' = some sec := by simpa using hj
      have huniq' : ∀ j'' sec', t.get? j'' = some sec' → k ∈ objKeys sec'.data → j'' = j' := by
        intro j'' sec' hget hks'
        have := huniq (j'' + 1) sec' (by simpa using hget) hks'
        omega
      have := ih hj' huniq' (i + 1) (insertSecKeys acc i sec0.data)
      rw [this]
      congr 1
      omega

/-- Rebuild correctness for a key with a unique owning section. -/
theorem lookupIdx_rebuild_unique {t : List Sect} {k : String} {j : Nat}
    {sec : Sect} (hj : t.get? j = some sec) (hk : k ∈ objKeys sec.data)
    (huniq : ∀ j' sec', t.get? j' = some sec' → k ∈ objKeys sec'.data → j' = j) :
    lookupIdx (rebuildIndex t) k = some j := by
  unfold rebuildIndex
  rw [lookupIdx_rebuildGo_unique hj hk huniq]
  simp

/-- Under `StoreWF`, the indexed position is the only section holding the
key. -/
theorem wf_key_unique {s : Store} (hwf : StoreWF s) {k : String} {i : Nat}
    (hidx : lookupIdx s.index k = some i) :
    ∀ j sec', s.tree.get? j = some sec' → k ∈ objKeys sec'.data → j = i := by
  intro j sec' hget hkmem
  obtain ⟨⟨hfwd, _⟩, _, _⟩ := hwf
  obtain ⟨kv, hkv, hkvk⟩ := List.mem_map.mp hkmem
  have henum : (j, sec') ∈ s.tree.enum :=
    List.mk_mem_enum_iff_getElem?.mpr (by rw [← List.get?_eq_getElem?]; exact hget)
  have := hfwd (j, sec') henum kv hkv
  rw [hkvk, hidx] at this
  exact (Option.some_inj.mp this).symm

/-- After erasing the key's unique section, no remaining section holds it. -/
theorem erase_no_key {s : Store} (hwf : StoreWF s) {k : String} {i : Nat}
    (hidx : lookupIdx s.index k = some i) :
    ∀ sec' ∈ s.tree.eraseIdx i, k ∉ objKeys sec'.data := by
  intro sec' hmem hk'
  obtain ⟨p, hp⟩ := List.mem_iff_get?.mp hmem
  rw [List.get?_eq_getElem?, List.getElem?_eraseIdx] at hp
  by_cases hpi : p < i
  · rw [if_pos hpi] at hp
    have := wf_key_unique hwf hidx p sec'
      (by rw [List.get?_eq_getElem?]; exact hp) hk'
    omega
  · rw [if_neg hpi] at hp
    have := wf_key_unique hwf hidx (p + 1) sec'
      (by rw [List.get?_eq_getElem?]; exact hp) hk'
    omega

/-- Characterization of `delete` on a found bare key: success, with the
three section dispositions. -/
theorem deleteV_bare_run {st : Store} {k : String} {i : Nat} {sec : Sect}
    (rc : Bool)
    (hbare : splitDot k = (k, ""))
    (hl : lookupIdx st.index k = some i)
    (hg : st.tree.get? i = some sec) :
    deleteV st k rc
      = (.done,
         if (objDel sec.data k).isEmpty = false then
           ⟨st.tree.set i ⟨sec.comment, objDel sec.data k⟩, objDel st.index k⟩
         else if sec.comment ≠ "" ∧ ¬ rc then
           ⟨st.tree.set i ⟨sec.comment, objDel sec.data k⟩, objDel st.index k⟩
         else ⟨st.tree.eraseIdx i, rebuildIndex (st.tree.eraseIdx i)⟩) := by
  simp only [deleteV, hbare, hl, hg]
  by_cases hd : (objDel sec.data k).isEmpty = false
  · simp [hd]
  · have hd' : (objDel sec.data k).isEmpty = true := by
      cases h : (objDel sec.data k).isEmpty
      · exact absurd h hd
      · rfl
    by_cases hc : sec.comment ≠ "" ∧ ¬ rc
    · simp [hd', hc]
    · simp [hd']
      split <;> rfl

/-- **C9** (confirmed).  Deleting a present bare top-level key always
reports success and makes `get` fall back to the caller's default for every
default; the owning section is kept (with the key removed from its data and
from the index) when other keys remain, or when it carries a non-empty
comment and `removeComment` is not set; otherwise the section is spliced
out of the tree and the index is fully rebuilt. -/
theorem c9_delete_bare_key (s : Store) (k : String) (i : Nat) (sec : Sect)
    (rc : Bool)
    (hwf : StoreWF s)
    (hbare : splitDot k = (k, ""))
    (hidx : lookupIdx s.index k = some i)
    (hsec : s.tree.get? i = some sec) :
    (deleteV s k rc).1 = .done
    ∧ (∀ d, getV (deleteV s k rc).2 k d = d)
    ∧ (objDel sec.data k ≠ [] →
        (deleteV s k rc).2
          = ⟨s.tree.set i ⟨sec.comment, objDel sec.data k⟩, objDel s.index k⟩)
    ∧ (objDel sec.data k = [] → sec.comment ≠ "" → rc = false →
        (deleteV s k rc).2
          = ⟨s.tree.set i ⟨sec.comment, objDel sec.data k⟩, objDel s.index k⟩)
    ∧ (objDel sec.data k = [] → (sec.comment = "" ∨ rc = true) →
        (deleteV s k rc).2
          = ⟨s.tree.eraseIdx i, rebuildIndex (s.tree.eraseIdx i)⟩) := by
  have hrun := deleteV_bare_run rc hbare hidx hsec
  refine ⟨by rw [hrun], ?_, ?_, ?_, ?_⟩
  · intro d
    rw [hrun]
    by_cases hd : (objDel sec.data k).isEmpty = false
    · rw [if_pos hd]
      simp [getV, hbare, lookupIdx, objGet_objDel_self]
    · rw [if_neg hd]
      by_cases hc : sec.comment ≠ "" ∧ ¬ rc
      · rw [if_pos hc]
        simp [getV, hbare, lookupIdx, objGet_objDel_self]
      · rw [if_neg hc]
        have hnone : lookupIdx (rebuildIndex (s.tree.eraseIdx i)) k = none :=
          lookupIdx_rebuild_none (erase_no_key hwf hidx)
        simp [getV, hbare, hnone]
  · intro hne
    rw [hrun]
    rw [if_pos (by simpa [List.isEmpty_iff] using hne)]
  · intro hnil hcom hrc
    rw [hrun]
    rw [if_neg (by simp [List.isEmpty_iff, hnil])]
    rw [if_pos ⟨hcom, by simp [hrc]⟩]
  · intro hnil hcase
    rw [hrun]
    rw [if_neg (by simp [List.isEmpty_iff, hnil])]
    rw [if_neg ?hcond]
    case hcond =>
      rcases hcase with h | h
      · intro hcc; exact hcc.1 h
      · intro hcc; exact hcc.2 (by simp [h])

/-- Witness for C9: deleting `alpha` from a two-key section keeps the
section and makes `get` fall back to the supplied default. -/
theorem c9_witness :
    (StoreWF exStoreB ∧ splitDot "alpha" = ("alpha", "")
     ∧ lookupIdx exStoreB.index "alpha" = some 0
     ∧ exStoreB.tree.get? 0 = some ⟨"", [("alpha", JVal.num 1), ("beta", JVal.num 2)]⟩)
    ∧ ((deleteV exStoreB "alpha" false).1 = .done
       ∧ getV (deleteV exStoreB "alpha" false).2 "alpha" (.str "fallback")
           = .str "fallback") := by
  have h := c9_delete_bare_key exStoreB "alpha" 0
    ⟨"", [("alpha", .num 1), ("beta", .num 2)]⟩ false
    (by decide) (by decide) (by decide) rfl
  exact ⟨⟨by decide, by decide, by decide, rfl⟩, h.1, h.2.1 (.str "fallback")⟩

/-- Deleting an absent key is the identity. -/
theorem objDel_of_not_mem {o : List (String × α)} {k : String}
    (h : k ∉ objKeys o) : objDel o k = o := by
  unfold objDel
  apply List.filter_eq_self.mpr
  intro kv hkv
  have : kv.1 ≠ k := by
    intro he
    exact h (he ▸ List.mem_map_of_mem (·.1) hkv)
  simp [bne, this]

/-- Deletion distributes over append. -/
theorem objDel_append (A B : List (String × α)) (k : String) :
    objDel (A ++ B) k = objDel A k ++ objDel B k :=
  List.filter_append _ _

/-- Reading an appended object falls through on a miss. -/
theorem objGet_append (A B : List (String × α)) (k : String) :
    objGet (A ++ B) k
      = match objGet A k with
        | some v => some v
        | none => objGet B k := by
  unfold objGet
  rw [List.find?_append]
  cases h : A.find? (·.1 == k) <;> simp [Option.or]

/-- The in-place-update map is the identity where the key is absent. -/
theorem map_repl_of_not_mem {o : List (String × α)} {k : String} {v : α}
    (h : k ∉ objKeys o) :
    o.map (fun kv => if kv.1 == k then (k, v) else kv) = o := by
  induction o with
  | nil => rfl
  | cons kv o ih =>
    have hne : kv.1 ≠ k := by
      intro he
      apply h
      simp only [objKeys, List.map_cons, List.mem_cons]
      exact Or.inl he.symm
    have hsub : k ∉ objKeys o := by
      intro hm
      apply h
      simp only [objKeys, List.map_cons, List.mem_cons]
      exact Or.inr hm
    rw [List.map_cons, if_neg (by simpa using hne)]
    rw [ih hsub]

/-- Upsert localises to the sublist holding the key. -/
theorem objSet_append_middle {B D A : List (String × α)} {k : String} (v : α)
    (hB : k ∉ objKeys B) (hD : k ∈ objKeys D) (hA : k ∉ objKeys A) :
    objSet (B ++ D ++ A) k v = B ++ objSet D k v ++ A := by
  have hhasD : objHas D k = true := objHas_iff_mem.mpr hD
  have hhas : objHas (B ++ D ++ A) k = true := by
    unfold objHas at hhasD ⊢
    simp only [List.any_append]
    simp [hhasD]
  unfold objSet
  rw [if_pos hhas, if_pos hhasD]
  rw [List.map_append, List.map_append]
  rw [map_repl_of_not_mem hB, map_repl_of_not_mem hA]

/-- Key membership after one upsert. -/
theorem mem_objKeys_objSet {o : List (String × α)} {x k : String} {v : α} :
    k ∈ objKeys (objSet o x v) ↔ k = x ∨ k ∈ objKeys o := by
  by_cases hhas : objHas o x = true
  · have hx : x ∈ objKeys o := objHas_iff_mem.mp hhas
    rw [objKeys_objSet_of_mem v hx]
    constructor
    · exact Or.inr
    · rintro (h | h)
      · exact h ▸ hx
      · exact h
  · have hnm : x ∉ objKeys o := fun hm => hhas (objHas_iff_mem.mpr hm)
    rw [objSet_of_not_mem v hnm]
    unfold objKeys
    rw [List.map_append]
    simp [or_comm]

/-- Keys of an upsert chain: the base keys plus the processed keys. -/
theorem mem_objKeys_foldl_objSet (f : String → α) (ks : List String)
    (d0 : List (String × α)) (k : String) :
    k ∈ objKeys (ks.foldl (fun d x => objSet d x (f x)) d0)
      ↔ k ∈ objKeys d0 ∨ k ∈ ks := by
  induction ks generalizing d0 with
  | nil => simp
  | cons x ks ih =>
    rw [List.foldl_cons, ih, mem_objKeys_objSet]
    constructor
    · rintro ((h | h) | h)
      · simp [h]
      · exact Or.inl h
      · simp [h]
    · rintro (h | h)
      · exact Or.inl (Or.inr h)
      · rcases List.mem_cons.mp h with h | h
        · exact Or.inl (Or.inl h)
        · exact Or.inr h

/-- Reading a key not in the processed list out of an upsert chain. -/
theorem objGet_foldl_objSet_not_mem (f : String → α) {ks : List String}
    {k : String} (h : k ∉ ks) (d0 : List (String × α)) :
    objGet (ks.foldl (fun d x => objSet d x (f x)) d0) k = objGet d0 k := by
  induction ks generalizing d0 with
  | nil => rfl
  | cons x ks ih =>
    rw [List.foldl_cons]
    rw [ih (fun hm => h (by simp [hm]))]
    exact objGet_objSet_ne (fun he => h (by simp [he]))

/-- Reading a processed key out of an upsert chain. -/
theorem objGet_foldl_objSet_mem (f : String → α) {ks : List String}
    {k : String} (hnd : ks.Nodup) (h : k ∈ ks) (d0 : List (String × α)) :
    objGet (ks.foldl (fun d x => objSet d x (f x)) d0) k = some (f k) := by
  induction ks generalizing d0 with
  | nil => simp at h
  | cons x ks ih =>
    rw [List.foldl_cons]
    rcases List.mem_cons.mp h with h | h
    · subst h
      have hk : k ∉ ks := (List.nodup_cons.mp hnd).1
      rw [objGet_foldl_objSet_not_mem f hk]
      exact objGet_objSet_self _ _ _
    · exact ih (List.nodup_cons.mp hnd).2 h _

/-- `treeData` distributes over append. -/
theorem treeData_append (t1 t2 : List Sect) :
    treeData (t1 ++ t2) = treeData t1 ++ treeData t2 :=
  List.flatMap_append t1 t2 _

/-- The store's key list is the key list of the flattened data. -/
theorem getKeysV_eq_treeData (s : Store) :
    getKeysV s = objKeys (treeData s.tree) := by
  unfold getKeysV treeData objKeys
  rw [List.map_flatMap]

/-- A position hit splits the tree around that section. -/
theorem tree_split {t : List Sect} {i : Nat} {sec : Sect}
    (h : t.get? i = some sec) :
    t = t.take i ++ sec :: t.drop (i + 1) := by
  obtain ⟨hlen, -⟩ := List.get?_eq_some.mp h
  conv_lhs => rw [← set_get?_eq h]
  exact List.set_eq_take_cons_drop sec hlen

/-- `treeData` after replacing the section at a hit position. -/
theorem treeData_set {t : List Sect} {i : Nat} {sec : Sect}
    (h : t.get? i = some sec) (sec' : Sect) :
    treeData (t.set i sec')
      = treeData (t.take i) ++ sec'.data ++ treeData (t.drop (i + 1)) := by
  obtain ⟨hlen, -⟩ := List.get?_eq_some.mp h
  rw [List.set_eq_take_cons_drop sec' hlen]
  rw [show sec' :: t.drop (i + 1) = [sec'] ++ t.drop (i + 1) from rfl]
  rw [treeData_append, treeData_append]
  simp [treeData, List.append_assoc]

/-- `treeData` at a hit position. -/
theorem treeData_split {t : List Sect} {i : Nat} {sec : Sect}
    (h : t.get? i = some sec) :
    treeData t = treeData (t.take i) ++ sec.data ++ treeData (t.drop (i + 1)) := by
  conv_lhs => rw [tree_split h]
  rw [show sec :: t.drop (i + 1) = [sec] ++ t.drop (i + 1) from rfl]
  rw [treeData_append, treeData_append]
  simp [treeData, List.append_assoc]

/-- `treeData` after erasing the section at a hit position. -/
theorem treeData_eraseIdx (t : List Sect) (i : Nat) :
    treeData (t.eraseIdx i) = treeData (t.take i) ++ treeData (t.drop (i + 1)) := by
  rw [List.eraseIdx_eq_take_drop_succ, treeData_append]

/-- In a duplicate-free three-part key list, a middle key avoids the sides. -/
theorem nodup_three_middle {A B C : List String}
    (h : (A ++ B ++ C).Nodup) {k : String} (hk : k ∈ B) : k ∉ A ∧ k ∉ C := by
  rw [List.append_assoc] at h
  obtain ⟨hA, hBC, hdisjA⟩ := List.nodup_append.mp h
  obtain ⟨hB, hC, hdisjBC⟩ := List.nodup_append.mp hBC
  exact ⟨fun hka => hdisjA hka (List.mem_append.mpr (Or.inl hk)),
         fun hkc => hdisjBC hk hkc⟩

/-- Keys of a three-part flattening. -/
theorem objKeys_append (A B : List (String × α)) :
    objKeys (A ++ B) = objKeys A ++ objKeys B :=
  List.map_append _ A B

/-- Singleton flattening. -/
theorem flatten_singletons (l : List String) :
    (l.map (fun k => [k])).flatten = l := by
  induction l with
  | nil => rfl
  | cons a l ih => simp [ih]

/-- The flattened key list under the merge invariant. -/
theorem mergeInv_keys {s st : Store} {ext : List String}
    (h2 : st.tree.map (fun sec => objKeys sec.data)
        = s.tree.map (fun sec => objKeys sec.data) ++ ext.map (fun k => [k])) :
    objKeys (treeData st.tree) = objKeys (treeData s.tree) ++ ext := by
  have hst : objKeys (treeData st.tree)
      = (st.tree.map (fun sec => objKeys sec.data)).flatten := by
    unfold treeData objKeys
    rw [List.map_flatMap]
    rfl
  have hs : objKeys (treeData s.tree)
      = (s.tree.map (fun sec => objKeys sec.data)).flatten := by
    unfold treeData objKeys
    rw [List.map_flatMap]
    rfl
  rw [hst, hs, h2, List.flatten_append, flatten_singletons]

/-- An unindexed key is present in no section (index completeness). -/
theorem wf_not_indexed {s : Store} (hwf : StoreWF s) {k : String}
    (h : lookupIdx s.index k = none) : k ∉ objKeys (treeData s.tree) := by
  intro hk
  rw [← getKeysV_eq_treeData] at hk
  obtain ⟨sec, hsec, hksec⟩ := List.mem_flatMap.mp hk
  obtain ⟨j, hj⟩ := List.mem_iff_get?.mp hsec
  obtain ⟨kv, hkv, hkvk⟩ := List.mem_map.mp hksec
  obtain ⟨⟨hfwd, -⟩, -, -⟩ := hwf
  have henum : (j, sec) ∈ s.tree.enum :=
    List.mk_mem_enum_iff_getElem?.mpr (by rw [← List.get?_eq_getElem?]; exact hj)
  have := hfwd (j, sec) henum kv hkv
  rw [hkvk, h] at this
  cases this

/-- An upsert never produces the empty object. -/
theorem objSet_ne_nil (o : List (String × α)) (k : String) (v : α) :
    objSet o k v ≠ [] := by
  unfold objSet
  cases o with
  | nil => simp [objHas]
  | cons kv o =>
    by_cases hhas : objHas (kv :: o) k = true
    · rw [if_pos hhas]; simp
    · rw [if_neg (by simpa using hhas)]; simp

/-- Effect of one merge iteration: the flattened data is upserted, and the
merge invariant is maintained (`ext` grows exactly on fresh keys). -/
theorem mergeStep_run {s : Store} (hwf : StoreWF s)
    (obj : List (String × JVal)) {st : Store} {ext : List String}
    (hinv : MergeInv s st ext) (k : String) (hkext : k ∉ ext) :
    MergeInv s (mergeStep obj st k)
      (if (lookupIdx s.index k).isSome then ext else ext ++ [k])
    ∧ treeData (mergeStep obj st k).tree
        = objSet (treeData st.tree) k ((objGet obj k).getD .undef) := by
  obtain ⟨h1, h2, h3, h4⟩ := hinv
  unfold mergeStep
  rw [h1]
  cases hl : lookupIdx s.index k with
  | some idx =>
    obtain ⟨sec, hsec, hks⟩ := wf_index_sound hwf hl
    obtain ⟨hlen, -⟩ := List.get?_eq_some.mp hsec
    have hlen' : idx < (s.tree.map (fun sec => objKeys sec.data)).length := by
      rw [List.length_map]; exact hlen
    have hmap : (st.tree.map (fun sec => objKeys sec.data)).get? idx
        = some (objKeys sec.data) := by
      rw [h2, List.get?_append hlen', List.get?_map, hsec]
      rfl
    rw [List.get?_map] at hmap
    cases hg : st.tree.get? idx with
    | none => rw [hg] at hmap; cases hmap
    | some sec' =>
      rw [hg] at hmap
      have hkeys' : objKeys sec'.data = objKeys sec.data := by simpa using hmap
      have hks' : k ∈ objKeys sec'.data := by rw [hkeys']; exact hks
      have hsplitK : objKeys (treeData st.tree)
          = objKeys (treeData (st.tree.take idx)) ++ objKeys sec'.data
            ++ objKeys (treeData (st.tree.drop (idx + 1))) := by
        rw [treeData_split hg, objKeys_append, objKeys_append]
      have hside := nodup_three_middle (hsplitK ▸ h3) hks'
      have hvd : treeData (st.tree.set idx
            ⟨sec'.comment, objSet sec'.data k ((objGet obj k).getD .undef)⟩)
          = objSet (treeData st.tree) k ((objGet obj k).getD .undef) := by
        rw [treeData_set hg, treeData_split hg]
        rw [objSet_append_middle _ hside.1 hks' hside.2]
      have hgm : (st.tree.map (fun sec => objKeys sec.data)).get? idx
          = some (objKeys sec'.data) := by
        rw [List.get?_map, hg]; rfl
      simp only [hg, Option.isSome_some, if_pos]
      refine ⟨⟨rfl, ?_, ?_, ?_⟩, hvd⟩
      · rw [List.map_set]
        simp only
        rw [objKeys_objSet_of_mem _ hks']
        rw [set_get?_eq hgm]
        exact h2
      · rw [hvd]
        have hkw : k ∈ objKeys (treeData st.tree) := by
          rw [hsplitK]
          exact List.mem_append.mpr (Or.inl (List.mem_append.mpr (Or.inr hks')))
        rw [objKeys_objSet_of_mem _ hkw]
        exact h3
      · intro sec0 hmem hdata0
        rcases List.mem_or_eq_of_mem_set hmem with hm | hm
        · exact h4 sec0 hm hdata0
        · rw [hm] at hdata0
          exact absurd hdata0 (objSet_ne_nil _ _ _)
  | none =>
    have hknotin : k ∉ objKeys (treeData st.tree) := by
      rw [mergeInv_keys h2]
      intro hmem
      rcases List.mem_append.mp hmem with hm | hm
      · exact wf_not_indexed hwf hl hm
      · exact hkext hm
    have hvd : treeData (st.tree ++ [⟨"", [(k, (objGet obj k).getD .undef)]⟩])
        = objSet (treeData st.tree) k ((objGet obj k).getD .undef) := by
      rw [treeData_append, objSet_of_not_mem _ hknotin]
      simp [treeData]
    simp only [Option.isSome_none, Bool.false_eq_true, if_neg]
    refine ⟨⟨rfl, ?_, ?_, ?_⟩, hvd⟩
    · rw [List.map_append, h2]
      simp [objKeys, List.append_assoc]
    · rw [hvd, objSet_of_not_mem _ hknotin, objKeys_append]
      rw [List.nodup_append]
      refine ⟨h3, by simp [objKeys], ?_⟩
      intro a ha hb
      simp only [objKeys, List.map_cons, List.map_nil, List.mem_singleton] at hb
      rw [hb] at ha
      exact hknotin ha
    · intro sec0 hmem hdata0
      rcases List.mem_append.mp hmem with hm | hm
      · exact h4 sec0 hm hdata0
      · simp only [List.mem_singleton] at hm
        rw [hm] at hdata0
        cases hdata0

/-- Effect of the whole merge loop: the flattened data is the upsert chain
of the processed keys, and the merge invariant holds for some final `ext`. -/
theorem merge_run {s : Store} (hwf : StoreWF s) (obj : List (String × JVal)) :
    ∀ (ks : List String) (st : Store) (ext : List String), ks.Nodup →
      (∀ k ∈ ks, k ∉ ext) → MergeInv s st ext →
      ∃ ext', MergeInv s (ks.foldl (mergeStep obj) st) ext'
        ∧ treeData (ks.foldl (mergeStep obj) st).tree
            = ks.foldl (fun d k => objSet d k ((objGet obj k).getD .undef))
                (treeData st.tree)
        ∧ (∀ x ∈ ext', x ∈ ext ∨ x ∈ ks) := by
  intro ks
  induction ks with
  | nil => intro st ext _ _ hinv; exact ⟨ext, hinv, rfl, fun x hx => Or.inl hx⟩
  | cons k ks ih =>
    intro st ext hnd hfresh hinv
    obtain ⟨hinv', hdata⟩ := mergeStep_run hwf obj hinv k (hfresh k (by simp))
    rw [List.foldl_cons, List.foldl_cons]
    set ext' := if (lookupIdx s.index k).isSome then ext else ext ++ [k] with hext'
    have hfresh' : ∀ k' ∈ ks, k' ∉ ext' := by
      intro k' hk'
      have h1 : k' ∉ ext := hfresh k' (by simp [hk'])
      have h2 : k' ≠ k := by
        intro he
        exact (List.nodup_cons.mp hnd).1 (he ▸ hk')
      rw [hext']
      cases (lookupIdx s.index k).isSome <;> simp [h1, h2]
    obtain ⟨ext'', hinv'', hdata'', hscope''⟩ :=
      ih (mergeStep obj st k) ext' (List.nodup_cons.mp hnd).2 hfresh' hinv'
    refine ⟨ext'', hinv'', by rw [hdata'', hdata], ?_⟩
    intro x hx
    rcases hscope'' x hx with hx' | hx'
    · rw [hext'] at hx'
      by_cases hs : (lookupIdx s.index k).isSome = true
      · rw [if_pos hs] at hx'
        exact Or.inl hx'
      · rw [if_neg hs] at hx'
        rcases List.mem_append.mp hx' with h | h
        · exact Or.inl h
        · simp only [List.mem_singleton] at h
          exact Or.inr (by simp [h])
    · exact Or.inr (by simp [hx'])

/-- A flattened key comes from some section at some position. -/
theorem mem_treeData_position {t : List Sect} {k : String}
    (h : k ∈ objKeys (treeData t)) :
    ∃ j sec, t.get? j = some sec ∧ k ∈ objKeys sec.data := by
  unfold treeData at h
  obtain ⟨kv, hkv, hk⟩ := List.mem_map.mp h
  obtain ⟨sec, hsec, hkvsec⟩ := List.mem_flatMap.mp hkv
  obtain ⟨j, hj⟩ := List.mem_iff_get?.mp hsec
  exact ⟨j, sec, hj, hk ▸ List.mem_map_of_mem (·.1) hkvsec⟩

/-- A key absent from the flattening is absent from every section. -/
theorem not_mem_treeData_sections {t : List Sect} {k : String}
    (h : k ∉ objKeys (treeData t)) :
    ∀ sec ∈ t, k ∉ objKeys sec.data := by
  intro sec hsec hk
  apply h
  obtain ⟨kv, hkv, hk'⟩ := List.mem_map.mp hk
  exact hk' ▸ List.mem_map_of_mem (·.1)
    (List.mem_flatMap.mpr ⟨sec, hsec, hkv⟩)

/-- With duplicate-free flattened keys, a key determines its section's
position. -/
theorem nodup_unique_section {t : List Sect} (hnd : (objKeys (treeData t)).Nodup)
    {j : Nat} {sec : Sect} (hj : t.get? j = some sec) {k : String}
    (hk : k ∈ objKeys sec.data) :
    ∀ j' sec', t.get? j' = some sec' → k ∈ objKeys sec'.data → j' = j := by
  intro j' sec' hj' hk'
  by_contra hne
  have hsplit : objKeys (treeData t)
      = objKeys (treeData (t.take j)) ++ objKeys sec.data
        ++ objKeys (treeData (t.drop (j + 1))) := by
    rw [treeData_split hj, objKeys_append, objKeys_append]
  have hside := nodup_three_middle (hsplit ▸ hnd) hk
  rcases Nat.lt_or_ge j' j with hlt | hge
  · -- sec' is inside the prefix
    have hjtake : (t.take j).get? j' = some sec' := by
      rw [List.get?_eq_getElem?, List.getElem?_take]
      rw [if_pos hlt]
      rw [← List.get?_eq_getElem?]
      exact hj'
    have hmem : sec' ∈ t.take j := List.get?_mem hjtake
    apply hside.1
    obtain ⟨kv, hkv, hkk⟩ := List.mem_map.mp hk'
    exact hkk ▸ List.mem_map_of_mem (·.1)
      (List.mem_flatMap.mpr ⟨sec', hmem, hkv⟩)
  · have hgt : j + 1 ≤ j' := by omega
    have hjdrop : (t.drop (j + 1)).get? (j' - (j + 1)) = some sec' := by
      rw [List.get?_drop]
      rw [show j + 1 + (j' - (j + 1)) = j' by omega]
      exact hj'
    have hmem : sec' ∈ t.drop (j + 1) := List.get?_mem hjdrop
    apply hside.2
    obtain ⟨kv, hkv, hkk⟩ := List.mem_map.mp hk'
    exact hkk ▸ List.mem_map_of_mem (·.1)
      (List.mem_flatMap.mpr ⟨sec', hmem, hkv⟩)

/-- With duplicate-free flattened keys, every hit of the rebuilt index is
sound. -/
theorem rebuild_sound {t : List Sect} (hnd : (objKeys (treeData t)).Nodup)
    {k : String} {j : Nat} (h : lookupIdx (rebuildIndex t) k = some j) :
    ∃ sec, t.get? j = some sec ∧ k ∈ objKeys sec.data := by
  by_cases hk : k ∈ objKeys (treeData t)
  · obtain ⟨j0, sec0, hj0, hk0⟩ := mem_treeData_position hk
    have huniq := nodup_unique_section hnd hj0 hk0
    have := lookupIdx_rebuild_unique hj0 hk0 huniq
    rw [this] at h
    obtain he : j0 = j := by simpa using h
    exact he ▸ ⟨sec0, hj0, hk0⟩
  · rw [lookupIdx_rebuild_none (not_mem_treeData_sections hk)] at h
    cases h

/-- With duplicate-free flattened keys, every present key is found by the
rebuilt index. -/
theorem rebuild_covers {t : List Sect} (hnd : (objKeys (treeData t)).Nodup)
    {k : String} (hk : k ∈ objKeys (treeData t)) :
    (lookupIdx (rebuildIndex t) k).isSome := by
  obtain ⟨j0, sec0, hj0, hk0⟩ := mem_treeData_position hk
  rw [lookupIdx_rebuild_unique hj0 hk0 (nodup_unique_section hnd hj0 hk0)]
  rfl

/-- Effect of one `mirror` removal iteration: external keys are kept, other
keys are deleted from the flattened data, and the removal invariant is
maintained. -/
theorem mirrorStep_run {s : Store} {K : List String} {st : Store}
    (hinv : DelInv s K st) (k : String)
    (hbare : splitDot k = (k, "")) :
    DelInv s K (mirrorStep K st k)
    ∧ treeData (mirrorStep K st k).tree
        = if K.contains k then treeData st.tree
          else objDel (treeData st.tree) k := by
  obtain ⟨h1, h2, h3, h4⟩ := hinv
  unfold mirrorStep
  by_cases hK : K.contains k = true
  · rw [if_pos hK, if_pos hK]
    exact ⟨⟨h1, h2, h3, h4⟩, rfl⟩
  · rw [if_neg hK, if_neg hK]
    cases hl : lookupIdx st.index k with
    | none =>
      have hknot : k ∉ objKeys (treeData st.tree) := by
        intro hmem
        have := h3 k hmem (by simpa using hK)
        rw [hl] at this
        cases this
      have hid : (deleteV st k true).2 = st := by
        simp [deleteV, hbare, hl]
      rw [hid, objDel_of_not_mem hknot]
      exact ⟨⟨h1, h2, h3, h4⟩, rfl⟩
    | some i =>
      obtain ⟨sec, hg, hks⟩ := h2 k i hl
      obtain ⟨hilen, -⟩ := List.get?_eq_some.mp hg
      have hrun := deleteV_bare_run true hbare hl hg
      have hrun' : deleteV st k true
          = (.done,
             if (objDel sec.data k).isEmpty = false then
               ⟨st.tree.set i ⟨sec.comment, objDel sec.data k⟩, objDel st.index k⟩
             else ⟨st.tree.eraseIdx i, rebuildIndex (st.tree.eraseIdx i)⟩) := by
        rw [hrun]
        simp
      have hsplitK : objKeys (treeData st.tree)
          = objKeys (treeData (st.tree.take i)) ++ objKeys sec.data
            ++ objKeys (treeData (st.tree.drop (i + 1))) := by
        rw [treeData_split hg, objKeys_append, objKeys_append]
      have hside := nodup_three_middle (hsplitK ▸ h1) hks
      have hDel : objDel (treeData st.tree) k
          = treeData (st.tree.take i) ++ objDel sec.data k
            ++ treeData (st.tree.drop (i + 1)) := by
        rw [treeData_split hg, objDel_append, objDel_append,
            objDel_of_not_mem hside.1, objDel_of_not_mem hside.2]
      have hnd' : (objKeys (objDel (treeData st.tree) k)).Nodup := by
        rw [objKeys_objDel]
        exact h1.filter _
      by_cases hd : (objDel sec.data k).isEmpty = false
      · -- section kept: other keys remain
        have htree' : (deleteV st k true).2.tree
            = st.tree.set i ⟨sec.comment, objDel sec.data k⟩ := by
          rw [hrun']; simp [hd]
        have hindex' : (deleteV st k true).2.index = objDel st.index k := by
          rw [hrun']; simp [hd]
        have hdata : treeData (st.tree.set i ⟨sec.comment, objDel sec.data k⟩)
            = objDel (treeData st.tree) k := by
          rw [treeData_set hg, hDel]
        refine ⟨⟨?_, ?_, ?_, ?_⟩, by rw [htree', hdata]⟩
        · rw [htree', hdata]; exact hnd'
        · intro k' i' hl'
          rw [hindex'] at hl'
          rw [htree']
          unfold lookupIdx at hl'
          have hne : k ≠ k' := by
            intro he
            rw [← he, objGet_objDel_self] at hl'
            cases hl'
          have hl'' : lookupIdx st.index k' = some i' := by
            unfold lookupIdx
            rw [← objGet_objDel_ne hne]
            exact hl'
          obtain ⟨sec'', hg'', hks''⟩ := h2 k' i' hl''
          by_cases hii : i = i'
          · subst hii
            have hsec : sec'' = sec := by
              rw [hg] at hg''
              have h' : sec = sec'' := by simpa using hg''
              exact h'.symm
            refine ⟨⟨sec.comment, objDel sec.data k⟩, ?_, ?_⟩
            · rw [List.get?_eq_getElem?, List.getElem?_set_self hilen]
            · rw [objKeys_objDel]
              apply List.mem_filter.mpr
              refine ⟨hsec ▸ hks'', ?_⟩
              simp [bne, hne.symm]
          · refine ⟨sec'', ?_, hks''⟩
            rw [List.get?_eq_getElem?, List.getElem?_set_ne hii,
                ← List.get?_eq_getElem?]
            exact hg''
        · intro k' hmem hK'
          rw [htree', hdata, objKeys_objDel] at hmem
          obtain ⟨hmem', hne'⟩ := List.mem_filter.mp hmem
          have hne : k ≠ k' := by
            intro he
            simp [bne, he] at hne'
          have := h3 k' hmem' hK'
          have heq : lookupIdx (objDel st.index k) k' = lookupIdx st.index k' := by
            unfold lookupIdx
            exact objGet_objDel_ne hne
          rw [hindex', heq]
          exact this
        · intro sec0 hmem0 hdata0
          rw [htree'] at hmem0
          rcases List.mem_or_eq_of_mem_set hmem0 with hm | hm
          · exact h4 sec0 hm hdata0
          · have hnil0 : objDel sec.data k = [] := by
              rw [hm] at hdata0
              exact hdata0
            rw [hnil0] at hd
            simp at hd
      · -- section emptied: purged, index rebuilt
        have hnil : objDel sec.data k = [] := by
          cases h : (objDel sec.data k).isEmpty
          · exact absurd h hd
          · exact List.isEmpty_iff.mp h
        have htree' : (deleteV st k true).2.tree = st.tree.eraseIdx i := by
          rw [hrun']; simp [hnil]
        have hindex' : (deleteV st k true).2.index
            = rebuildIndex (st.tree.eraseIdx i) := by
          rw [hrun']; simp [hnil]
        have hdata : treeData (st.tree.eraseIdx i)
            = objDel (treeData st.tree) k := by
          rw [treeData_eraseIdx, hDel, hnil]
          simp
        refine ⟨⟨?_, ?_, ?_, ?_⟩, by rw [htree', hdata]⟩
        · rw [htree', hdata]; exact hnd'
        · intro k' i' hl'
          rw [hindex'] at hl'
          rw [htree']
          exact rebuild_sound (hdata ▸ hnd') hl'
        · intro k' hmem hK'
          rw [htree'] at hmem
          rw [hindex']
          exact rebuild_covers (hdata ▸ hnd') hmem
        · intro sec0 hmem0 hdata0
          rw [htree'] at hmem0
          exact h4 sec0 (List.mem_of_mem_eraseIdx hmem0) hdata0

/-- An absent key reads as `none`. -/
theorem objGet_eq_none_of_not_mem {o : List (String × α)} {k : String}
    (h : k ∉ objKeys o) : objGet o k = none := by
  unfold objGet
  cases hfind : o.find? (·.1 == k) with
  | none => rfl
  | some kv =>
    have hk := List.find?_some hfind
    have hmem := List.mem_of_find?_eq_some hfind
    have hkk : kv.1 = k := by simpa using hk
    exact absurd (hkk ▸ List.mem_map_of_mem (·.1) hmem) h

/-- A present key reads as `some`. -/
theorem objGet_isSome_of_mem {o : List (String × α)} {k : String}
    (h : k ∈ objKeys o) : ∃ v, objGet o k = some v := by
  induction o with
  | nil => simp [objKeys] at h
  | cons kv o ih =>
    by_cases hkv : (kv.1 == k) = true
    · exact ⟨kv.2, objGet_cons_hit hkv⟩
    · have hkv' : (kv.1 == k) = false := by simpa using hkv
      rw [objGet_cons_miss hkv']
      apply ih
      simp only [objKeys, List.map_cons, List.mem_cons] at h
      rcases h with h | h
      · exact absurd (by simp [h]) hkv
      · exact h

/-- With duplicate-free flattened keys, the flattened read agrees with the
owning section's read. -/
theorem treeData_objGet_at {t : List Sect} (hnd : (objKeys (treeData t)).Nodup)
    {j : Nat} {sec : Sect} (hj : t.get? j = some sec) {k : String}
    (hk : k ∈ objKeys sec.data) :
    objGet (treeData t) k = objGet sec.data k := by
  have hsplit := treeData_split hj
  have hsplitK : objKeys (treeData t)
      = objKeys (treeData (t.take j)) ++ objKeys sec.data
        ++ objKeys (treeData (t.drop (j + 1))) := by
    rw [hsplit, objKeys_append, objKeys_append]
  have hside := nodup_three_middle (hsplitK ▸ hnd) hk
  rw [hsplit]
  rw [List.append_assoc]
  rw [objGet_append]
  rw [objGet_eq_none_of_not_mem hside.1]
  rw [objGet_append]
  obtain ⟨v, hv⟩ := objGet_isSome_of_mem hk
  rw [hv]

/-- A well-formed store has duplicate-free flattened keys. -/
theorem wf_keys_nodup {s : Store} (hwf : StoreWF s) :
    (objKeys (treeData s.tree)).Nodup := by
  have hflat : objKeys (treeData s.tree)
      = (s.tree.map (fun sec => objKeys sec.data)).flatten := by
    unfold treeData objKeys
    rw [List.map_flatMap]
    rfl
  rw [hflat, List.nodup_flatten]
  constructor
  · intro l hl
    obtain ⟨sec, hsec, hls⟩ := List.mem_map.mp hl
    exact hls ▸ hwf.2.1 sec hsec
  · rw [List.pairwise_map]
    rw [List.pairwise_iff_getElem]
    intro i j hi hj hij k hki hkj
    have hgi : s.tree.get? i = some s.tree[i] := by
      rw [List.get?_eq_getElem?, List.getElem?_eq_getElem hi]
    have hgj : s.tree.get? j = some s.tree[j] := by
      rw [List.get?_eq_getElem?, List.getElem?_eq_getElem hj]
    obtain ⟨⟨hfwd, -⟩, -, -⟩ := hwf
    obtain ⟨kv1, hkv1, hkk1⟩ := List.mem_map.mp hki
    obtain ⟨kv2, hkv2, hkk2⟩ := List.mem_map.mp hkj
    have h1 := hfwd (i, s.tree[i])
      (List.mk_mem_enum_iff_getElem?.mpr (by rw [← List.get?_eq_getElem?]; exact hgi))
      kv1 hkv1
    have h2 := hfwd (j, s.tree[j])
      (List.mk_mem_enum_iff_getElem?.mpr (by rw [← List.get?_eq_getElem?]; exact hgj))
      kv2 hkv2
    rw [hkk1] at h1
    rw [hkk2] at h2
    rw [h1] at h2
    have : i = j := by simpa using h2
    omega

/-- A present key of a well-formed store is indexed. -/
theorem wf_covers {s : Store} (hwf : StoreWF s) {k : String}
    (h : k ∈ objKeys (treeData s.tree)) : (lookupIdx s.index k).isSome := by
  cases hl : lookupIdx s.index k with
  | some i => rfl
  | none => exact absurd h (wf_not_indexed hwf hl)

/-- Transport a section hit through equal key shapes. -/
theorem shape_transport {st s : Store} {E : List (List String)}
    (h2 : st.tree.map (fun sec => objKeys sec.data)
        = s.tree.map (fun sec => objKeys sec.data) ++ E)
    {i : Nat} {sec : Sect} (hsec : s.tree.get? i = some sec) :
    ∃ sec1, st.tree.get? i = some sec1 ∧ objKeys sec1.data = objKeys sec.data := by
  obtain ⟨hlen, -⟩ := List.get?_eq_some.mp hsec
  have hlen' : i < (s.tree.map (fun sec => objKeys sec.data)).length := by
    rw [List.length_map]; exact hlen
  have hmap : (st.tree.map (fun sec => objKeys sec.data)).get? i
      = some (objKeys sec.data) := by
    rw [h2, List.get?_append hlen', List.get?_map, hsec]
    rfl
  rw [List.get?_map] at hmap
  cases hg : st.tree.get? i with
  | none => rw [hg] at hmap; cases hmap
  | some sec1 =>
    rw [hg] at hmap
    exact ⟨sec1, rfl, by simpa using hmap⟩

/-- A separator-free string splits to itself. -/
theorem splitChar_no_sep {sep : Char} {s : String} (h : sep ∉ s.data) :
    splitChar sep s = [s] := by
  unfold splitChar
  suffices hgen : ∀ (cs acc : List Char), sep ∉ cs →
      splitCharGo sep cs acc = [⟨acc.reverse ++ cs⟩] by
    have := hgen s.data [] h
    simpa using this
  intro cs
  induction cs with
  | nil => intro acc _; simp [splitCharGo]
  | cons c cs ih =>
    intro acc hsep
    rw [splitCharGo]
    rw [if_neg (by intro he; exact hsep (by simp [← he]))]
    rw [ih (c :: acc) (fun hm => hsep (by simp [hm]))]
    simp

/-- A dot-free key is a bare path. -/
theorem splitDot_no_dot {k : String} (h : '.' ∉ k.data) :
    splitDot k = (k, "") := by
  unfold splitDot
  rw [splitChar_no_sep h]
  rfl

/-- Effect of the whole `mirror` removal loop. -/
theorem mirror_run {s : Store} {K : List String} :
    ∀ (ks : List String) (st : Store), DelInv s K st →
      (∀ k ∈ ks, K.contains k = false → splitDot k = (k, "")) →
      DelInv s K (ks.foldl (mirrorStep K) st)
      ∧ treeData (ks.foldl (mirrorStep K) st).tree
          = ks.foldl (fun d k => if K.contains k then d else objDel d k)
              (treeData st.tree) := by
  intro ks
  induction ks with
  | nil => intro st hinv _; exact ⟨hinv, rfl⟩
  | cons k ks ih =>
    intro st hinv hbare
    rw [List.foldl_cons, List.foldl_cons]
    by_cases hK : K.contains k = true
    · have hstep : mirrorStep K st k = st := by
        unfold mirrorStep
        rw [if_pos hK]
      rw [hstep, if_pos hK]
      exact ih st hinv (fun x hx => hbare x (by simp [hx]))
    · have hK' : K.contains k = false := by simpa using hK
      obtain ⟨hinv', hdata⟩ :=
        mirrorStep_run hinv k (hbare k (by simp) hK')
      rw [if_neg hK] at hdata
      obtain ⟨hinv'', hdata''⟩ :=
        ih (mirrorStep K st k) hinv' (fun x hx => hbare x (by simp [hx]))
      refine ⟨hinv'', ?_⟩
      rw [hdata'', hdata, if_neg hK]

/-- Key membership after the removal chain. -/
theorem del_fold_keys (K : List String) (ks : List String)
    (d0 : List (String × JVal)) (k : String) :
    k ∈ objKeys (ks.foldl (fun d x => if K.contains x then d else objDel d x) d0)
      ↔ k ∈ objKeys d0 ∧ (k ∈ K ∨ k ∉ ks) := by
  induction ks generalizing d0 with
  | nil => simp
  | cons x ks ih =>
    rw [List.foldl_cons, ih]
    by_cases hx : K.contains x = true
    · rw [if_pos hx]
      have hxK : x ∈ K := by simpa using hx
      constructor
      · rintro ⟨h1, h2⟩
        refine ⟨h1, ?_⟩
        rcases h2 with h | h
        · exact Or.inl h
        · by_cases hkx : k = x
          · exact Or.inl (hkx ▸ hxK)
          · exact Or.inr (by simp [h, hkx])
      · rintro ⟨h1, h2⟩
        refine ⟨h1, ?_⟩
        rcases h2 with h | h
        · exact Or.inl h
        · exact Or.inr (fun hm => h (by simp [hm]))
    · rw [if_neg hx]
      rw [objKeys_objDel]
      constructor
      · rintro ⟨h1, h2⟩
        obtain ⟨h1', hne⟩ := List.mem_filter.mp h1
        have hkx : k ≠ x := by
          intro he
          simp [bne, he] at hne
        refine ⟨h1', ?_⟩
        rcases h2 with h | h
        · exact Or.inl h
        · exact Or.inr (by simp [h, hkx])
      · rintro ⟨h1, h2⟩
        have hkx : k ≠ x := by
          intro he
          rcases h2 with h | h
          · exact (by simpa using hx : ¬ x ∈ K) (he ▸ h)
          · exact h (by simp [he])
        refine ⟨List.mem_filter.mpr ⟨h1, by simp [bne, hkx]⟩, ?_⟩
        rcases h2 with h | h
        · exact Or.inl h
        · exact Or.inr (fun hm => h (by simp [hm]))

/-- External keys are never removed by the removal chain. -/
theorem del_fold_get_mem_K {K : List String} {k : String} (hk : k ∈ K)
    (ks : List String) (d0 : List (String × JVal)) :
    objGet (ks.foldl (fun d x => if K.contains x then d else objDel d x) d0) k
      = objGet d0 k := by
  induction ks generalizing d0 with
  | nil => rfl
  | cons x ks ih =>
    rw [List.foldl_cons]
    by_cases hx : K.contains x = true
    · rw [if_pos hx, ih]
    · rw [if_neg hx, ih]
      apply objGet_objDel_ne
      intro he
      exact (by simpa using hx : ¬ x ∈ K) (he ▸ hk)

/-- **C5** (confirmed).  `sync(obj, mirror)` on a plain key-value object
makes the store's top-level key set exactly the object's key set: every
object key is present holding the object's value, every local key absent
from the object now reads as the caller's default, and no comment-only
section newly survives the purge (every empty-data section of the result
was already a section of the original store — comment removal is forced on
sections emptied by the deletion). -/
theorem c5_mirror_exact_keyset (s : Store) (obj : List (String × JVal))
    (hwf : StoreWF s)
    (hnd : (obj.map (·.1)).Nodup)
    (hdollar : ∀ kv ∈ obj, strStarts kv.1 "$" = false)
    (hdotObj : ∀ kv ∈ obj, '.' ∉ kv.1.data)
    (hdotLoc : ∀ k ∈ getKeysV s, '.' ∉ k.data) :
    (∀ k, k ∈ getKeysV (syncV s obj { mirror := true }).2 ↔ k ∈ obj.map (·.1))
    ∧ (∀ k v, objGet obj k = some v →
        getV (syncV s obj { mirror := true }).2 k .undef = v)
    ∧ (∀ k d, '.' ∉ k.data → k ∉ obj.map (·.1) →
        getV (syncV s obj { mirror := true }).2 k d = d)
    ∧ (∀ sec ∈ (syncV s obj { mirror := true }).2.tree,
        sec.data = [] → sec ∈ s.tree) := by
  have hfilter : (obj.map (·.1)).filter (fun k => !(strStarts k "$"))
      = obj.map (·.1) := by
    rw [List.filter_eq_self]
    intro k hk
    obtain ⟨kv, hkv, hke⟩ := List.mem_map.mp hk
    rw [← hke]
    simp [hdollar kv hkv]
  have hinv0 : MergeInv s s [] :=
    ⟨rfl, by simp, wf_keys_nodup hwf, fun sec hs _ => hs⟩
  obtain ⟨ext1, hminv, hdata1, hscope⟩ :=
    merge_run hwf obj (obj.map (·.1)) s [] hnd
      (fun k _ => List.not_mem_nil k) hinv0
  obtain ⟨s1, hs1⟩ : ∃ x, x = (obj.map (·.1)).foldl (mergeStep obj) s := ⟨_, rfl⟩
  rw [← hs1] at hminv hdata1
  obtain ⟨hidx1, hshape1, hnd1, hempty1⟩ := hminv
  have hkeys1 : objKeys (treeData s1.tree) = objKeys (treeData s.tree) ++ ext1 :=
    mergeInv_keys hshape1
  have hext1K : ∀ x ∈ ext1, x ∈ obj.map (·.1) := by
    intro x hx
    rcases hscope x hx with h | h
    · exact absurd h (List.not_mem_nil x)
    · exact h
  have hmem1 : ∀ k, k ∈ objKeys (treeData s1.tree)
      ↔ k ∈ objKeys (treeData s.tree) ∨ k ∈ obj.map (·.1) := by
    intro k
    rw [hdata1]
    exact mem_objKeys_foldl_objSet (fun x => (objGet obj x).getD .undef) _ _ k
  have hdinv1 : DelInv s (obj.map (·.1)) s1 := by
    refine ⟨hnd1, ?_, ?_, hempty1⟩
    · intro k i hli
      rw [hidx1] at hli
      obtain ⟨sec, hsec, hksec⟩ := wf_index_sound hwf hli
      obtain ⟨sec1, hsec1, hkeq⟩ := shape_transport hshape1 hsec
      exact ⟨sec1, hsec1, hkeq ▸ hksec⟩
    · intro k hk hkK
      rw [hidx1]
      have hks : k ∈ objKeys (treeData s.tree) := by
        rw [hkeys1] at hk
        rcases List.mem_append.mp hk with h | h
        · exact h
        · exact absurd (hext1K k h) hkK
      exact wf_covers hwf hks
  have hbare1 : ∀ k ∈ getKeysV s1, (obj.map (·.1)).contains k = false →
      splitDot k = (k, "") := by
    intro k hk hkc
    have hkK : k ∉ obj.map (·.1) := by simpa using hkc
    rw [getKeysV_eq_treeData, hkeys1] at hk
    rcases List.mem_append.mp hk with h | h
    · exact splitDot_no_dot
        (hdotLoc k (by rw [getKeysV_eq_treeData]; exact h))
    · exact absurd (hext1K k h) hkK
  obtain ⟨hdinv2, hdata2⟩ := mirror_run (getKeysV s1) s1 hdinv1 hbare1
  obtain ⟨s2, hs2⟩ :
      ∃ x, x = (getKeysV s1).foldl (mirrorStep (obj.map (·.1))) s1 := ⟨_, rfl⟩
  rw [← hs2] at hdinv2 hdata2
  obtain ⟨hnd2, hsound2, hcov2, hempty2⟩ := hdinv2
  have hres0 : (syncV s obj { mirror := true }).2
      = { (getKeysV ((obj.map (·.1)).foldl (mergeStep obj) s)).foldl
            (mirrorStep (obj.map (·.1)))
            ((obj.map (·.1)).foldl (mergeStep obj) s) with
          index := rebuildIndex
            ((getKeysV ((obj.map (·.1)).foldl (mergeStep obj) s)).foldl
              (mirrorStep (obj.map (·.1)))
              ((obj.map (·.1)).foldl (mergeStep obj) s)).tree } := by
    rw [syncV_mirror_eq, hfilter]
    rfl
  rw [← hs1, ← hs2] at hres0
  have hkeys2 : ∀ k, k ∈ objKeys (treeData s2.tree) ↔ k ∈ obj.map (·.1) := by
    intro k
    rw [hdata2, del_fold_keys]
    constructor
    · rintro ⟨h1, h2⟩
      rcases h2 with h | h
      · exact h
      · rw [getKeysV_eq_treeData] at h
        exact absurd h1 h
    · intro hkK
      exact ⟨(hmem1 k).mpr (Or.inr hkK), Or.inl hkK⟩
  refine ⟨?_, ?_, ?_, ?_⟩
  · intro k
    rw [hres0]
    have hgk : getKeysV { s2 with index := rebuildIndex s2.tree }
        = getKeysV s2 := rfl
    rw [hgk, getKeysV_eq_treeData]
    exact hkeys2 k
  · intro k v hkv
    have hkK : k ∈ obj.map (·.1) := objGet_mem_keys hkv
    have hk2 : k ∈ objKeys (treeData s2.tree) := (hkeys2 k).mpr hkK
    have hdot : '.' ∉ k.data := by
      obtain ⟨kv', hkv', hke⟩ := List.mem_map.mp hkK
      exact hke ▸ hdotObj kv' hkv'
    have hsplit : splitDot k = (k, "") := splitDot_no_dot hdot
    obtain ⟨j0, sec0, hj0, hk0⟩ := mem_treeData_position hk2
    have hli : lookupIdx (rebuildIndex s2.tree) k = some j0 :=
      lookupIdx_rebuild_unique hj0 hk0 (nodup_unique_section hnd2 hj0 hk0)
    have hflat : objGet (treeData s2.tree) k = objGet sec0.data k :=
      treeData_objGet_at hnd2 hj0 hk0
    have hval : objGet (treeData s2.tree) k = some v := by
      rw [hdata2, del_fold_get_mem_K hkK, hdata1]
      rw [objGet_foldl_objSet_mem (fun x => (objGet obj x).getD .undef) hnd hkK]
      rw [hkv]
      rfl
    rw [hflat] at hval
    have hj0' : s2.tree[j0]? = some sec0 := by
      rw [← List.get?_eq_getElem?]; exact hj0
    rw [hres0]
    simp [getV, hsplit, hli, hj0', hval]
  · intro k d hdot hkK
    have hk2 : k ∉ objKeys (treeData s2.tree) := fun h => hkK ((hkeys2 k).mp h)
    have hnone : lookupIdx (rebuildIndex s2.tree) k = none :=
      lookupIdx_rebuild_none (not_mem_treeData_sections hk2)
    rw [hres0]
    simp [getV, splitDot_no_dot hdot, hnone]
  · intro sec hsec hdata
    rw [hres0] at hsec
    exact hempty2 sec hsec hdata

/-- Witness for C5: mirroring `alpha:9, gamma:3` onto a store holding
`alpha, beta` updates `alpha`, creates `gamma` and deletes `beta`. -/
theorem c5_witness :
    (StoreWF exStoreB
     ∧ ((([("alpha", JVal.num 9), ("gamma", JVal.num 3)]
            : List (String × JVal)).map (·.1)).Nodup))
    ∧ ("gamma" ∈ getKeysV
          (syncV exStoreB [("alpha", .num 9), ("gamma", .num 3)]
            { mirror := true }).2
       ∧ getV (syncV exStoreB [("alpha", .num 9), ("gamma", .num 3)]
            { mirror := true }).2 "alpha" .undef = .num 9
       ∧ getV (syncV exStoreB [("alpha", .num 9), ("gamma", .num 3)]
            { mirror := true }).2 "beta" (.str "gone") = .str "gone") := by
  have h := c5_mirror_exact_keyset exStoreB
    [("alpha", .num 9), ("gamma", .num 3)]
    (by decide) (by decide) (by decide) (by decide) (by decide)
  exact ⟨⟨by decide, by decide⟩,
    (h.1 "gamma").mpr (by decide),
    h.2.1 "alpha" (.num 9) rfl,
    h.2.2.1 "beta" (.str "gone") (by decide) (by decide)⟩

/-- A word character is not JS whitespace. -/
theorem not_ws_of_word {c : Char} (h : isWordChar c = true) : jsIsWS c = false := by
  cases hx : jsIsWS c
  · rfl
  · exfalso
    unfold jsIsWS at hx
    simp only [Bool.or_eq_true, List.contains, List.elem_iff, decide_eq_true_eq,
      Bool.and_eq_true, List.mem_cons, List.not_mem_nil, or_false] at hx
    rcases hx with hmem | ⟨h1, h2⟩
    · rcases hmem with h' | h' | h' | h' | h' | h' | h' | h' | h' | h' | h' | h' | h' | h'
      all_goals (subst h'; exact absurd h (by decide))
    · rw [Char.le_def, UInt32.le_def, BitVec.le_def] at h1
      rw [show (' ' : Char).val.toBitVec.toNat = 8192 from by decide] at h1
      unfold isWordChar Char.isAlphanum Char.isAlpha Char.isUpper Char.isLower Char.isDigit at h
      simp only [Bool.or_eq_true, Bool.and_eq_true, decide_eq_true_eq, beq_iff_eq,
        ge_iff_le, UInt32.le_def, BitVec.le_def] at h
      rcases h with (((⟨ha, hb⟩ | ⟨ha, hb⟩) | ⟨ha, hb⟩) | h) | h
      · rw [show ((90 : UInt32)).toBitVec.toNat = 90 from by decide] at hb
        omega
      · rw [show ((122 : UInt32)).toBitVec.toNat = 122 from by decide] at hb
        omega
      · rw [show ((57 : UInt32)).toBitVec.toNat = 57 from by decide] at hb
        omega
      · subst h; exact absurd h1 (by decide)
      · subst h; exact absurd h1 (by decide)

/-- A decimal digit is a word character. -/
theorem word_of_digit {c : Char} (h : c.isDigit = true) : isWordChar c = true := by
  unfold isWordChar Char.isAlphanum
  simp [h]

/-- A word character differs from every non-word character. -/
theorem ne_of_word {c x : Char} (h : isWordChar c = true)
    (hx : isWordChar x = false) : c ≠ x := by
  intro he
  rw [he, hx] at h
  cases h

/-- `takeWhile`/`dropWhile` through a satisfying prefix up to a failing
element. -/
theorem takeWhile_append_stop {p : α → Bool} :
    ∀ {l1 : List α} {c : α} {l2 : List α}, (∀ x ∈ l1, p x = true) → p c = false →
      (l1 ++ c :: l2).takeWhile p = l1 ∧ (l1 ++ c :: l2).dropWhile p = c :: l2 := by
  intro l1
  induction l1 with
  | nil =>
    intro c l2 _ hc
    simp [List.takeWhile_cons, List.dropWhile_cons, hc]
  | cons a l1 ih =>
    intro c l2 h hc
    have ha : p a = true := h a (by simp)
    obtain ⟨ht, hd⟩ := @ih c l2 (fun x hx => h x (by simp [hx])) hc
    simp [List.takeWhile_cons, List.dropWhile_cons, ha, ht, hd]

/-- `dropWhile` on a list with no satisfying element. -/
theorem dropWhile_eq_self_of {p : α → Bool} {l : List α}
    (h : ∀ x ∈ l, p x = false) : l.dropWhile p = l := by
  cases l with
  | nil => rfl
  | cons a l => simp [List.dropWhile_cons, h a (by simp)]

/-- `dropWhile` cannot consume a final failing element. -/
theorem dropWhile_append_last {p : α → Bool} {c : α} (hc : p c = false) :
    ∀ (l : List α), ∃ mid, (l ++ [c]).dropWhile p = mid ++ [c] := by
  intro l
  induction l with
  | nil => exact ⟨[], by simp [List.dropWhile_cons, hc]⟩
  | cons a l ih =>
    by_cases ha : p a = true
    · obtain ⟨mid, hm⟩ := ih
      exact ⟨mid, by simp [List.dropWhile_cons, ha, hm]⟩
    · exact ⟨a :: l, by simp [List.dropWhile_cons, ha]⟩

/-- Trimming keeps a non-whitespace head character. -/
theorem trimL_head {c : Char} {l : List Char} (hc : jsIsWS c = false) :
    ∃ rest, trimL (c :: l) = c :: rest := by
  unfold trimL
  rw [List.dropWhile_cons, if_neg (by simp [hc])]
  have hrev : (c :: l).reverse = l.reverse ++ [c] := by simp
  rw [hrev]
  obtain ⟨mid, hm⟩ := dropWhile_append_last hc l.reverse
  rw [hm]
  exact ⟨mid.reverse, by simp⟩

/-- A string whose character list is exposed as a cons is not empty. -/
theorem str_ne_empty_of_cons {s : String} {c : Char} {rest : List Char}
    (h : s.data = c :: rest) : s ≠ "" := by
  intro he
  rw [he] at h
  cases h

/-- Dropping a leading whitespace character commutes with `trim`. -/
theorem jsTrim_cons_ws {c : Char} {l : List Char} (hc : jsIsWS c = true) :
    jsTrim ⟨c :: l⟩ = jsTrim ⟨l⟩ := by
  unfold jsTrim trimL
  rw [List.dropWhile_cons, if_pos (by simp [hc])]

/-- A string with no whitespace characters trims to itself. -/
theorem jsTrim_eq_self_of_all {s : String}
    (h : ∀ c ∈ s.data, jsIsWS c = false) : jsTrim s = s := by
  unfold jsTrim trimL
  rw [dropWhile_eq_self_of h]
  rw [dropWhile_eq_self_of (fun x hx => h x (by simpa using hx))]
  exact String.ext (by simp)

/-- The split loop never returns the empty list. -/
theorem splitCharGo_ne_nil (sep : Char) :
    ∀ (cs acc : List Char), splitCharGo sep cs acc ≠ [] := by
  intro cs
  induction cs with
  | nil => intro acc; simp [splitCharGo]
  | cons c cs ih =>
    intro acc
    rw [splitCharGo]
    by_cases hc : c = sep
    · rw [if_pos hc]; simp
    · rw [if_neg hc]; exact ih (c :: acc)

/-- The split loop emits the fragment before the first separator. -/
theorem splitCharGo_sep_split {sep : Char} :
    ∀ {l1 : List Char} (l2 acc : List Char), sep ∉ l1 →
      splitCharGo sep (l1 ++ sep :: l2) acc
        = ⟨acc.reverse ++ l1⟩ :: splitCharGo sep l2 [] := by
  intro l1
  induction l1 with
  | nil =>
    intro l2 acc _
    rw [List.nil_append, splitCharGo, if_pos rfl]
    simp
  | cons c l1 ih =>
    intro l2 acc h
    rw [List.cons_append, splitCharGo,
      if_neg (fun he => h (by simp [he])), ih l2 (c :: acc) (fun hm => h (by simp [hm]))]
    simp

/-- Join after split restores the string (single-character separator). -/
theorem joinChar_splitCharGo (sep : Char) :
    ∀ (cs acc : List Char), joinChar sep (splitCharGo sep cs acc) = ⟨acc.reverse ++ cs⟩ := by
  intro cs
  induction cs with
  | nil => intro acc; simp [splitCharGo, joinChar]
  | cons c cs ih =>
    intro acc
    rw [splitCharGo]
    by_cases hc : c = sep
    · rw [if_pos hc]
      cases hq : splitCharGo sep cs [] with
      | nil => exact absurd hq (splitCharGo_ne_nil sep cs [])
      | cons y t =>
        rw [joinChar, ← hq, ih []]
        apply String.ext
        simp [String.data_append, hc]
    · rw [if_neg hc, ih (c :: acc)]
      simp

/-- `join(split(s))` is `s`. -/
theorem joinChar_splitChar (sep : Char) (s : String) :
    joinChar sep (splitChar sep s) = s := by
  unfold splitChar
  rw [joinChar_splitCharGo]
  exact String.ext (by simp)

/-- Fragments produced by the split contain no separator. -/
theorem splitChar_frag_no_sep {sep : Char} :
    ∀ {cs acc : List Char} {p : String}, sep ∉ acc → p ∈ splitCharGo sep cs acc →
      sep ∉ p.data := by
  intro cs
  induction cs with
  | nil =>
    intro acc p hacc hp
    simp only [splitCharGo, List.mem_singleton] at hp
    subst hp
    simpa using hacc
  | cons c cs ih =>
    intro acc p hacc hp
    rw [splitCharGo] at hp
    by_cases hc : c = sep
    · rw [if_pos hc] at hp
      rcases List.mem_cons.mp hp with hp | hp
      · subst hp; simpa using hacc
      · exact ih (List.not_mem_nil sep) hp
    · rw [if_neg hc] at hp
      exact ih (by simp [hacc, Ne.symm hc]) hp

/-- Splitting after joining restores the fragments (no fragment contains the
separator, and the list is non-empty). -/
theorem splitChar_joinChar {sep : Char} :
    ∀ {ls : List String}, ls ≠ [] → (∀ l ∈ ls, sep ∉ l.data) →
      splitChar sep (joinChar sep ls) = ls := by
  intro ls
  induction ls with
  | nil => intro h; exact absurd rfl h
  | cons p ls ih =>
    intro _ h
    cases ls with
    | nil =>
      rw [joinChar]
      exact splitChar_no_sep (h p (by simp))
    | cons q ls' =>
      rw [joinChar]
      unfold splitChar
      have hdata : (p ++ ⟨[sep]⟩ ++ joinChar sep (q :: ls')).data
          = p.data ++ sep :: (joinChar sep (q :: ls')).data := by
        simp [String.data_append]
      rw [hdata, splitCharGo_sep_split _ [] (h p (by simp))]
      have := ih (by simp) (fun l hl => h l (by simp [hl]))
      unfold splitChar at this
      rw [this]
      simp

/-- A trailing separator yields a trailing empty fragment. -/
theorem splitCharGo_getLast_sep {sep : Char} :
    ∀ {cs : List Char} (acc : List Char), cs.getLast? = some sep →
      (splitCharGo sep cs acc).getLast? = some "" := by
  intro cs
  induction cs with
  | nil => intro acc h; cases h
  | cons c cs ih =>
    intro acc h
    cases cs with
    | nil =>
      obtain hc : c = sep := by simpa using h
      rw [splitCharGo, if_pos hc]
      simp [splitCharGo]
    | cons d cs' =>
      have h' : (d :: cs').getLast? = some sep := by
        rw [← h]
        exact (List.getLast?_cons_cons ..).symm
      rw [splitCharGo]
      by_cases hc : c = sep
      · rw [if_pos hc]
        cases hq : splitCharGo sep (d :: cs') [] with
        | nil => exact absurd hq (splitCharGo_ne_nil sep (d :: cs') [])
        | cons y t =>
          rw [List.getLast?_cons_cons, ← hq]
          exact ih [] h'
      · rw [if_neg hc]
        exact ih (c :: acc) h'

/-- A present separator forces at least two fragments. -/
theorem splitCharGo_len2 {sep : Char} :
    ∀ {cs : List Char} (acc : List Char), sep ∈ cs →
      2 ≤ (splitCharGo sep cs acc).length := by
  intro cs
  induction cs with
  | nil => intro acc h; cases h
  | cons c cs ih =>
    intro acc h
    rw [splitCharGo]
    by_cases hc : c = sep
    · rw [if_pos hc]
      have hne := splitCharGo_ne_nil sep cs []
      have : 1 ≤ (splitCharGo sep cs []).length := by
        cases hq : splitCharGo sep cs [] with
        | nil => exact absurd hq hne
        | cons y t => simp
      simpa using this
    · rw [if_neg hc]
      apply ih
      rcases List.mem_cons.mp h with h' | h'
      · exact absurd h'.symm hc
      · exact h'

/-- Removing the first CR is the identity on CR-free character lists. -/
theorem removeFirstCR_id : ∀ {l : List Char}, '\r' ∉ l → removeFirstCR l = l := by
  intro l
  induction l with
  | nil => intro _; rfl
  | cons c cs ih =>
    intro h
    rw [removeFirstCR, if_neg (fun he => h (by simp [he]))]
    rw [ih (fun hm => h (by simp [hm]))]

/-- `digitChar` produces digits. -/
theorem digitChar_isDigit {d : Nat} (h : d < 10) : (digitChar d).isDigit = true := by
  interval_cases d <;> decide

/-- `digitChar` inverts through the char-code arithmetic of `parseInt`. -/
theorem digitChar_toNat {d : Nat} (h : d < 10) : (digitChar d).toNat - 48 = d := by
  interval_cases d <;> decide

/-- `digitsToNat` peels the least significant digit. -/
theorem digitsToNat_append_one (l : List Char) (c : Char) :
    digitsToNat (l ++ [c]) = digitsToNat l * 10 + (c.toNat - 48) := by
  unfold digitsToNat
  rw [List.foldl_append]
  rfl

/-- The fueled digit printer is exact on sufficient fuel: non-empty output,
digits only, and `parseInt` inverts it. -/
theorem natDigitsGo_spec :
    ∀ (fuel n : Nat), n < fuel →
      natDigitsGo fuel n ≠ []
      ∧ (∀ c ∈ natDigitsGo fuel n, c.isDigit = true)
      ∧ digitsToNat (natDigitsGo fuel n) = n := by
  intro fuel
  induction fuel with
  | zero => intro n h; omega
  | succ f ih =>
    intro n h
    rw [natDigitsGo]
    by_cases h10 : n < 10
    · rw [if_pos h10]
      refine ⟨by simp, ?_, ?_⟩
      · intro c hc
        obtain hc : c = digitChar n := by simpa using hc
        exact hc ▸ digitChar_isDigit h10
      · have : digitsToNat [digitChar n] = (digitChar n).toNat - 48 := by
          unfold digitsToNat
          simp
        rw [this, digitChar_toNat h10]
    · rw [if_neg h10]
      have hdiv : n / 10 < f := by omega
      obtain ⟨hne, hdig, hval⟩ := ih (n / 10) hdiv
      refine ⟨by simp, ?_, ?_⟩
      · intro c hc
        rcases List.mem_append.mp hc with hc | hc
        · exact hdig c hc
        · obtain hc : c = digitChar (n % 10) := by simpa using hc
          exact hc ▸ digitChar_isDigit (by omega)
      · rw [digitsToNat_append_one, hval, digitChar_toNat (by omega)]
        omega

/-- `natDigits` round-trips through `parseInt`. -/
theorem natDigits_spec (n : Nat) :
    natDigits n ≠ []
    ∧ (∀ c ∈ natDigits n, c.isDigit = true)
    ∧ digitsToNat (natDigits n) = n :=
  natDigitsGo_spec (n + 1) n (by omega)

/-- A self-trimmed non-empty string has a non-whitespace head. -/
theorem no_lead_ws_of_trim_self {s : String} (hts : jsTrim s = s)
    {c : Char} {rest : List Char} (hd : s.data = c :: rest) : jsIsWS c = false := by
  cases hx : jsIsWS c
  · rfl
  · exfalso
    have hlen : (trimL s.data).length ≤ (s.data.dropWhile jsIsWS).length := by
      unfold trimL
      have h1 := (List.dropWhile_sublist (l := (s.data.dropWhile jsIsWS).reverse)
          (p := jsIsWS)).length_le
      simpa using h1
    rw [hd] at hlen
    rw [List.dropWhile_cons, if_pos (by simp [hx])] at hlen
    have hdrop := (List.dropWhile_sublist (l := rest) (p := jsIsWS)).length_le
    have heq : (trimL s.data).length = s.data.length := by
      have : (jsTrim s).data = s.data := by rw [hts]
      unfold jsTrim at this
      rw [show (String.mk (trimL s.data)).data = trimL s.data from rfl] at this
      rw [this]
    rw [hd] at heq
    simp at heq
    omega

/-- What ruling out the three block-opening shapes gives, head-on. -/
theorem strBad3_props {s : String} (h : strBad3 s = false) :
    s.data.head? ≠ some '[' ∧ s.data.head? ≠ some '\x7b'
    ∧ s.data.take 3 ≠ ['"', '"', '"'] := by
  unfold strBad3 at h
  simp only [Bool.or_eq_false_iff, beq_eq_false_iff_ne, ne_eq] at h
  exact ⟨h.1.1, h.1.2, h.2⟩

/-- Digit characters are not JS whitespace. -/
theorem not_ws_of_digit {c : Char} (h : c.isDigit = true) : jsIsWS c = false :=
  not_ws_of_word (word_of_digit h)

/-- The serialized text of a round-trip-safe primitive: non-empty, no
leading whitespace, not a block opener, self-trimmed, not a block closer,
and `convertValue` inverts it. -/
theorem prim_text_props {v : JVal} (h : wfPrim v = true) :
    ∃ c rest, (jsToString v).data = c :: rest
    ∧ jsIsWS c = false
    ∧ c ≠ '[' ∧ c ≠ '\x7b'
    ∧ (jsToString v).data.take 3 ≠ ['"', '"', '"']
    ∧ jsTrim (jsToString v) = jsToString v
    ∧ jsToString v ≠ "]"
    ∧ convertValue (jsToString v) = v := by
  cases v with
  | null =>
    exact ⟨'n', ['u', 'l', 'l'], rfl, by decide, by decide, by decide, by decide,
      by decide, by decide, rfl⟩
  | bool b =>
    cases b
    · exact ⟨'f', ['a', 'l', 's', 'e'], rfl, by decide, by decide, by decide,
        by decide, by decide, by decide, rfl⟩
    · exact ⟨'t', ['r', 'u', 'e'], rfl, by decide, by decide, by decide,
        by decide, by decide, by decide, rfl⟩
  | num n =>
    simp only [wfPrim, Bool.and_eq_true, decide_eq_true_eq] at h
    obtain ⟨h0, _⟩ := h
    have hS : jsToString (.num n) = ⟨natDigits n.toNat⟩ := by
      simp only [jsToString, intToDec, if_neg (by omega : ¬ n < 0)]
    obtain ⟨hne, hdig, hval⟩ := natDigits_spec n.toNat
    cases hd : natDigits n.toNat with
    | nil => exact absurd hd hne
    | cons c rest =>
      have hcdig : c.isDigit = true := hdig c (by rw [hd]; simp)
      have hall : ∀ x ∈ (jsToString (.num n)).data, jsIsWS x = false := by
        intro x hx
        rw [hS] at hx
        exact not_ws_of_digit (hdig x hx)
      have htrim : jsTrim (jsToString (.num n)) = jsToString (.num n) :=
        jsTrim_eq_self_of_all hall
      refine ⟨c, rest, by rw [hS]; exact hd, not_ws_of_digit hcdig,
        ne_of_word (word_of_digit hcdig) (by decide),
        ne_of_word (word_of_digit hcdig) (by decide), ?_, htrim, ?_, ?_⟩
      · intro hq
        have hmem : '"' ∈ (jsToString (.num n)).data :=
          List.take_subset 3 _ (by rw [hq]; simp)
        rw [hS] at hmem
        have := hdig '"' hmem
        exact absurd this (by decide)
      · intro he
        have : (']' : Char) ∈ (jsToString (.num n)).data := by
          rw [he]; simp [String.data]
        rw [hS] at this
        exact absurd (hdig ']' this) (by decide)
      · have hint : isIntLit (jsToString (.num n)) = true := by
          unfold isIntLit
          rw [hS]
          simp only [Bool.and_eq_true, Bool.not_eq_true']
          constructor
          · rw [hd]; rfl
          · rw [List.all_eq_true]
            exact fun x hx => hdig x hx
        simp only [convertValue, htrim, hint, if_true]
        rw [hS]
        show JVal.num (digitsToNat (natDigits n.toNat)) = JVal.num n
        rw [hval, Int.toNat_of_nonneg h0]
  | float src =>
    have hfl : isFloatLit src = true := by simpa [wfPrim] using h
    have hstruct : ∃ fp, src.data.dropWhile Char.isDigit = '.' :: fp
        ∧ ¬(src.data.takeWhile Char.isDigit).isEmpty
        ∧ ¬fp.isEmpty ∧ (∀ x ∈ fp, x.isDigit = true) := by
      unfold isFloatLit at hfl
      split at hfl
      next fp heq =>
        simp only [Bool.and_eq_true, Bool.not_eq_true', List.all_eq_true] at hfl
        exact ⟨fp, heq, by simp [hfl.1], by simp [hfl.2.1], hfl.2.2⟩
      next => cases hfl
    obtain ⟨fp, hdrop, hip, hfp, hfpd⟩ := hstruct
    have hsplit : src.data = src.data.takeWhile Char.isDigit ++ '.' :: fp := by
      rw [← hdrop, List.takeWhile_append_dropWhile]
    have hchar : ∀ x ∈ src.data, x.isDigit = true ∨ x = '.' := by
      intro x hx
      rw [hsplit] at hx
      rcases List.mem_append.mp hx with hx | hx
      · exact Or.inl (List.mem_takeWhile_imp hx)
      · rcases List.mem_cons.mp hx with hx | hx
        · exact Or.inr hx
        · exact Or.inl (hfpd x hx)
    have hallws : ∀ x ∈ src.data, jsIsWS x = false := by
      intro x hx
      rcases hchar x hx with hx' | hx'
      · exact not_ws_of_digit hx'
      · rw [hx']; decide
    have htrim : jsTrim (jsToString (.float src)) = jsToString (.float src) :=
      jsTrim_eq_self_of_all hallws
    cases hip' : src.data.takeWhile Char.isDigit with
    | nil => rw [hip'] at hip; simp at hip
    | cons c ip' =>
      have hcd : c.isDigit = true :=
        List.mem_takeWhile_imp (by rw [hip']; simp : c ∈ src.data.takeWhile Char.isDigit)
      have hdata : src.data = c :: (ip' ++ '.' :: fp) := by
        rw [hsplit, hip']
        rfl
      refine ⟨c, ip' ++ '.' :: fp, hdata, not_ws_of_digit hcd,
        ne_of_word (word_of_digit hcd) (by decide),
        ne_of_word (word_of_digit hcd) (by decide), ?_, htrim, ?_, ?_⟩
      · intro hq
        rw [show (jsToString (JVal.float src)).data = src.data from rfl] at hq
        have hmem : '"' ∈ src.data := List.take_subset 3 _ (by rw [hq]; simp)
        rcases hchar '"' hmem with h' | h'
        · exact absurd h' (by decide)
        · exact absurd h' (by decide)
      · intro he
        have : (']' : Char) ∈ src.data := by
          have : (jsToString (.float src)).data = ("]" : String).data := by rw [he]
          rw [show (jsToString (.float src)).data = src.data from rfl] at this
          rw [this]; simp [String.data]
        rcases hchar ']' this with h' | h'
        · exact absurd h' (by decide)
        · exact absurd h' (by decide)
      · have hint : isIntLit src = false := by
          unfold isIntLit
          simp only [Bool.and_eq_false_iff]
          right
          rw [List.all_eq_false]
          refine ⟨'.', ?_, by decide⟩
          rw [hsplit]
          simp
        show convertValue src = JVal.float src
        simp only [convertValue]
        rw [show jsTrim src = src from htrim, hint, hfl]
        rfl
  | undef => exact absurd h (by decide)
  | func => exact absurd h (by decide)
  | arr l => exact absurd h (by rw [show wfPrim (JVal.arr l) = false from rfl]; simp)
  | obj m => exact absurd h (by rw [show wfPrim (JVal.obj m) = false from rfl]; simp)
  | str s =>
    have hw : wfStrPrim s = true := by simpa [wfPrim] using h
    unfold wfStrPrim at hw
    simp only [Bool.and_eq_true, Bool.not_eq_true', beq_iff_eq, bne_iff_ne, ne_eq] at hw
    obtain ⟨⟨⟨⟨⟨⟨⟨⟨⟨⟨htr, hnl⟩, hint⟩, hflo⟩, htru⟩, hfal⟩, hnul⟩, hund⟩, hemp⟩, hbad⟩, hbr⟩ := hw
    obtain ⟨hh1, hh2, hh3⟩ := strBad3_props hbad
    cases hd : s.data with
    | nil => exact absurd (String.ext hd) hemp
    | cons c rest =>
      have hws : jsIsWS c = false := no_lead_ws_of_trim_self htr hd
      refine ⟨c, rest, hd, hws, ?_, ?_, by rw [show (jsToString (.str s)).data = s.data from rfl]; exact hh3,
        htr, hbr, ?_⟩
      · intro he; rw [hd, he] at hh1; exact hh1 rfl
      · intro he; rw [hd, he] at hh2; exact hh2 rfl
      · show convertValue s = JVal.str s
        simp only [convertValue]
        rw [show jsTrim s = s from htr, hint, hflo]
        simp [htru, hfal, hnul, hund, hemp]

/-- `^([\w_-]+)\s*[:=]` on a well-formed key followed by `:`. -/
theorem matchAfterAssign_built {k : String} (hk : isWordKey k = true)
    (rest : List Char) :
    matchAfterAssign (k.data ++ ':' :: rest) = some (k.data, rest) := by
  unfold isWordKey at hk
  simp only [Bool.and_eq_true, Bool.not_eq_true', List.all_eq_true] at hk
  obtain ⟨ht, hd⟩ := takeWhile_append_stop hk.2 (show isWordChar ':' = false by decide)
  unfold matchAfterAssign
  rw [ht, hd]
  rw [if_neg (by simp [hk.1])]
  rw [List.dropWhile_cons, if_neg (by decide)]
  simp

/-- No key capture on a line opening with a non-word character. -/
theorem matchAfterAssign_nonword {l : List Char}
    (h : ∀ c, l.head? = some c → isWordChar c = false) :
    matchAfterAssign l = none := by
  cases l with
  | nil => rfl
  | cons c t =>
    have hkey : (c :: t).takeWhile isWordChar = [] := by
      rw [List.takeWhile_cons, if_neg (by rw [h c rfl]; exact Bool.false_ne_true)]
    unfold matchAfterAssign
    rw [hkey]
    rfl

/-- Reduction of the `multistring` regex through a key capture. -/
theorem matchMulti_eq {l : String} {key rest}
    (h : matchAfterAssign l.data = some (key, rest)) :
    matchMulti l
      = (if rest.takeWhile jsIsWS ≠ [] ∧ (rest.takeWhile jsIsWS).getLast? = some ' '
            ∧ (rest.dropWhile jsIsWS).take 3 = ['"', '"', '"']
         then some ⟨key⟩ else none) := by
  unfold matchMulti
  rw [h]

/-- Reduction of the `array` regex through a key capture. -/
theorem matchArray_eq {l : String} {key rest}
    (h : matchAfterAssign l.data = some (key, rest)) :
    matchArray l
      = (if (rest.dropWhile jsIsWS).head? = some '[' then some ⟨key⟩ else none) := by
  unfold matchArray
  rw [h]

/-- Reduction of the `object` regex through a key capture. -/
theorem matchObjLine_eq {l : String} {key rest}
    (h : matchAfterAssign l.data = some (key, rest)) :
    matchObjLine l
      = (if (rest.dropWhile jsIsWS).head? = some '\x7b' then some ⟨key⟩ else none) := by
  unfold matchObjLine
  rw [h]

/-- Reduction of the `option` regex through a key capture. -/
theorem matchOption_eq {l : String} {key rest}
    (h : matchAfterAssign l.data = some (key, rest)) :
    matchOption l = some (⟨key⟩, ⟨rest.dropWhile jsIsWS⟩) := by
  unfold matchOption
  rw [h]
  rfl

/-- All four key-anchored regexes reject a line opening with a non-word
character. -/
theorem matchers_none_of_nonword {l : String}
    (h : ∀ c, l.data.head? = some c → isWordChar c = false) :
    matchMulti l = none ∧ matchArray l = none ∧ matchObjLine l = none
    ∧ matchOption l = none := by
  have hm := matchAfterAssign_nonword h
  refine ⟨?_, ?_, ?_, ?_⟩
  · unfold matchMulti; rw [hm]
  · unfold matchArray; rw [hm]
  · unfold matchObjLine; rw [hm]
  · unfold matchOption; rw [hm]; rfl

/-- The character list of `k ++ ": " ++ v`. -/
theorem built_data (k v : String) :
    (k ++ ": " ++ v).data = k.data ++ ':' :: ' ' :: v.data := by
  rw [String.data_append, String.data_append]
  rw [show (": " : String).data = [':', ' '] from rfl]
  simp

/-- The key capture on a built line. -/
theorem built_assign {k : String} (hk : isWordKey k = true) (v : String) :
    matchAfterAssign (k ++ ": " ++ v).data = some (k.data, ' ' :: v.data) := by
  rw [built_data]
  exact matchAfterAssign_built hk (' ' :: v.data)

/-- Classification of a serialized scalar line: only the `option` regex
fires, and it captures the key and the value text exactly. -/
theorem scalar_line_matches {k v : String} (hk : isWordKey k = true)
    (hnw : v.data.dropWhile jsIsWS = v.data)
    (hq : v.data.take 3 ≠ ['"', '"', '"'])
    (hbr : v.data.head? ≠ some '[') (hbc : v.data.head? ≠ some '\x7b') :
    matchMulti (k ++ ": " ++ v) = none
    ∧ matchArray (k ++ ": " ++ v) = none
    ∧ matchObjLine (k ++ ": " ++ v) = none
    ∧ matchOption (k ++ ": " ++ v) = some (k, v) := by
  have hass := built_assign hk v
  have hdrop : (' ' :: v.data).dropWhile jsIsWS = v.data := by
    rw [List.dropWhile_cons, if_pos (by decide)]
    exact hnw
  refine ⟨?_, ?_, ?_, ?_⟩
  · rw [matchMulti_eq hass, if_neg (fun hP => hq (hdrop ▸ hP.2.2))]
  · rw [matchArray_eq hass, if_neg (fun hP => hbr (hdrop ▸ hP))]
  · rw [matchObjLine_eq hass, if_neg (fun hP => hbc (hdrop ▸ hP))]
  · rw [matchOption_eq hass, hdrop]

/-- The multistring opener matches the `multistring` regex. -/
theorem multi_open_matches {k : String} (hk : isWordKey k = true) :
    matchMulti (k ++ ": " ++ "\"\"\"") = some k := by
  rw [matchMulti_eq (built_assign hk _), if_pos (by decide)]

/-- The array opener: not a multistring opener, and the `array` regex
captures the key. -/
theorem array_open_matches {k : String} (hk : isWordKey k = true) :
    matchMulti (k ++ ": " ++ "[") = none
    ∧ matchArray (k ++ ": " ++ "[") = some k := by
  constructor
  · rw [matchMulti_eq (built_assign hk _), if_neg (by decide)]
  · rw [matchArray_eq (built_assign hk _), if_pos (by decide)]

/-- The object opener: not a multistring or array opener, and the `object`
regex captures the key. -/
theorem obj_open_matches {k : String} (hk : isWordKey k = true) :
    matchMulti (k ++ ": " ++ "\x7b") = none
    ∧ matchArray (k ++ ": " ++ "\x7b") = none
    ∧ matchObjLine (k ++ ": " ++ "\x7b") = some k := by
  refine ⟨?_, ?_, ?_⟩
  · rw [matchMulti_eq (built_assign hk _), if_neg (by decide)]
  · rw [matchArray_eq (built_assign hk _), if_neg (by decide)]
  · rw [matchObjLine_eq (built_assign hk _), if_pos (by decide)]

/-- The `objectBody` regex on an indented line defers to the `option`
pattern on the de-indented text. -/
theorem matchObjBody_indented {x : String} {c : Char} {t : List Char}
    (hx : x.data = c :: t) (hc : jsIsWS c = false) :
    matchObjBody ("\t" ++ x) = matchOption x := by
  unfold matchObjBody
  have hdata : ("\t" ++ x).data = '\t' :: x.data := by
    rw [String.data_append]
    rfl
  have hdw : List.dropWhile jsIsWS ('\t' :: x.data) = x.data := by
    rw [List.dropWhile_cons, if_pos (by decide), hx, List.dropWhile_cons,
      if_neg (by simp [hc]), ← hx]
  rw [hdata]
  show (if jsIsWS '\t' = true
      then matchOption ⟨List.dropWhile jsIsWS ('\t' :: x.data)⟩ else none)
    = matchOption x
  rw [if_pos (by decide), hdw]

/-- A blank line outside multistring mode and after content: flush and mark
the gap. -/
theorem pstep_sep {st : PState} {line : String} (h0 : jsTrim line = "")
    (h1 : st.last ≠ .mstr) (h2 : st.last ≠ .blank) :
    pstep st line = { pflush st with last := .blank } := by
  simp [pstep, h0, h1, h2]

/-- A blank line inside a multistring is part of the body. -/
theorem pstep_blank_mstr {st : PState} {line : String} (h0 : jsTrim line = "")
    (h1 : st.last = .mstr) :
    pstep st line = { st with sbuf := st.sbuf ++ [line] } := by
  simp [pstep, h0, h1]

/-- A line no regex recognises is a comment. -/
theorem pstep_comment {st : PState} {line : String} (hne : jsTrim line ≠ "")
    (hm : matchMulti line = none) (ha : matchArray line = none)
    (ho : matchObjLine line = none) (hop : matchOption line = none)
    (h1 : st.last ≠ .mstr) (h2 : st.last ≠ .marr) (h3 : st.last ≠ .mobj) :
    pstep st line = { addCommentP st line with last := .clear } := by
  simp [pstep, hne, hm, ha, ho, hop, h1, h2, h3]

/-- A scalar line adds the converted value. -/
theorem pstep_scalar {st : PState} {line : String} {kv : String × String}
    (hne : jsTrim line ≠ "")
    (hm : matchMulti line = none) (ha : matchArray line = none)
    (ho : matchObjLine line = none) (hop : matchOption line = some kv)
    (h1 : st.last ≠ .mstr) (h2 : st.last ≠ .marr) (h3 : st.last ≠ .mobj) :
    pstep st line = { addKeyP st kv.1 (convertValue kv.2) with last := .clear } := by
  simp [pstep, hne, hm, ha, ho, hop, h1, h2, h3]

/-- A multistring opener enters multistring mode. -/
theorem pstep_multi_open {st : PState} {line : String} {k : String}
    (hne : jsTrim line ≠ "") (hm : matchMulti line = some k) :
    pstep st line = { st with key := k, last := .mstr, sbuf := [] } := by
  simp [pstep, hne, hm]

/-- A multistring body line is buffered. -/
theorem pstep_mstr_body {st : PState} {line : String} (hne : jsTrim line ≠ "")
    (hm : matchMulti line = none) (hlast : st.last = .mstr)
    (hq : jsTrim line ≠ "\"\"\"") :
    pstep st line = { st with sbuf := st.sbuf ++ [line] } := by
  simp [pstep, hne, hm, hlast, hq]

/-- The multistring closer commits the buffered body. -/
theorem pstep_mstr_close {st : PState} (hlast : st.last = .mstr) :
    pstep st "\"\"\""
      = { addKeyP st st.key (.str (joinChar '\n' st.sbuf)) with last := .clear } := by
  simp [pstep, hlast, show jsTrim "\"\"\"" = "\"\"\"" from by decide,
    show matchMulti "\"\"\"" = none from by decide]

/-- An array opener enters array mode. -/
theorem pstep_arr_open {st : PState} {line : String} {k : String}
    (hne : jsTrim line ≠ "") (hm : matchMulti line = none)
    (h1 : st.last ≠ .mstr) (ha : matchArray line = some k) :
    pstep st line = { st with key := k, last := .marr, abuf := [] } := by
  simp [pstep, hne, hm, h1, ha]

/-- An array body line is converted and buffered. -/
theorem pstep_marr_body {st : PState} {line : String} (hne : jsTrim line ≠ "")
    (hm : matchMulti line = none) (ha : matchArray line = none)
    (h1 : st.last ≠ .mstr) (hlast : st.last = .marr)
    (hq : jsTrim line ≠ "]") :
    pstep st line = { st with abuf := st.abuf ++ [convertValue line] } := by
  simp [pstep, hne, hm, ha, h1, hlast, hq]

/-- The array closer commits the buffered elements. -/
theorem pstep_marr_close {st : PState} (hlast : st.last = .marr) :
    pstep st "]" = { addKeyP st st.key (.arr st.abuf) with last := .clear } := by
  have h1 : st.last ≠ .mstr := by rw [hlast]; nofun
  simp [pstep, hlast, h1, show jsTrim "]" = "]" from by decide,
    show matchMulti "]" = none from by decide,
    show matchArray "]" = none from by decide]

/-- An object opener enters object mode. -/
theorem pstep_obj_open {st : PState} {line : String} {k : String}
    (hne : jsTrim line ≠ "") (hm : matchMulti line = none)
    (ha : matchArray line = none) (h1 : st.last ≠ .mstr) (h2 : st.last ≠ .marr)
    (ho : matchObjLine line = some k) :
    pstep st line = { st with key := k, last := .mobj, obuf := [] } := by
  simp [pstep, hne, hm, ha, h1, h2, ho]

/-- An object body line is captured into the object buffer. -/
theorem pstep_mobj_body {st : PState} {line : String} {kv : String × String}
    (hne : jsTrim line ≠ "")
    (hm : matchMulti line = none) (ha : matchArray line = none)
    (ho : matchObjLine line = none) (h1 : st.last ≠ .mstr) (h2 : st.last ≠ .marr)
    (hlast : st.last = .mobj) (hq : jsTrim line ≠ "\x7d")
    (hob : matchObjBody line = some kv) :
    pstep st line = { st with obuf := objSet st.obuf kv.1 (convertValue kv.2) } := by
  simp [pstep, hne, hm, ha, ho, h1, h2, hlast, hq, hob]

/-- The object closer commits the buffered entries. -/
theorem pstep_mobj_close {st : PState} (hlast : st.last = .mobj) :
    pstep st "\x7d" = { addKeyP st st.key (.obj st.obuf) with last := .clear } := by
  have h1 : st.last ≠ .mstr := by rw [hlast]; nofun
  have h2 : st.last ≠ .marr := by rw [hlast]; nofun
  simp [pstep, hlast, h1, h2, show jsTrim "\x7d" = "\x7d" from by decide,
    show matchMulti "\x7d" = none from by decide,
    show matchArray "\x7d" = none from by decide,
    show matchObjLine "\x7d" = none from by decide]

/-- Trimming preserves a non-whitespace head character. -/
theorem jsTrim_head {s : String} {c : Char} {rest : List Char}
    (hd : s.data = c :: rest) (hc : jsIsWS c = false) :
    ∃ r, (jsTrim s).data = c :: r := by
  unfold jsTrim
  rw [hd]
  obtain ⟨r, hr⟩ := trimL_head (l := rest) hc
  exact ⟨r, by rw [show (String.mk (trimL (c :: rest))).data = trimL (c :: rest) from rfl, hr]⟩

/-- Two strings with distinct head characters differ. -/
theorem str_head_ne {a b : String} {c d : Char} {r1 r2 : List Char}
    (ha : a.data = c :: r1) (hb : b.data = d :: r2) (hcd : c ≠ d) : a ≠ b := by
  intro he
  rw [he, hb] at ha
  exact hcd (by injection ha with h1 _; exact h1.symm)

/-- A line whose trimmed head is a word character is not blank and not one
of the three closers. -/
theorem trim_word_head_ne {s : String} {c : Char} {rest : List Char}
    (hd : s.data = c :: rest) (hw : isWordChar c = true) :
    jsTrim s ≠ "" ∧ jsTrim s ≠ "\"\"\"" ∧ jsTrim s ≠ "]" ∧ jsTrim s ≠ "\x7d" := by
  obtain ⟨r, hr⟩ := jsTrim_head hd (not_ws_of_word hw)
  refine ⟨str_ne_empty_of_cons hr, ?_, ?_, ?_⟩
  · exact str_head_ne hr rfl (ne_of_word hw (by decide))
  · exact str_head_ne hr rfl (ne_of_word hw (by decide))
  · exact str_head_ne hr rfl (ne_of_word hw (by decide))

/-- The head character of a built line is the key's head. -/
theorem built_head {k x : String} (hk : isWordKey k = true) :
    ∃ c r, (k ++ ": " ++ x).data = c :: r ∧ isWordChar c = true := by
  unfold isWordKey at hk
  simp only [Bool.and_eq_true, Bool.not_eq_true', List.all_eq_true] at hk
  cases hd : k.data with
  | nil => rw [hd] at hk; cases hk.1
  | cons c kt =>
    refine ⟨c, kt ++ ':' :: ' ' :: x.data, ?_, hk.2 c (by rw [hd]; simp)⟩
    rw [built_data, hd]
    rfl

/-- Removing a leading tab commutes with `trim`. -/
theorem jsTrim_tab (x : String) : jsTrim ("\t" ++ x) = jsTrim x := by
  have hdata : ("\t" ++ x).data = '\t' :: x.data := by
    rw [String.data_append]
    rfl
  unfold jsTrim trimL
  rw [hdata, List.dropWhile_cons, if_pos (by decide)]

/-- `convertValue` only looks at the trimmed text. -/
theorem convertValue_trim_congr {x y : String} (h : jsTrim x = jsTrim y) :
    convertValue x = convertValue y := by
  unfold convertValue
  rw [h]

/-- Unpacking a comment-classified line. -/
theorem commentLineOk_props {l : String} (h : commentLineOk l = true) :
    jsTrim l ≠ "" ∧ matchMulti l = none ∧ matchArray l = none
    ∧ matchObjLine l = none ∧ matchOption l = none := by
  unfold commentLineOk at h
  simp only [Bool.and_eq_true, bne_iff_ne, ne_eq, Option.isNone_iff_eq_none] at h
  exact ⟨h.1.1.1.1, h.1.1.1.2, h.1.1.2, h.1.2, h.2⟩

/-- Effect of a run of comment lines. -/
theorem comment_block :
    ∀ (ls : List String) (st : PState), ls ≠ [] →
      (∀ l ∈ ls, commentLineOk l = true) →
      st.last ≠ .mstr → st.last ≠ .marr → st.last ≠ .mobj →
      ls.foldl pstep st
        = ⟨.clear, st.key, st.sbuf, st.abuf, st.obuf,
           ⟨ls.foldl (fun a l => a ++ l ++ "\n") st.cur.comment, st.cur.data⟩,
           st.index, st.tree⟩ := by
  intro ls
  induction ls with
  | nil => intro st h; exact absurd rfl h
  | cons l ls ih =>
    intro st _ hok h1 h2 h3
    obtain ⟨hne, hm, ha, ho, hop⟩ := commentLineOk_props (hok l (by simp))
    rw [List.foldl_cons, pstep_comment hne hm ha ho hop h1 h2 h3]
    cases ls with
    | nil => rfl
    | cons m ms =>
      rw [ih { addCommentP st l with last := .clear } (by simp)
        (fun x hx => hok x (by simp [hx])) (by nofun) (by nofun) (by nofun)]
      rfl

/-- Effect of the body lines of a multistring. -/
theorem mstr_body_fold :
    ∀ (ls : List String) (st : PState), st.last = .mstr →
      (∀ l ∈ ls, jsTrim l ≠ "\"\"\"" ∧ matchMulti l = none) →
      ls.foldl pstep st = { st with sbuf := st.sbuf ++ ls } := by
  intro ls
  induction ls with
  | nil => intro st _ _; simp
  | cons l ls ih =>
    intro st hlast hok
    obtain ⟨hq, hm⟩ := hok l (by simp)
    rw [List.foldl_cons]
    by_cases hb : jsTrim l = ""
    · rw [pstep_blank_mstr hb hlast]
      rw [ih { st with sbuf := st.sbuf ++ [l] } hlast (fun x hx => hok x (by simp [hx]))]
      simp
    · rw [pstep_mstr_body hb hm hlast hq]
      rw [ih { st with sbuf := st.sbuf ++ [l] } hlast (fun x hx => hok x (by simp [hx]))]
      simp

/-- Effect of the body lines of an array block. -/
theorem marr_body_fold :
    ∀ (es : List JVal) (st : PState), st.last = .marr →
      (∀ e ∈ es, wfPrim e = true) →
      (es.map (fun e => "\t" ++ jsToString e)).foldl pstep st
        = { st with abuf := st.abuf ++ es } := by
  intro es
  induction es with
  | nil => intro st _ _; simp
  | cons e es ih =>
    intro st hlast hwf
    obtain ⟨c, rest, hdata, hws, hbr, hbc, hq3, htrim, hnbr, hconv⟩ :=
      prim_text_props (hwf e (by simp))
    have hldata : ("\t" ++ jsToString e).data = '\t' :: (jsToString e).data := by
      rw [String.data_append]
      rfl
    have htr : jsTrim ("\t" ++ jsToString e) = jsToString e := by
      rw [jsTrim_tab, htrim]
    have hne : jsTrim ("\t" ++ jsToString e) ≠ "" := by
      rw [htr]
      exact str_ne_empty_of_cons hdata
    obtain ⟨hm, ha, ho, hop⟩ := matchers_none_of_nonword
      (l := "\t" ++ jsToString e)
      (by intro x hx; rw [hldata] at hx; injection hx with hx; rw [← hx]; decide)
    have hq : jsTrim ("\t" ++ jsToString e) ≠ "]" := by
      rw [htr]; exact hnbr
    rw [List.map_cons, List.foldl_cons,
      pstep_marr_body hne hm ha (by rw [hlast]; nofun) hlast hq]
    have hcv : convertValue ("\t" ++ jsToString e) = e := by
      rw [convertValue_trim_congr (jsTrim_tab (jsToString e)), hconv]
    rw [hcv, ih { st with abuf := st.abuf ++ [e] } hlast (fun x hx => hwf x (by simp [hx]))]
    simp

/-- Accumulating fresh keys by upsert is plain append. -/
theorem objSet_foldl_fresh {α : Type} :
    ∀ {m o : List (String × α)}, (objKeys m).Nodup →
      (∀ x ∈ objKeys m, x ∉ objKeys o) →
      m.foldl (fun o kv => objSet o kv.1 kv.2) o = o ++ m := by
  intro m
  induction m with
  | nil => intro o _ _; simp
  | cons kv m ih =>
    intro o hnd hfresh
    have hcons : objKeys (kv :: m) = kv.1 :: objKeys m := rfl
    have hnd' : kv.1 ∉ objKeys m ∧ (objKeys m).Nodup := by
      rw [hcons] at hnd
      exact List.nodup_cons.mp hnd
    rw [List.foldl_cons,
      objSet_of_not_mem kv.2 (hfresh kv.1 (by rw [hcons]; exact List.mem_cons_self _ _))]
    rw [ih hnd'.2 ?fresh]
    · simp
    case fresh =>
      intro x hx hmem
      rw [objKeys_append] at hmem
      rcases List.mem_append.mp hmem with h' | h'
      · exact hfresh x (by rw [hcons]; exact List.mem_cons_of_mem _ hx) h'
      · have h'' : x = kv.1 := by simpa [objKeys] using h'
        exact hnd'.1 (h'' ▸ hx)

/-- A duplicate-free object rebuilds itself by upserts from the empty
object. -/
theorem objSet_foldl_self {α : Type} {m : List (String × α)}
    (hnd : (objKeys m).Nodup) :
    m.foldl (fun o kv => objSet o kv.1 kv.2) [] = m := by
  rw [objSet_foldl_fresh hnd (fun x _ => by simp [objKeys])]
  simp

/-- Effect of the body lines of an object block. -/
theorem mobj_body_fold :
    ∀ (m : List (String × JVal)) (st : PState), st.last = .mobj →
      (∀ kv ∈ m, isWordKey kv.1 = true ∧ wfPrim kv.2 = true) →
      (m.map (fun kv => "\t" ++ kv.1 ++ ": " ++ jsToString kv.2)).foldl pstep st
        = { st with obuf := m.foldl (fun o kv => objSet o kv.1 kv.2) st.obuf } := by
  intro m
  induction m with
  | nil => intro st _ _; simp
  | cons kv m ih =>
    intro st hlast hwf
    obtain ⟨hks, hvs⟩ := hwf kv (by simp)
    obtain ⟨c, rest, hdata, hws, hbrc, hbcc, hq3, htrim, hnbr, hconv⟩ :=
      prim_text_props hvs
    have hassoc : "\t" ++ kv.1 ++ ": " ++ jsToString kv.2
        = "\t" ++ (kv.1 ++ ": " ++ jsToString kv.2) := by
      simp [String.append_assoc]
    obtain ⟨xc, xr, hxdata, hxw⟩ := built_head (k := kv.1) (x := jsToString kv.2) hks
    have hldata : ("\t" ++ (kv.1 ++ ": " ++ jsToString kv.2)).data
        = '\t' :: (kv.1 ++ ": " ++ jsToString kv.2).data := by
      rw [String.data_append]
      rfl
    have htr : jsTrim ("\t" ++ (kv.1 ++ ": " ++ jsToString kv.2))
        = jsTrim (kv.1 ++ ": " ++ jsToString kv.2) := jsTrim_tab _
    obtain ⟨htne, _, _, htbr⟩ := trim_word_head_ne hxdata hxw
    have hnw : (jsToString kv.2).data.dropWhile jsIsWS = (jsToString kv.2).data := by
      rw [hdata, List.dropWhile_cons, if_neg (by simp [hws])]
    obtain ⟨_, _, _, hopt⟩ := scalar_line_matches hks hnw hq3
      (by rw [hdata]; intro hcc; injection hcc with hcc; exact hbrc hcc)
      (by rw [hdata]; intro hcc; injection hcc with hcc; exact hbcc hcc)
    obtain ⟨hm, ha, ho, _⟩ := matchers_none_of_nonword
      (l := "\t" ++ (kv.1 ++ ": " ++ jsToString kv.2))
      (by intro y hy; rw [hldata] at hy; injection hy with hy; rw [← hy]; decide)
    have hob : matchObjBody ("\t" ++ (kv.1 ++ ": " ++ jsToString kv.2))
        = some (kv.1, jsToString kv.2) := by
      rw [matchObjBody_indented hxdata (not_ws_of_word hxw), hopt]
    rw [List.map_cons, List.foldl_cons, hassoc,
      pstep_mobj_body (by rw [htr]; exact htne) hm ha ho
        (by rw [hlast]; nofun) (by rw [hlast]; nofun) hlast
        (by rw [htr]; exact htbr) hob]
    have hcv : convertValue (kv.1, jsToString kv.2).2 = kv.2 := hconv
    rw [hcv]
    rw [ih { st with obuf := objSet st.obuf kv.1 kv.2 } hlast
      (fun x hx => hwf x (by simp [hx]))]
    rfl

/-- Effect of one serialized scalar line. -/
theorem scalar_entry_step {st : PState} {k : String} {v : JVal}
    (hk : isWordKey k = true) (hp : wfPrim v = true)
    (h1 : st.last ≠ .mstr) (h2 : st.last ≠ .marr) (h3 : st.last ≠ .mobj) :
    pstep st (k ++ ": " ++ jsToString v)
      = ⟨.clear, st.key, st.sbuf, st.abuf, st.obuf,
         ⟨st.cur.comment, objSet st.cur.data k v⟩,
         objSet st.index k st.tree.length, st.tree⟩ := by
  obtain ⟨c, rest, hdata, hws, hbrc, hbcc, hq3, htrim, hnbr, hconv⟩ :=
    prim_text_props hp
  have hnw : (jsToString v).data.dropWhile jsIsWS = (jsToString v).data := by
    rw [hdata, List.dropWhile_cons, if_neg (by simp [hws])]
  obtain ⟨hm, ha, ho, hopt⟩ := scalar_line_matches hk hnw hq3
    (by rw [hdata]; intro hcc; injection hcc with hcc; exact hbrc hcc)
    (by rw [hdata]; intro hcc; injection hcc with hcc; exact hbcc hcc)
  obtain ⟨xc, xr, hxdata, hxw⟩ := built_head (k := k) (x := jsToString v) hk
  obtain ⟨htne, -, -, -⟩ := trim_word_head_ne hxdata hxw
  rw [pstep_scalar htne hm ha ho hopt h1 h2 h3]
  have hcv : convertValue (k, jsToString v).2 = v := hconv
  rw [hcv]
  rfl

/-- Effect of the serialized lines of one key-value entry: the parser adds
exactly that key and value to the current section. -/
theorem entry_block {st : PState} {k : String} {v : JVal}
    (hk : isWordKey k = true) (hv : wfVal v = true)
    (h1 : st.last ≠ .mstr) (h2 : st.last ≠ .marr) (h3 : st.last ≠ .mobj) :
    ∃ key sb ab ob,
      (entryLines k v).foldl pstep st
        = ⟨.clear, key, sb, ab, ob,
           ⟨st.cur.comment, objSet st.cur.data k v⟩,
           objSet st.index k st.tree.length, st.tree⟩ := by
  obtain ⟨xc, xr, hxdata, hxw⟩ := built_head (k := k) (x := "\"\"\"") hk
  cases v with
  | null =>
    refine ⟨st.key, st.sbuf, st.abuf, st.obuf, ?_⟩
    rw [show entryLines k .null = [k ++ ": " ++ jsToString .null] from rfl,
      List.foldl_cons, List.foldl_nil]
    exact scalar_entry_step hk (by decide) h1 h2 h3
  | bool b =>
    refine ⟨st.key, st.sbuf, st.abuf, st.obuf, ?_⟩
    rw [show entryLines k (.bool b) = [k ++ ": " ++ jsToString (.bool b)] from rfl,
      List.foldl_cons, List.foldl_nil]
    exact scalar_entry_step hk (by cases b <;> decide) h1 h2 h3
  | num n =>
    refine ⟨st.key, st.sbuf, st.abuf, st.obuf, ?_⟩
    rw [show entryLines k (.num n) = [k ++ ": " ++ jsToString (.num n)] from rfl,
      List.foldl_cons, List.foldl_nil]
    exact scalar_entry_step hk hv h1 h2 h3
  | float src =>
    refine ⟨st.key, st.sbuf, st.abuf, st.obuf, ?_⟩
    rw [show entryLines k (.float src) = [k ++ ": " ++ jsToString (.float src)] from rfl,
      List.foldl_cons, List.foldl_nil]
    exact scalar_entry_step hk hv h1 h2 h3
  | undef => exact absurd hv (by decide)
  | func => exact absurd hv (by decide)
  | str s =>
    by_cases hnl : hasNL s = true
    · have hwms : wfMultiStr s = true := by
        have : wfVal (.str s) = wfMultiStr s := by
          show (if hasNL s then wfMultiStr s else wfStrPrim s) = wfMultiStr s
          rw [hnl]
          rfl
        rw [← this]
        exact hv
      have hbody : ∀ l ∈ splitChar '\n' s,
          jsTrim l ≠ "\"\"\"" ∧ matchMulti l = none := by
        unfold wfMultiStr at hwms
        simp only [Bool.and_eq_true, List.all_eq_true, bne_iff_ne, ne_eq,
          Option.isNone_iff_eq_none] at hwms
        exact fun l hl => (hwms.2 l hl)
      have hlines : entryLines k (.str s)
          = [k ++ ": " ++ "\"\"\""] ++ splitChar '\n' s ++ ["\"\"\""] := by
        show (if hasNL s then _ else _) = _
        rw [hnl]
        rfl
      obtain ⟨htne, -, -, -⟩ := trim_word_head_ne hxdata hxw
      rw [hlines]
      simp only [List.foldl_append, List.foldl_cons, List.foldl_nil]
      rw [pstep_multi_open htne (multi_open_matches hk)]
      rw [mstr_body_fold (splitChar '\n' s)
        { st with key := k, last := .mstr, sbuf := [] } rfl hbody]
      rw [pstep_mstr_close rfl]
      refine ⟨k, [] ++ splitChar '\n' s, st.abuf, st.obuf, ?_⟩
      simp [addKeyP, joinChar_splitChar]
    · have hwsp : wfStrPrim s = true := by
        have : wfVal (.str s) = wfStrPrim s := by
          show (if hasNL s then wfMultiStr s else wfStrPrim s) = wfStrPrim s
          rw [show hasNL s = false from by simpa using hnl]
          rfl
        rw [← this]
        exact hv
      refine ⟨st.key, st.sbuf, st.abuf, st.obuf, ?_⟩
      have hlines : entryLines k (.str s) = [k ++ ": " ++ jsToString (.str s)] := by
        show (if hasNL s then _ else _) = _
        rw [show hasNL s = false from by simpa using hnl]
        rfl
      rw [hlines, List.foldl_cons, List.foldl_nil]
      exact scalar_entry_step hk (by exact hwsp) h1 h2 h3
  | arr l =>
    have hall : ∀ e ∈ l, wfPrim e = true := by
      have : wfVal (.arr l) = (!l.isEmpty && l.all wfPrim) := rfl
      rw [this] at hv
      simp only [Bool.and_eq_true, List.all_eq_true] at hv
      exact hv.2
    obtain ⟨htne, -, -, -⟩ := trim_word_head_ne
      (built_head (k := k) (x := "[") hk).choose_spec.choose_spec.1
      (built_head (k := k) (x := "[") hk).choose_spec.choose_spec.2
    rw [show entryLines k (.arr l)
        = [k ++ ": " ++ "["] ++ l.map (fun e => "\t" ++ jsToString e) ++ ["]"] from rfl]
    simp only [List.foldl_append, List.foldl_cons, List.foldl_nil]
    rw [pstep_arr_open htne (array_open_matches hk).1 h1 (array_open_matches hk).2]
    rw [marr_body_fold l { st with key := k, last := .marr, abuf := [] } rfl hall]
    rw [pstep_marr_close rfl]
    refine ⟨k, st.sbuf, [] ++ l, st.obuf, ?_⟩
    simp [addKeyP]
  | obj m =>
    have hprops : (objKeys m).Nodup ∧ ∀ kv ∈ m, isWordKey kv.1 = true ∧ wfPrim kv.2 = true := by
      have : wfVal (.obj m)
          = (!m.isEmpty && decide ((objKeys m).Nodup)
             && m.all (fun kv => isWordKey kv.1 && wfPrim kv.2)) := rfl
      rw [this] at hv
      simp only [Bool.and_eq_true, List.all_eq_true, decide_eq_true_eq] at hv
      exact ⟨hv.1.2, fun kv hkv => by simpa using hv.2 kv hkv⟩
    obtain ⟨htne, -, -, -⟩ := trim_word_head_ne
      (built_head (k := k) (x := "\x7b") hk).choose_spec.choose_spec.1
      (built_head (k := k) (x := "\x7b") hk).choose_spec.choose_spec.2
    rw [show entryLines k (.obj m)
        = [k ++ ": " ++ "\x7b"]
          ++ m.map (fun kv => "\t" ++ kv.1 ++ ": " ++ jsToString kv.2)
          ++ ["\x7d"] from rfl]
    simp only [List.foldl_append, List.foldl_cons, List.foldl_nil]
    rw [pstep_obj_open htne (obj_open_matches hk).1 (obj_open_matches hk).2.1
        h1 h2 (obj_open_matches hk).2.2]
    rw [mobj_body_fold m { st with key := k, last := .mobj, obuf := [] } rfl hprops.2]
    rw [pstep_mobj_close rfl]
    refine ⟨k, st.sbuf, st.abuf, m.foldl (fun o kv => objSet o kv.1 kv.2) [], ?_⟩
    simp [addKeyP, objSet_foldl_self hprops.1]

/-- Effect of the serialized entries of a whole section body. -/
theorem entries_fold :
    ∀ (ds : List (String × JVal)) (st : PState), ds ≠ [] →
      (∀ kv ∈ ds, isWordKey kv.1 = true ∧ wfVal kv.2 = true) →
      st.last ≠ .mstr → st.last ≠ .marr → st.last ≠ .mobj →
      ∃ key sb ab ob ix,
        ((ds.map (fun kv => entryLines kv.1 kv.2)).flatten).foldl pstep st
          = ⟨.clear, key, sb, ab, ob,
             ⟨st.cur.comment, ds.foldl (fun o kv => objSet o kv.1 kv.2) st.cur.data⟩,
             ix, st.tree⟩ := by
  intro ds
  induction ds with
  | nil => intro st h; exact absurd rfl h
  | cons kv ds ih =>
    intro st _ hwf h1 h2 h3
    obtain ⟨hks, hvs⟩ := hwf kv (by simp)
    rw [List.map_cons, List.flatten_cons, List.foldl_append]
    obtain ⟨key1, sb1, ab1, ob1, hst1⟩ := entry_block hks hvs h1 h2 h3
    rw [hst1]
    cases ds with
    | nil =>
      refine ⟨key1, sb1, ab1, ob1, objSet st.index kv.1 st.tree.length, ?_⟩
      simp
    | cons kv2 ds2 =>
      obtain ⟨key2, sb2, ab2, ob2, ix2, hst2⟩ :=
        ih ⟨.clear, key1, sb1, ab1, ob1,
            ⟨st.cur.comment, objSet st.cur.data kv.1 kv.2⟩,
            objSet st.index kv.1 st.tree.length, st.tree⟩
          (by simp) (fun x hx => hwf x (by simp [hx]))
          (by nofun) (by nofun) (by nofun)
      rw [hst2]
      exact ⟨key2, sb2, ab2, ob2, ix2, by simp⟩

/-- Folding the comment accumulator is a join with trailing newlines. -/
theorem fold_nl_acc : ∀ (ls : List String) (a0 a1 : String),
    ls.foldl (fun a l => a ++ l ++ "\n") (a0 ++ a1)
      = a0 ++ ls.foldl (fun a l => a ++ l ++ "\n") a1 := by
  intro ls
  induction ls with
  | nil => intro a0 a1; rfl
  | cons l ls ih =>
    intro a0 a1
    rw [List.foldl_cons, List.foldl_cons]
    rw [show a0 ++ a1 ++ l ++ "\n" = a0 ++ (a1 ++ l ++ "\n") from by
      simp [String.append_assoc]]
    exact ih a0 (a1 ++ l ++ "\n")

/-- `joinChar` unfolds on two or more fragments. -/
theorem joinChar_cons_cons (sep : Char) (p q : String) (ps : List String) :
    joinChar sep (p :: q :: ps) = p ++ ⟨[sep]⟩ ++ joinChar sep (q :: ps) := rfl

/-- The comment accumulator is a newline-terminated join. -/
theorem fold_nl_eq_join : ∀ (ls : List String),
    ls.foldl (fun a l => a ++ l ++ "\n") "" = joinChar '\n' (ls ++ [""]) := by
  intro ls
  induction ls with
  | nil => rfl
  | cons l ls ih =>
    rw [List.foldl_cons]
    rw [show ("" : String) ++ l ++ "\n" = (l ++ "\n") ++ "" from by simp]
    rw [fold_nl_acc ls (l ++ "\n") "", ih]
    cases hq : ls ++ [""] with
    | nil => exact absurd hq (by simp)
    | cons m ms =>
      rw [show (l :: ls) ++ [""] = l :: (ls ++ [""]) from rfl, hq,
        joinChar_cons_cons, ← hq]

/-- A stored non-empty comment rebuilds from its pushed lines. -/
theorem comment_rebuild {c : String} (hwc : wfComment c = true) (hne : c ≠ "") :
    commentPushLines c ≠ []
    ∧ (∀ l ∈ commentPushLines c, commentLineOk l = true)
    ∧ (commentPushLines c).foldl (fun a l => a ++ l ++ "\n") "" = c := by
  unfold wfComment at hwc
  simp only [Bool.or_eq_true, beq_iff_eq, Bool.and_eq_true, List.all_eq_true] at hwc
  rcases hwc with hc | ⟨hlast, hok⟩
  · exact absurd hc hne
  · have hnl_mem : '\n' ∈ c.data := List.mem_of_mem_getLast? (by simp [hlast])
    have hlen2 : 2 ≤ (splitChar '\n' c).length := splitCharGo_len2 [] hnl_mem
    have hlastfrag : (splitChar '\n' c).getLast? = some "" :=
      splitCharGo_getLast_sep [] hlast
    have hcpl : commentPushLines c = (splitChar '\n' c).dropLast := by
      unfold commentPushLines
      rw [if_pos (by rw [hlastfrag])]
    have hne' : splitChar '\n' c ≠ [] := by
      intro h
      rw [h] at hlen2
      simp at hlen2
    have hsplit_eq : splitChar '\n' c = (splitChar '\n' c).dropLast ++ [""] := by
      have h1 := List.dropLast_append_getLast hne'
      have h2 := List.getLast?_eq_getLast (splitChar '\n' c) hne'
      rw [hlastfrag] at h2
      have h2' : (splitChar '\n' c).getLast hne' = "" := Option.some.inj h2.symm
      calc splitChar '\n' c
          = (splitChar '\n' c).dropLast ++ [(splitChar '\n' c).getLast hne'] := h1.symm
        _ = (splitChar '\n' c).dropLast ++ [""] := by rw [h2']
    refine ⟨?_, ?_, ?_⟩
    · rw [hcpl]
      intro h
      rw [hsplit_eq, h] at hlen2
      simp at hlen2
    · rw [hcpl]
      exact hok
    · rw [hcpl, fold_nl_eq_join, ← hsplit_eq, joinChar_splitChar]

/-- The lines of one serialized section, unrolled. -/
theorem secLines_eq (sec : Sect) :
    secLines sec
      = (if sec.comment = "" then [] else commentPushLines sec.comment)
        ++ (sec.data.map (fun kv => entryLines kv.1 kv.2)).flatten := by
  unfold secLines secPushes
  rw [List.dropLast_concat, List.flatten_append]
  by_cases hc : sec.comment = ""
  · rw [if_neg (by simp [hc]), if_pos hc]
    rfl
  · rw [if_pos hc, if_neg hc]
    simp

/-- Effect of one serialized section followed by its separator line: the
parser commits exactly that section. -/
theorem sec_block {sec : Sect} (hs : wfSect sec = true) (st : PState)
    (hcur : st.cur = emptySect)
    (h1 : st.last ≠ .mstr) (h2 : st.last ≠ .marr) (h3 : st.last ≠ .mobj) :
    ∃ key sb ab ob ix,
      (secLines sec ++ [""]).foldl pstep st
        = ⟨.blank, key, sb, ab, ob, emptySect, ix, st.tree ++ [sec]⟩ := by
  unfold wfSect at hs
  simp only [Bool.and_eq_true, Bool.or_eq_true, bne_iff_ne, ne_eq,
    Bool.not_eq_true', List.all_eq_true, decide_eq_true_eq] at hs
  obtain ⟨⟨⟨hnb, hwc⟩, hnd⟩, hentries⟩ := hs
  have hentries' : ∀ kv ∈ sec.data, isWordKey kv.1 = true ∧ wfVal kv.2 = true := by
    intro kv hkv
    have := hentries kv hkv
    simpa using this
  have hcc : st.cur.comment = "" := by rw [hcur]; rfl
  have hcd : st.cur.data = [] := by rw [hcur]; rfl
  rw [secLines_eq, List.foldl_append, List.foldl_append]
  by_cases hc : sec.comment = ""
  · -- no comment: the data must be non-empty
    have hdata_ne : sec.data ≠ [] := by
      rcases hnb with h' | h'
      · exact absurd hc h'
      · intro he
        rw [he] at h'
        exact absurd h' (by decide)
    rw [if_pos hc, List.foldl_nil]
    obtain ⟨key1, sb1, ab1, ob1, ix1, hst1⟩ :=
      entries_fold sec.data st hdata_ne hentries' h1 h2 h3
    rw [hst1, List.foldl_cons, List.foldl_nil]
    rw [pstep_sep (by decide) (by nofun) (by nofun)]
    have hcursec : (⟨st.cur.comment,
        sec.data.foldl (fun o kv => objSet o kv.1 kv.2) st.cur.data⟩ : Sect)
        = sec := by
      rw [hcc, hcd, objSet_foldl_self hnd, ← hc]
    have hpf : pflush ⟨.clear, key1, sb1, ab1, ob1,
          ⟨st.cur.comment, sec.data.foldl (fun o kv => objSet o kv.1 kv.2) st.cur.data⟩,
          ix1, st.tree⟩
        = ⟨.clear, key1, sb1, ab1, ob1, emptySect, ix1, st.tree ++ [sec]⟩ := by
      unfold pflush
      rw [if_neg ?hcond]
      · rw [hcursec]
      case hcond =>
        intro hP
        have hP2 := hP.2
        rw [hcc, hcd, objSet_foldl_self hnd, List.isEmpty_iff] at hP2
        exact hdata_ne hP2
    rw [hpf]
    exact ⟨key1, sb1, ab1, ob1, ix1, rfl⟩
  · -- a comment is present
    obtain ⟨hcne, hcok, hcfold⟩ := comment_rebuild hwc hc
    rw [if_neg hc]
    rw [comment_block (commentPushLines sec.comment) st hcne hcok h1 h2 h3]
    have hcomm : (commentPushLines sec.comment).foldl
        (fun a l => a ++ l ++ "\n") st.cur.comment = sec.comment := by
      rw [hcc]
      exact hcfold
    by_cases hd : sec.data = []
    · rw [show (sec.data.map (fun kv => entryLines kv.1 kv.2)).flatten = [] from by
        rw [hd]; rfl]
      rw [List.foldl_nil, List.foldl_cons, List.foldl_nil]
      rw [pstep_sep (by decide) (by nofun) (by nofun)]
      have hcursec : (⟨(commentPushLines sec.comment).foldl
            (fun a l => a ++ l ++ "\n") st.cur.comment, st.cur.data⟩ : Sect) = sec := by
        rw [hcomm, hcd, ← hd]
      have hpf : pflush ⟨.clear, st.key, st.sbuf, st.abuf, st.obuf,
            ⟨(commentPushLines sec.comment).foldl (fun a l => a ++ l ++ "\n") st.cur.comment,
             st.cur.data⟩, st.index, st.tree⟩
          = ⟨.clear, st.key, st.sbuf, st.abuf, st.obuf, emptySect, st.index,
             st.tree ++ [sec]⟩ := by
        unfold pflush
        rw [if_neg ?hcond2]
        · rw [hcursec]
        case hcond2 =>
          intro hP
          have hP1 := hP.1
          rw [hcomm] at hP1
          exact hc hP1
      rw [hpf]
      exact ⟨st.key, st.sbuf, st.abuf, st.obuf, st.index, rfl⟩
    · obtain ⟨key1, sb1, ab1, ob1, ix1, hst1⟩ :=
        entries_fold sec.data
          ⟨.clear, st.key, st.sbuf, st.abuf, st.obuf,
           ⟨(commentPushLines sec.comment).foldl (fun a l => a ++ l ++ "\n") st.cur.comment,
            st.cur.data⟩, st.index, st.tree⟩
          hd hentries' (by nofun) (by nofun) (by nofun)
      rw [hst1, List.foldl_cons, List.foldl_nil]
      rw [pstep_sep (by decide) (by nofun) (by nofun)]
      have hcursec : (⟨(commentPushLines sec.comment).foldl
            (fun a l => a ++ l ++ "\n") st.cur.comment,
            sec.data.foldl (fun o kv => objSet o kv.1 kv.2) st.cur.data⟩ : Sect)
          = sec := by
        rw [hcomm, hcd, objSet_foldl_self hnd]
      have hpf : pflush ⟨.clear, key1, sb1, ab1, ob1,
            ⟨(commentPushLines sec.comment).foldl (fun a l => a ++ l ++ "\n") st.cur.comment,
             sec.data.foldl (fun o kv => objSet o kv.1 kv.2) st.cur.data⟩,
            ix1, st.tree⟩
          = ⟨.clear, key1, sb1, ab1, ob1, emptySect, ix1, st.tree ++ [sec]⟩ := by
        unfold pflush
        rw [if_neg ?hcond3]
        · rw [hcursec]
        case hcond3 =>
          intro hP
          have hP1 := hP.1
          rw [hcomm] at hP1
          exact hc hP1
      rw [hpf]
      exact ⟨key1, sb1, ab1, ob1, ix1, rfl⟩

/-- Invariant of the parse loop across whole serialized sections: sections
are committed one by one, in order. -/
theorem parse_fold_inv :
    ∀ (t : List Sect) (st : PState), wfTree t = true → st.cur = emptySect →
      st.last ≠ .mstr → st.last ≠ .marr → st.last ≠ .mobj →
      ((uniformLines t).foldl pstep st).cur = emptySect
      ∧ ((uniformLines t).foldl pstep st).tree = st.tree ++ t
      ∧ ((uniformLines t).foldl pstep st).last ≠ .mstr
      ∧ ((uniformLines t).foldl pstep st).last ≠ .marr
      ∧ ((uniformLines t).foldl pstep st).last ≠ .mobj := by
  intro t
  induction t with
  | nil =>
    intro st _ hcur h1 h2 h3
    rw [show uniformLines [] = [] from rfl, List.foldl_nil]
    exact ⟨hcur, by simp, h1, h2, h3⟩
  | cons sec t ih =>
    intro st hwf hcur h1 h2 h3
    have hwfs : wfSect sec = true ∧ wfTree t = true := by
      unfold wfTree at hwf ⊢
      simpa using hwf
    have huni : uniformLines (sec :: t) = (secLines sec ++ [""]) ++ uniformLines t := by
      unfold uniformLines
      rw [List.flatMap_cons]
    rw [huni, List.foldl_append]
    obtain ⟨key1, sb1, ab1, ob1, ix1, hst1⟩ :=
      sec_block hwfs.1 st hcur h1 h2 h3
    rw [hst1]
    obtain ⟨hc', ht', hl1, hl2, hl3⟩ :=
      ih ⟨.blank, key1, sb1, ab1, ob1, emptySect, ix1, st.tree ++ [sec]⟩
        hwfs.2 rfl (by nofun) (by nofun) (by nofun)
    refine ⟨hc', ?_, hl1, hl2, hl3⟩
    rw [ht']
    simp

/-- Parsing the serialized lines of a well-formed tree restores it. -/
theorem parse_uniform {t : List Sect} (hwf : wfTree t = true) :
    parseTree (uniformLines t) = t := by
  unfold parseTree parseLines
  obtain ⟨hcur, htree, -, -, -⟩ :=
    parse_fold_inv t pInit hwf rfl (by nofun) (by nofun) (by nofun)
  have hpf : pflush ((uniformLines t).foldl pstep pInit)
      = (uniformLines t).foldl pstep pInit := by
    unfold pflush
    rw [if_pos ?hcond]
    case hcond =>
      rw [hcur]
      exact ⟨rfl, rfl⟩
  rw [hpf, htree]
  rfl

/-- A round-trip-safe primitive is never a forbidden nested value. -/
theorem badSubB_false_of_wfPrim {v : JVal} (h : wfPrim v = true) :
    badSubB v = false := by
  cases v with
  | str s =>
    have hw : wfStrPrim s = true := by simpa [wfPrim] using h
    unfold wfStrPrim at hw
    simp only [Bool.and_eq_true, Bool.not_eq_true'] at hw
    show hasNL s = false
    exact hw.1.1.1.1.1.1.1.1.1.2
  | arr l => exact absurd h (by rw [show wfPrim (JVal.arr l) = false from rfl]; simp)
  | obj m => exact absurd h (by rw [show wfPrim (JVal.obj m) = false from rfl]; simp)
  | null => rfl
  | undef => rfl
  | func => rfl
  | bool b => rfl
  | num n => rfl
  | float src => rfl

/-- On a well-formed value `serEntry` succeeds with exactly `entryLines`. -/
theorem serEntry_ok {k : String} {v : JVal} (hv : wfVal v = true) :
    serEntry k v = .ok (entryLines k v) := by
  cases v with
  | arr l =>
    have hall : ∀ e ∈ l, wfPrim e = true := by
      have : wfVal (.arr l) = (!l.isEmpty && l.all wfPrim) := rfl
      rw [this] at hv
      simp only [Bool.and_eq_true, List.all_eq_true] at hv
      exact hv.2
    simp only [serEntry]
    rw [mapE_ok_of_all (g := fun e => "\t" ++ jsToString e) l
      (fun e he => by simp [badSubB_false_of_wfPrim (hall e he)])]
    rfl
  | obj m =>
    have hall : ∀ kv ∈ m, wfPrim kv.2 = true := by
      have : wfVal (.obj m)
          = (!m.isEmpty && decide ((objKeys m).Nodup)
             && m.all (fun kv => isWordKey kv.1 && wfPrim kv.2)) := rfl
      rw [this] at hv
      simp only [Bool.and_eq_true, List.all_eq_true] at hv
      exact fun kv hkv => (by simpa using hv.2 kv hkv : _ ∧ _).2
    simp only [serEntry]
    rw [mapE_ok_of_all (g := fun kv => "\t" ++ kv.1 ++ ": " ++ jsToString kv.2) m
      (fun kv hkv => by simp [badSubB_false_of_wfPrim (hall kv hkv)])]
    rfl
  | str s =>
    simp only [serEntry, entryLines]
    by_cases hnl : hasNL s = true
    · rw [if_pos hnl, if_pos hnl]
    · rw [if_neg hnl, if_neg hnl]
  | null => rfl
  | undef => rfl
  | func => rfl
  | bool b => rfl
  | num n => rfl
  | float src => rfl

/-- On a well-formed section `serSection` succeeds with exactly
`secPushes`. -/
theorem serSection_ok {sec : Sect} (hs : wfSect sec = true) :
    serSection sec = .ok (secPushes sec) := by
  have hentries : ∀ kv ∈ sec.data, wfVal kv.2 = true := by
    unfold wfSect at hs
    simp only [Bool.and_eq_true, List.all_eq_true] at hs
    exact fun kv hkv => (by simpa using hs.2 kv hkv : _ ∧ _).2
  unfold serSection
  rw [mapE_ok_of_all sec.data (fun kv hkv => serEntry_ok (hentries kv hkv))]
  rfl

/-- Every entry push opens with the key line. -/
theorem entryLines_head : ∀ (k : String) (v : JVal),
    ∃ x rest, entryLines k v = (k ++ ": " ++ x) :: rest := by
  intro k v
  cases v with
  | str s =>
    by_cases hnl : hasNL s = true
    · refine ⟨"\"\"\"", splitChar '\n' s ++ ["\"\"\""], ?_⟩
      rw [show entryLines k (.str s)
          = (if hasNL s = true
             then [k ++ ": " ++ "\"\"\""] ++ splitChar '\n' s ++ ["\"\"\""]
             else [k ++ ": " ++ s]) from rfl, if_pos hnl]
      rfl
    · refine ⟨s, [], ?_⟩
      rw [show entryLines k (.str s)
          = (if hasNL s = true
             then [k ++ ": " ++ "\"\"\""] ++ splitChar '\n' s ++ ["\"\"\""]
             else [k ++ ": " ++ s]) from rfl, if_neg hnl]
  | arr l => exact ⟨"[", l.map (fun e => "\t" ++ jsToString e) ++ ["]"], rfl⟩
  | obj m =>
    exact ⟨"\x7b", m.map (fun kv => "\t" ++ kv.1 ++ ": " ++ jsToString kv.2)
      ++ ["\x7d"], rfl⟩
  | null => exact ⟨jsToString .null, [], rfl⟩
  | undef => exact ⟨"null", [], rfl⟩
  | func => exact ⟨jsToString .func, [], rfl⟩
  | bool b => exact ⟨jsToString (.bool b), [], rfl⟩
  | num n => exact ⟨jsToString (.num n), [], rfl⟩
  | float src => exact ⟨jsToString (.float src), [], rfl⟩

/-- `entryLines` is never the bare separator push. -/
theorem entryLines_ne_blank (k : String) (v : JVal) : entryLines k v ≠ [""] := by
  obtain ⟨x, rest, he⟩ := entryLines_head k v
  rw [he]
  intro h
  injection h with h1 h2
  have := congrArg String.data h1
  rw [built_data] at this
  simp at this

/-- The non-separator pushes of a well-formed section: non-empty, and the
last one is not the separator. -/
theorem secFront_props {sec : Sect} (hs : wfSect sec = true) :
    (secPushes sec).dropLast ≠ []
    ∧ ((secPushes sec).dropLast).getLast? ≠ some [""] := by
  have hdl : (secPushes sec).dropLast
      = (if sec.comment ≠ "" then [commentPushLines sec.comment] else [])
        ++ sec.data.map (fun kv => entryLines kv.1 kv.2) := by
    unfold secPushes
    rw [List.dropLast_concat]
  unfold wfSect at hs
  simp only [Bool.and_eq_true, Bool.or_eq_true, bne_iff_ne, ne_eq,
    Bool.not_eq_true', List.all_eq_true, decide_eq_true_eq] at hs
  obtain ⟨⟨⟨hnb, hwc⟩, -⟩, -⟩ := hs
  by_cases hd : sec.data = []
  · have hcne : sec.comment ≠ "" := by
      rcases hnb with h' | h'
      · exact h'
      · rw [hd] at h'
        exact absurd h' (by decide)
    obtain ⟨hne, hok, -⟩ := comment_rebuild hwc hcne
    rw [hdl, hd, if_pos hcne]
    refine ⟨by simp, ?_⟩
    intro h
    obtain h' : commentPushLines sec.comment = [""] := by simpa using h
    have : commentLineOk "" = true := hok "" (by rw [h']; simp)
    exact absurd this (by decide)
  · rw [hdl]
    have hmapne : sec.data.map (fun kv => entryLines kv.1 kv.2) ≠ [] := by
      simp [hd]
    refine ⟨by simp [hmapne], ?_⟩
    rw [List.getLast?_append_of_ne_nil _ hmapne]
    rw [List.getLast?_map]
    cases hq : sec.data.getLast? with
    | none =>
      rw [List.getLast?_eq_getLast sec.data hd] at hq
      cases hq
    | some kv =>
      intro h
      obtain h' : entryLines kv.1 kv.2 = [""] := by simpa using h
      exact entryLines_ne_blank kv.1 kv.2 h'

/-- The trailing-separator pop keeps everything up to the last real push. -/
theorem popSeps_concat {A F : List (List String)} (hF : F ≠ [])
    (hlast : F.getLast? ≠ some [""]) :
    popSeps (A ++ F ++ [[""]]) = A ++ F := by
  obtain ⟨x, rest, hxr, hxne⟩ :
      ∃ x rest, F.reverse = x :: rest ∧ x ≠ [""] := by
    cases hq : F.reverse with
    | nil =>
      exact absurd (by simpa using congrArg List.reverse hq) hF
    | cons x rest =>
      refine ⟨x, rest, rfl, ?_⟩
      intro he
      apply hlast
      rw [← List.head?_reverse, hq, he]
      rfl
  unfold popSeps
  rw [show (A ++ F ++ [[""]]).reverse = [""] :: (F.reverse ++ A.reverse) from by simp]
  rw [List.dropWhile_cons, if_pos (by simp)]
  rw [hxr, List.cons_append, List.dropWhile_cons, if_neg (by simp [hxne])]
  rw [← List.cons_append, ← hxr]
  simp

/-- The flattened pushes of one section are its lines plus the separator. -/
theorem secPushes_flatten (sec : Sect) :
    (secPushes sec).flatten = secLines sec ++ [""] := by
  have hsp : secPushes sec = (secPushes sec).dropLast ++ [[""]] := by
    unfold secPushes
    rw [List.dropLast_concat]
  conv_lhs => rw [hsp]
  rw [List.flatten_append]
  unfold secLines
  simp

/-- Flattening all pushes of all sections gives the uniform lines. -/
theorem uniform_flatten : ∀ (t : List Sect),
    ((t.map secPushes).flatten).flatten = uniformLines t := by
  intro t
  induction t with
  | nil => rfl
  | cons sec t ih =>
    rw [List.map_cons, List.flatten_cons, List.flatten_append, secPushes_flatten, ih]
    unfold uniformLines
    rw [List.flatMap_cons]

/-- On a non-empty well-formed tree the serializer succeeds and produces
exactly the uniform lines. -/
theorem serializeE_wf {t : List Sect} (hwf : wfTree t = true) (hne : t ≠ []) :
    serializeE t = .ok (uniformLines t) := by
  have hsecs : ∀ sec ∈ t, wfSect sec = true := by
    unfold wfTree at hwf
    rw [List.all_eq_true] at hwf
    exact hwf
  unfold serializeE
  rw [mapE_ok_of_all (g := secPushes) t (fun sec hsec => serSection_ok (hsecs sec hsec))]
  show Except.ok ((popSeps (t.map secPushes).flatten).flatten ++ [""])
      = Except.ok (uniformLines t)
  obtain ⟨t', secN, hte⟩ : ∃ t' secN, t = t' ++ [secN] :=
    ⟨t.dropLast, t.getLast hne, (List.dropLast_append_getLast hne).symm⟩
  have hsecN : wfSect secN = true := hsecs secN (by rw [hte]; simp)
  have hsp : secPushes secN = (secPushes secN).dropLast ++ [[""]] := by
    unfold secPushes
    rw [List.dropLast_concat]
  have hflat : (t.map secPushes).flatten
      = ((t'.map secPushes).flatten ++ (secPushes secN).dropLast) ++ [[""]] := by
    rw [hte, List.map_append, List.flatten_append]
    simp only [List.map_cons, List.map_nil, List.flatten_cons, List.flatten_nil,
      List.append_nil]
    conv_lhs => rw [hsp]
    simp [List.append_assoc]
  obtain ⟨hFne, hFlast⟩ := secFront_props hsecN
  rw [hflat, popSeps_concat hFne hFlast]
  have hre : ((t'.map secPushes).flatten ++ (secPushes secN).dropLast).flatten ++ [""]
      = (((t'.map secPushes).flatten ++ (secPushes secN).dropLast) ++ [[""]]).flatten := by
    rw [List.flatten_append]
    simp
  rw [hre, ← hflat, uniform_flatten]

/-- The serialized text of a safe primitive contains no line break. -/
theorem prim_no_nl {v : JVal} (h : wfPrim v = true) :
    '\n' ∉ (jsToString v).data := by
  cases v with
  | null => decide
  | undef => exact absurd h (by decide)
  | func => exact absurd h (by decide)
  | bool b => cases b <;> decide
  | num n =>
    simp only [wfPrim, Bool.and_eq_true, decide_eq_true_eq] at h
    have hS : jsToString (.num n) = ⟨natDigits n.toNat⟩ := by
      simp only [jsToString, intToDec, if_neg (by omega : ¬ n < 0)]
    obtain ⟨-, hdig, -⟩ := natDigits_spec n.toNat
    rw [hS]
    intro hmem
    exact absurd (hdig '\n' hmem) (by decide)
  | float src =>
    have hfl : isFloatLit src = true := by simpa [wfPrim] using h
    have hstruct : ∃ fp, src.data.dropWhile Char.isDigit = '.' :: fp
        ∧ (∀ x ∈ fp, x.isDigit = true) := by
      unfold isFloatLit at hfl
      split at hfl
      next fp heq =>
        simp only [Bool.and_eq_true, Bool.not_eq_true', List.all_eq_true] at hfl
        exact ⟨fp, heq, hfl.2.2⟩
      next => cases hfl
    obtain ⟨fp, hdrop, hfpd⟩ := hstruct
    have hsplit : src.data = src.data.takeWhile Char.isDigit ++ '.' :: fp := by
      rw [← hdrop, List.takeWhile_append_dropWhile]
    intro hmem
    rw [show (jsToString (JVal.float src)).data = src.data from rfl, hsplit] at hmem
    rcases List.mem_append.mp hmem with h' | h'
    · exact absurd (List.mem_takeWhile_imp h') (by decide)
    · rcases List.mem_cons.mp h' with h' | h'
      · cases h'
      · exact absurd (hfpd '\n' h') (by decide)
  | str s =>
    have hw : wfStrPrim s = true := by simpa [wfPrim] using h
    unfold wfStrPrim at hw
    simp only [Bool.and_eq_true, Bool.not_eq_true'] at hw
    have hnl : hasNL s = false := hw.1.1.1.1.1.1.1.1.1.2
    unfold hasNL at hnl
    rw [List.any_eq_false] at hnl
    intro hmem
    have := hnl '\n' hmem
    simp at this
  | arr l => exact absurd h (by rw [show wfPrim (JVal.arr l) = false from rfl]; simp)
  | obj m => exact absurd h (by rw [show wfPrim (JVal.obj m) = false from rfl]; simp)

/-- A word key contains no line break. -/
theorem key_no_nl {k : String} (hk : isWordKey k = true) : '\n' ∉ k.data := by
  unfold isWordKey at hk
  simp only [Bool.and_eq_true, List.all_eq_true] at hk
  intro hmem
  exact absurd (hk.2 '\n' hmem) (by decide)

/-- A built line with break-free parts contains no line break. -/
theorem built_no_nl {k x : String} (hk : '\n' ∉ k.data) (hx : '\n' ∉ x.data) :
    '\n' ∉ (k ++ ": " ++ x).data := by
  rw [built_data]
  intro hmem
  rcases List.mem_append.mp hmem with h' | h'
  · exact hk h'
  · rcases List.mem_cons.mp h' with h' | h'
    · cases h'
    · rcases List.mem_cons.mp h' with h' | h'
      · cases h'
      · exact hx h'

/-- No physical line of an entry contains a line break. -/
theorem entryLines_no_nl {k : String} {v : JVal} (hk : isWordKey k = true)
    (hv : wfVal v = true) : ∀ l ∈ entryLines k v, '\n' ∉ l.data := by
  have hknl := key_no_nl hk
  cases v with
  | null =>
    intro l hl
    rw [show entryLines k .null = [k ++ ": " ++ jsToString .null] from rfl] at hl
    obtain hl : l = k ++ ": " ++ jsToString .null := by simpa using hl
    exact hl ▸ built_no_nl hknl (by decide)
  | undef => exact absurd hv (by decide)
  | func => exact absurd hv (by decide)
  | bool b =>
    intro l hl
    rw [show entryLines k (.bool b) = [k ++ ": " ++ jsToString (.bool b)] from rfl] at hl
    obtain hl : l = k ++ ": " ++ jsToString (.bool b) := by simpa using hl
    exact hl ▸ built_no_nl hknl (by cases b <;> decide)
  | num n =>
    intro l hl
    rw [show entryLines k (.num n) = [k ++ ": " ++ jsToString (.num n)] from rfl] at hl
    obtain hl : l = k ++ ": " ++ jsToString (.num n) := by simpa using hl
    exact hl ▸ built_no_nl hknl (prim_no_nl (show wfPrim (.num n) = true from hv))
  | float src =>
    intro l hl
    rw [show entryLines k (.float src) = [k ++ ": " ++ jsToString (.float src)] from rfl] at hl
    obtain hl : l = k ++ ": " ++ jsToString (.float src) := by simpa using hl
    exact hl ▸ built_no_nl hknl (prim_no_nl (show wfPrim (.float src) = true from hv))
  | str s =>
    by_cases hnl : hasNL s = true
    · intro l hl
      rw [show entryLines k (.str s)
          = (if hasNL s = true
             then [k ++ ": " ++ "\"\"\""] ++ splitChar '\n' s ++ ["\"\"\""]
             else [k ++ ": " ++ s]) from rfl, if_pos hnl] at hl
      rcases List.mem_append.mp hl with hl | hl
      · rcases List.mem_append.mp hl with hl | hl
        · obtain hl : l = _ := by simpa using hl
          exact hl ▸ built_no_nl hknl (by decide)
        · exact splitChar_frag_no_sep (List.not_mem_nil '\n') hl
      · obtain hl : l = "\"\"\"" := by simpa using hl
        rw [hl]
        decide
    · intro l hl
      rw [show entryLines k (.str s)
          = (if hasNL s = true
             then [k ++ ": " ++ "\"\"\""] ++ splitChar '\n' s ++ ["\"\"\""]
             else [k ++ ": " ++ s]) from rfl, if_neg hnl] at hl
      obtain hl : l = _ := by simpa using hl
      have hsp : wfPrim (.str s) = true := by
        have : wfVal (.str s) = wfStrPrim s := by
          show (if hasNL s then wfMultiStr s else wfStrPrim s) = wfStrPrim s
          rw [show hasNL s = false from by simpa using hnl]
          rfl
        rw [this] at hv
        simpa [wfPrim] using hv
      exact hl ▸ built_no_nl hknl (prim_no_nl hsp)
  | arr l0 =>
    have hall : ∀ e ∈ l0, wfPrim e = true := by
      have : wfVal (.arr l0) = (!l0.isEmpty && l0.all wfPrim) := rfl
      rw [this] at hv
      simp only [Bool.and_eq_true, List.all_eq_true] at hv
      exact hv.2
    intro l hl
    rw [show entryLines k (.arr l0)
        = [k ++ ": " ++ "["] ++ l0.map (fun e => "\t" ++ jsToString e) ++ ["]"] from rfl] at hl
    rcases List.mem_append.mp hl with hl | hl
    · rcases List.mem_append.mp hl with hl | hl
      · obtain hl : l = _ := by simpa using hl
        exact hl ▸ built_no_nl hknl (by decide)
      · obtain ⟨e, he, hle⟩ := List.mem_map.mp hl
        rw [← hle, String.data_append]
        intro hmem
        rcases List.mem_append.mp hmem with h' | h'
        · exact absurd h' (by decide)
        · exact prim_no_nl (hall e he) h'
    · obtain hl : l = "]" := by simpa using hl
      rw [hl]
      decide
  | obj m =>
    have hall : ∀ kv ∈ m, isWordKey kv.1 = true ∧ wfPrim kv.2 = true := by
      have : wfVal (.obj m)
          = (!m.isEmpty && decide ((objKeys m).Nodup)
             && m.all (fun kv => isWordKey kv.1 && wfPrim kv.2)) := rfl
      rw [this] at hv
      simp only [Bool.and_eq_true, List.all_eq_true] at hv
      exact fun kv hkv => by simpa using hv.2 kv hkv
    intro l hl
    rw [show entryLines k (.obj m)
        = [k ++ ": " ++ "\x7b"]
          ++ m.map (fun kv => "\t" ++ kv.1 ++ ": " ++ jsToString kv.2)
          ++ ["\x7d"] from rfl] at hl
    rcases List.mem_append.mp hl with hl | hl
    · rcases List.mem_append.mp hl with hl | hl
      · obtain hl : l = _ := by simpa using hl
        exact hl ▸ built_no_nl hknl (by decide)
      · obtain ⟨kv, hkv, hle⟩ := List.mem_map.mp hl
        rw [← hle,
          show "\t" ++ kv.1 ++ ": " ++ jsToString kv.2
            = "\t" ++ (kv.1 ++ ": " ++ jsToString kv.2) from by simp [String.append_assoc],
          String.data_append]
        intro hmem
        rcases List.mem_append.mp hmem with h' | h'
        · exact absurd h' (by decide)
        · exact built_no_nl (key_no_nl (hall kv hkv).1) (prim_no_nl (hall kv hkv).2) h'
    · obtain hl : l = "\x7d" := by simpa using hl
      rw [hl]
      decide

/-- No physical line of the serialized output contains a line break. -/
theorem uniformLines_no_nl {t : List Sect} (hwf : wfTree t = true) :
    ∀ l ∈ uniformLines t, '\n' ∉ l.data := by
  intro l hl
  unfold uniformLines at hl
  obtain ⟨sec, hsec, hlsec⟩ := List.mem_flatMap.mp hl
  have hws : wfSect sec = true := by
    unfold wfTree at hwf
    rw [List.all_eq_true] at hwf
    exact hwf sec hsec
  rcases List.mem_append.mp hlsec with hl' | hl'
  · rw [secLines_eq] at hl'
    rcases List.mem_append.mp hl' with hl'' | hl''
    · by_cases hc : sec.comment = ""
      · rw [if_pos hc] at hl''
        cases hl''
      · rw [if_neg hc] at hl''
        unfold wfSect at hws
        simp only [Bool.and_eq_true] at hws
        obtain ⟨hcne, hcok, hcfold⟩ := comment_rebuild hws.1.1.2 hc
        unfold commentPushLines at hl''
        by_cases hlast : (splitChar '\n' sec.comment).getLast? = some ""
        · rw [if_pos hlast] at hl''
          exact splitChar_frag_no_sep (List.not_mem_nil '\n')
            (List.dropLast_subset _ hl'')
        · rw [if_neg hlast] at hl''
          exact splitChar_frag_no_sep (List.not_mem_nil '\n') hl''
    · obtain ⟨kv, hkv, hlkv⟩ := List.mem_flatMap.mp (by
        rw [← List.flatMap_def] at hl''
        exact hl'')
      unfold wfSect at hws
      simp only [Bool.and_eq_true, List.all_eq_true] at hws
      have := hws.2 kv hkv
      simp only [Bool.and_eq_true] at this
      exact entryLines_no_nl this.1 this.2 l hlkv
  · obtain hl'' : l = "" := by simpa using hl'
    rw [hl'']
    intro h
    cases h

/-- Characters of a joined string come from the fragments or are the
separator. -/
theorem joinChar_data_mem {sep : Char} :
    ∀ {ls : List String} {c : Char}, c ∈ (joinChar sep ls).data →
      c = sep ∨ ∃ l ∈ ls, c ∈ l.data := by
  intro ls
  induction ls with
  | nil =>
    intro c hc
    rw [show joinChar sep [] = "" from rfl] at hc
    cases hc
  | cons p ls ih =>
    intro c hc
    cases ls with
    | nil =>
      rw [show joinChar sep [p] = p from rfl] at hc
      exact Or.inr ⟨p, by simp, hc⟩
    | cons q ps =>
      rw [joinChar_cons_cons, String.data_append, String.data_append] at hc
      rcases List.mem_append.mp hc with h' | h'
      · rcases List.mem_append.mp h' with h' | h'
        · exact Or.inr ⟨p, by simp, h'⟩
        · obtain h' : c = sep := by simpa using h'
          exact Or.inl h'
      · rcases ih h' with h'' | ⟨l, hl, hcl⟩
        · exact Or.inl h''
        · exact Or.inr ⟨l, by simp [hl], hcl⟩

/-- **C2** (counterexample).  Negative integers are a supported value shape
(`serialize` renders them in decimal), but `convertValue`'s integer test is
`/^\d+$/`, which has no sign: the tree holding `k = -5` serializes to
`"k: -5\n"`, which parses back with the *string* value `"-5"`, not the
number `-5` — the round trip does not preserve values on all supported
shapes. -/
theorem c2_counterexample_negative_number :
    serializeStr [⟨"", [("k", JVal.num (-5))]⟩] = .ok "k: -5\n"
    ∧ parseStr "k: -5\n" = [⟨"", [("k", JVal.str "-5")]⟩]
    ∧ JVal.str "-5" ≠ JVal.num (-5) := by
  refine ⟨rfl, rfl, by nofun⟩

/-- **C2** (amended).  For every tree whose sections and values are
round-trip-safe (`wfTree`: word-character keys without duplicates, values
among null, booleans, canonical non-negative decimal integers below 2^53,
float literals, strings that re-classify as themselves, flat arrays and
flat objects of such primitives, top-level multiline strings whose body
lines do not open or close a triple-quote block, genuine newline-terminated
comments, and no blank sections) and whose serialized lines contain no
carriage return, serializing with the default options and parsing the
output text restores the tree exactly — same sections in the same order,
equal comments, equal keys in equal order, equal values. -/
theorem c2_roundtrip_amended (t : List Sect) (hwf : wfTree t = true)
    (hcr : ∀ l ∈ uniformLines t, '\r' ∉ l.data) :
    ∃ text, serializeStr t = .ok text ∧ parseStr text = t := by
  by_cases hne : t = []
  · subst hne
    exact ⟨"", rfl, rfl⟩
  · refine ⟨joinChar '\n' (uniformLines t), ?_, ?_⟩
    · unfold serializeStr
      rw [serializeE_wf hwf hne]
      rfl
    · unfold parseStr
      have hnoNL : ∀ l ∈ uniformLines t, '\n' ∉ l.data := uniformLines_no_nl hwf
      have hnocr : '\r' ∉ (joinChar '\n' (uniformLines t)).data := by
        intro hmem
        rcases joinChar_data_mem hmem with h | ⟨l, hl, hc⟩
        · cases h
        · exact hcr l hl hc
      rw [removeFirstCR_id hnocr]
      rw [show (⟨(joinChar '\n' (uniformLines t)).data⟩ : String)
          = joinChar '\n' (uniformLines t) from rfl]
      have hlsne : uniformLines t ≠ [] := by
        obtain ⟨sec, t', hte⟩ : ∃ sec t', t = sec :: t' := by
          cases t with
          | nil => exact absurd rfl hne
          | cons sec t' => exact ⟨sec, t', rfl⟩
        rw [hte]
        unfold uniformLines
        rw [List.flatMap_cons]
        simp
      rw [splitChar_joinChar hlsne hnoNL]
      exact parse_uniform hwf

/-- Witness for the C2 amended theorem: a tree exercising every supported
shape round-trips through serialize and parse. -/
theorem c2_witness :
    (wfTree exTreeC = true ∧ ∀ l ∈ uniformLines exTreeC, '\r' ∉ l.data)
    ∧ ∃ text, serializeStr exTreeC = .ok text ∧ parseStr text = exTreeC :=
  ⟨⟨by decide, by decide⟩,
   c2_roundtrip_amended exTreeC (by decide) (by decide)⟩
